import Mathlib

/-!
# Kyber number-theoretic transform (`test_code/kyber_ntt.c`)

A shallow embedding of the 16-bit field (`q = 3329`) reduction primitives,
twiddle table, forward / inverse transforms and `basemul`, of the 64-bit
reduction and the `int32_t` transforms `ntt_dit` / `invntt_tomont` of the same
file, and of the constants of `ntt.h`, followed by the theorems that settle
the specification claims about them.

Conventions of the embedding.

* Machine integers are mathematical integers (`Int`); a conversion to
  `int16_t` / `int32_t` / `int64_t` is the explicit two's-complement wrap
  `wrap16` / `wrap32` / `wrap64`, which also stands for the result of an
  arithmetic operation carried out in that type.
  Every function converts its parameters on entry, exactly as a C call with
  a prototype in scope converts its arguments.
* `unsigned int` loop counters are natural numbers (none of them ever leaves
  the range `0 .. 256`).
* `x >> n` on a signed value is the arithmetic shift `Int.shiftRight`.
* A buffer `int16_t r[256]` is a map from indices to values; only indices
  `0 .. 255` are ever read or written.
* Every `for` loop is a recursive function that tests the loop condition at
  each iteration.  The extra `fuel` argument only makes the recursion
  structural: a loop that exhausts it returns `none`, so every statement
  of the form `ntt x = some s` includes termination of the loops.
-/

namespace KyberNTT

/-- `#define KYBER_Q 3329` -/
def KYBER_Q : Int := 3329

/-- `#define QINV -3327`, the inverse of `q` modulo `2^16`. -/
def QINV : Int := -3327

/-- Conversion of an integer value to `int16_t` (two's complement wrap). -/
def wrap16 (x : Int) : Int := (x + 32768) % 65536 - 32768

/-- Conversion of an integer value to `int32_t` (two's complement wrap). -/
def wrap32 (x : Int) : Int := (x + 2147483648) % 4294967296 - 2147483648

/-- Ghost predicate: the value is representable as `int16_t`, so that storing
it in an `int16_t` object does not change it. -/
def fits16 (x : Int) : Bool := decide (-32768 ≤ x ∧ x ≤ 32767)

/-- The initialiser of `const int16_t zetas[128]`. -/
def zetasTable : List Int := [
  -1044,  -758,  -359, -1517,  1493,  1422,   287,   202,
   -171,   622,  1577,   182,   962, -1202, -1474,  1468,
    573, -1325,   264,   383,  -829,  1458, -1602,  -130,
   -681,  1017,   732,   608, -1542,   411,  -205, -1571,
   1223,   652,  -552,  1015, -1293,  1491,  -282, -1544,
    516,    -8,  -320,  -666, -1618, -1162,   126,  1469,
   -853,   -90,  -271,   830,   107, -1421,  -247,  -951,
   -398,   961, -1508,  -725,   448, -1065,   677, -1275,
  -1103,   430,   555,   843, -1251,   871,  1550,   105,
    422,   587,   177,  -235,  -291,  -460,  1574,  1653,
   -246,   778,  1159,  -147,  -777,  1483,  -602,  1119,
  -1590,   644,  -872,   349,   418,   329,  -156,   -75,
    817,  1097,   603,   610,  1322, -1285, -1465,   384,
  -1215,  -136,  1218, -1335,  -874,   220, -1187, -1659,
  -1185, -1530, -1278,   794, -1510,  -854,  -870,   478,
   -108,  -308,   996,   991,   958, -1460,  1522,  1628]

/-- The read `zetas[k]`.  An index outside `0 .. 127` is outside the C array;
the model returns `0` there, and the transforms never read such an index. -/
def zetas (k : Nat) : Int := zetasTable.getD k 0

/-- `int16_t barrett_reduce(int16_t a)`.
`v = ((1<<26) + KYBER_Q/2)/KYBER_Q`; `t = ((int32_t)v*a + (1<<25)) >> 26`;
`t *= KYBER_Q`; `return a - t`, with `1<<26 = 67108864` and
`1<<25 = 33554432`.  The product `v*a` and the sum are `int` computations
that cannot overflow for an `int16_t` argument; `v`, `t` and the returned
value are `int16_t` objects. -/
def barrett_reduce (a : Int) : Int :=
  let a := wrap16 a
  let v : Int := wrap16 ((67108864 + KYBER_Q / 2) / KYBER_Q)
  let t : Int := wrap16 ((v * a + 33554432) >>> (26 : Nat))
  let t : Int := wrap16 (t * KYBER_Q)
  wrap16 (a - t)

/-- Ghost predicate on a call `barrett_reduce(a)`: the two `int16_t` values
computed inside, `t * KYBER_Q` (stored by `t *= KYBER_Q`) and `a - t`
(returned), are representable, so that neither the multiplication nor the
subtraction wraps.  It holds exactly when the rounded quotient is at most
`9` in absolute value. -/
def barrett_fits (a : Int) : Bool :=
  let a := wrap16 a
  let v : Int := wrap16 ((67108864 + KYBER_Q / 2) / KYBER_Q)
  let t : Int := wrap16 ((v * a + 33554432) >>> (26 : Nat))
  fits16 (t * KYBER_Q) && fits16 (a - wrap16 (t * KYBER_Q))

/-- `int16_t montgomery_reduce(int32_t a)`.
`t = (int16_t)a*QINV` (stored in an `int16_t`);
`t = (a - (int32_t)t*KYBER_Q) >> 16` (computed in `int32_t`, stored in an
`int16_t`). -/
def montgomery_reduce (a : Int) : Int :=
  let a := wrap32 a
  let t : Int := wrap16 (wrap16 a * QINV)
  wrap16 (wrap32 (a - t * KYBER_Q) >>> (16 : Nat))

/-- `static int16_t fqmul(int16_t a, int16_t b)`:
`return montgomery_reduce((int32_t)a*b)`. -/
def fqmul (a b : Int) : Int := montgomery_reduce (wrap16 a * wrap16 b)

/-- The store `r[j] = v` on a buffer. -/
def upd (r : Nat → Int) (j : Nat) (v : Int) : Nat → Int :=
  fun i => if i = j then v else r i

/-- The variables a transform loop works on: the buffer `r`, the twiddle
counter `k`, and two ghost fields that the C code does not have: `reads`, the
indices at which `zetas` has been read so far (oldest first), and `ok`, which
stays `true` as long as every butterfly sum and difference computed so far
was representable in `int16_t` (i.e. did not wrap when stored or passed on)
and no call of `barrett_reduce` wrapped inside (`barrett_fits`). -/
structure Vars where
  r : Nat → Int
  k : Nat
  reads : List Nat
  ok : Bool

/-- Body of the innermost loop of `ntt`:
`t = fqmul(zeta, r[j + len]); r[j + len] = r[j] - t; r[j] = r[j] + t;` -/
def ntt_body (zeta : Int) (len j : Nat) (s : Vars) : Vars :=
  let t := fqmul zeta (s.r (j + len))
  let r1 := upd s.r (j + len) (wrap16 (s.r j - t))
  let ok1 := s.ok && fits16 (s.r j - t)
  let r2 := upd r1 j (wrap16 (r1 j + t))
  let ok2 := ok1 && fits16 (r1 j + t)
  { s with r := r2, ok := ok2 }

/-- The loop `for(j = start; j < start + len; j++)` of `ntt`, entered with the
current `j`; `bound` is `start + len`.  Returns the final `j` as well, which
the enclosing loop uses in `start = j + len`. -/
def ntt_j (zeta : Int) (len bound : Nat) : Nat → Nat → Vars → Option (Nat × Vars)
  | 0, _, _ => none
  | fuel + 1, j, s =>
    if j < bound then ntt_j zeta len bound fuel (j + 1) (ntt_body zeta len j s)
    else some (j, s)

/-- The loop `for(start = 0; start < 256; start = j + len)` of `ntt`, entered
with the current `start`.  Each iteration reads `zeta = zetas[k++]`. -/
def ntt_start (len : Nat) : Nat → Nat → Vars → Option Vars
  | 0, _, _ => none
  | fuel + 1, start, s =>
    if start < 256 then
      let zeta := zetas s.k
      let s1 : Vars := { s with k := s.k + 1, reads := s.reads ++ [s.k] }
      match ntt_j zeta len (start + len) 512 start s1 with
      | none => none
      | some (j, s2) => ntt_start len fuel (j + len) s2
    else some s

/-- The loop `for(len = 128; len >= 2; len >>= 1)` of `ntt`, entered with the
current `len`. -/
def ntt_len : Nat → Nat → Vars → Option Vars
  | 0, _, _ => none
  | fuel + 1, len, s =>
    if len ≥ 2 then
      match ntt_start len 512 0 s with
      | none => none
      | some s1 => ntt_len fuel (len >>> 1) s1
    else some s

/-- `void ntt(int16_t r[256])`: `k = 1`, then the three nested loops.  The
result carries the final buffer and the ghost fields. -/
def ntt (r : Nat → Int) : Option Vars :=
  ntt_len 512 128 { r := r, k := 1, reads := [], ok := true }

/-- Body of the innermost loop of `invntt`:
`t = r[j]; r[j] = barrett_reduce(t + r[j + len]);`
`r[j + len] = r[j + len] - t; r[j + len] = fqmul(zeta, r[j + len]);` -/
def invntt_body (zeta : Int) (len j : Nat) (s : Vars) : Vars :=
  let t := s.r j
  let r1 := upd s.r j (barrett_reduce (t + s.r (j + len)))
  let ok1 := s.ok && fits16 (t + s.r (j + len)) && barrett_fits (t + s.r (j + len))
  let r2 := upd r1 (j + len) (wrap16 (r1 (j + len) - t))
  let ok2 := ok1 && fits16 (r1 (j + len) - t)
  let r3 := upd r2 (j + len) (fqmul zeta (r2 (j + len)))
  { s with r := r3, ok := ok2 }

/-- The loop `for(j = start; j < start + len; j++)` of `invntt`. -/
def invntt_j (zeta : Int) (len bound : Nat) : Nat → Nat → Vars → Option (Nat × Vars)
  | 0, _, _ => none
  | fuel + 1, j, s =>
    if j < bound then invntt_j zeta len bound fuel (j + 1) (invntt_body zeta len j s)
    else some (j, s)

/-- The loop `for(start = 0; start < 256; start = j + len)` of `invntt`.  Each
iteration reads `zeta = zetas[k--]`. -/
def invntt_start (len : Nat) : Nat → Nat → Vars → Option Vars
  | 0, _, _ => none
  | fuel + 1, start, s =>
    if start < 256 then
      let zeta := zetas s.k
      let s1 : Vars := { s with k := s.k - 1, reads := s.reads ++ [s.k] }
      match invntt_j zeta len (start + len) 512 start s1 with
      | none => none
      | some (j, s2) => invntt_start len fuel (j + len) s2
    else some s

/-- The loop `for(len = 2; len <= 128; len <<= 1)` of `invntt`. -/
def invntt_len : Nat → Nat → Vars → Option Vars
  | 0, _, _ => none
  | fuel + 1, len, s =>
    if len ≤ 128 then
      match invntt_start len 512 0 s with
      | none => none
      | some s1 => invntt_len fuel (len <<< 1) s1
    else some s

/-- The final loop `for(j = 0; j < 256; j++) r[j] = fqmul(r[j], f)` of
`invntt`, with `f = 1441`. -/
def invntt_scale (f : Int) : Nat → Nat → Vars → Option Vars
  | 0, _, _ => none
  | fuel + 1, j, s =>
    if j < 256 then
      invntt_scale f fuel (j + 1) { s with r := upd s.r j (fqmul (s.r j) f) }
    else some s

/-- `void invntt(int16_t r[256])`: `f = 1441`, `k = 127`, the three nested
loops, then the scaling loop. -/
def invntt (r : Nat → Int) : Option Vars :=
  match invntt_len 512 2 { r := r, k := 127, reads := [], ok := true } with
  | none => none
  | some s => invntt_scale 1441 512 0 s

/-- `void basemul(int16_t r[2], const int16_t a[2], const int16_t b[2], int16_t zeta)`
for an output array that does not overlap the inputs; the result is the final
contents `(r[0], r[1])`.
`r[0] = fqmul(a[1], b[1]); r[0] = fqmul(r[0], zeta); r[0] += fqmul(a[0], b[0]);`
`r[1] = fqmul(a[0], b[1]); r[1] += fqmul(a[1], b[0]);` -/
def basemul (a b : Int × Int) (zeta : Int) : Int × Int :=
  let r0 := fqmul a.2 b.2
  let r0 := fqmul r0 zeta
  let r0 := wrap16 (r0 + fqmul a.1 b.1)
  let r1 := fqmul a.1 b.2
  let r1 := wrap16 (r1 + fqmul a.2 b.1)
  (r0, r1)


/-! ### Closed forms of the loops

The definitions below are not translations of source functions: they
describe what one pass of a loop computes, and the theorems `ntt_start_spec`,
`ntt_run`, `invntt_start_spec` and `invntt_run` prove that the loops above
compute exactly this. -/

/-- One layer of `ntt` (a complete `start` loop for a given `len`, entered
with twiddle counter `k`), as a function of the buffer before the layer. -/
def ct_layer (len k : Nat) (r : Nat → Int) : Nat → Int := fun i =>
  if i < 256 then
    if i % (2 * len) < len then
      wrap16 (r i + fqmul (zetas (k + i / (2 * len))) (r (i + len)))
    else
      wrap16 (r (i - len) - fqmul (zetas (k + i / (2 * len))) (r i))
  else r i

/-- Every butterfly sum and difference of one layer of `ntt` is representable
in `int16_t`. -/
def ct_fits (len k : Nat) (r : Nat → Int) : Prop :=
  ∀ i, i < 256 → i % (2 * len) < len →
    fits16 (r i - fqmul (zetas (k + i / (2 * len))) (r (i + len))) = true ∧
    fits16 (r i + fqmul (zetas (k + i / (2 * len))) (r (i + len))) = true

/-- The buffer after the first `l` layers of `ntt` (`len = 128 >> 0, ...`,
layer number `l` entered with `k = 2^l`). -/
def ntt_upto : Nat → (Nat → Int) → Nat → Int
  | 0, x => x
  | l + 1, x => ct_layer (128 >>> l) (2 ^ l) (ntt_upto l x)

/-- No butterfly of `ntt` on input `x` leaves the `int16_t` range. -/
def ntt_fits (x : Nat → Int) : Prop :=
  ∀ l, l < 7 → ct_fits (128 >>> l) (2 ^ l) (ntt_upto l x)

/-- One layer of `invntt` (a complete `start` loop for a given `len`, entered
with twiddle counter `k`), as a function of the buffer before the layer. -/
def gs_layer (len k : Nat) (r : Nat → Int) : Nat → Int := fun i =>
  if i < 256 then
    if i % (2 * len) < len then barrett_reduce (r i + r (i + len))
    else fqmul (zetas (k - i / (2 * len))) (wrap16 (r i - r (i - len)))
  else r i

/-- Every butterfly sum and difference of one layer of `invntt` is
representable in `int16_t`, and no call of `barrett_reduce` wraps inside. -/
def gs_fits (len : Nat) (r : Nat → Int) : Prop :=
  ∀ i, i < 256 → i % (2 * len) < len →
    fits16 (r i + r (i + len)) = true ∧ fits16 (r (i + len) - r i) = true ∧
    barrett_fits (r i + r (i + len)) = true

/-- The buffer after the first `l` layers of `invntt` (`len = 2 << 0, ...`,
layer number `l` entered with `k = (128 >> l) - 1`). -/
def invntt_upto : Nat → (Nat → Int) → Nat → Int
  | 0, y => y
  | l + 1, y => gs_layer (2 <<< l) ((128 >>> l) - 1) (invntt_upto l y)

/-- No butterfly of `invntt` on input `y` leaves the `int16_t` range, and no
Barrett reduction in it wraps inside. -/
def invntt_fits (y : Nat → Int) : Prop :=
  ∀ l, l < 7 → gs_fits (2 <<< l) (invntt_upto l y)

/-- The final scaling loop of `invntt` as a function of the buffer. -/
def scale_layer (f : Int) (r : Nat → Int) : Nat → Int := fun i =>
  if i < 256 then fqmul (r i) f else r i

/-- Seven-bit bit reversal, the permutation in which the twiddle table and
the output of `ntt` are laid out. -/
def brv7 (k : Nat) : Nat :=
  64 * (k % 2) + 32 * (k / 2 % 2) + 16 * (k / 4 % 2) + 8 * (k / 8 % 2) +
    4 * (k / 16 % 2) + 2 * (k / 32 % 2) + k / 64 % 2

/-- The residue `rho` for which segment number `s` of the buffer after `l`
layers of `ntt` holds the input polynomial modulo `X^(256 / 2^l) - rho`:
`-1` before the first layer; each layer splits segment `s` into the
segments `2s` and `2s + 1` with the two square roots `± zeta * R⁻¹` of its
residue, `zeta` being the twiddle the layer reads for that segment and
`R⁻¹ = 169`. -/
def rootAt : Nat → Nat → Int
  | 0, _ => -1
  | l + 1, s =>
    if s % 2 = 0 then 169 * zetas (2 ^ l + s / 2) else -(169 * zetas (2 ^ l + s / 2))

/-- The buffer of the constant polynomial `1`. -/
def one_poly : Nat → Int := fun i => if i = 0 then 1 else 0


/-! ### The 64-bit reduction, the `int32_t` transforms and the header constants -/

/-- Conversion of an integer value to `int64_t` (two's complement wrap). -/
def wrap64 (x : Int) : Int :=
  (x + 9223372036854775808) % 18446744073709551616 - 9223372036854775808

/-- `int32_t montgomery_reduce_64(int64_t a)`.
`t = (int64_t)(int32_t)a*QINV` (stored in an `int32_t`);
`t = (a - (int64_t)t*KYBER_Q) >> 16` (computed in `int64_t`, stored in an
`int32_t`).  The two products are `int64_t` computations that cannot
overflow. -/
def montgomery_reduce_64 (a : Int) : Int :=
  let a := wrap64 a
  let t : Int := wrap32 (wrap32 a * QINV)
  wrap32 (wrap64 (a - t * KYBER_Q) >>> (16 : Nat))

/-- Body of the innermost loop of `ntt_dit` (`int32_t` buffer, `int32_t t, zeta`):
`t = montgomery_reduce((int32_t)zeta * r[j + len]); r[j + len] = r[j] - t;`
`r[j] = r[j] + t;`  The product, the difference and the sum are `int32_t`
computations.  The ghost flag `ok` is left alone. -/
def ntt_dit_body (zeta : Int) (len j : Nat) (s : Vars) : Vars :=
  let t := montgomery_reduce (wrap32 (zeta * s.r (j + len)))
  let r1 := upd s.r (j + len) (wrap32 (s.r j - t))
  let r2 := upd r1 j (wrap32 (r1 j + t))
  { s with r := r2 }

/-- The loop `for(j = start; j < start + len; j++)` of `ntt_dit`. -/
def ntt_dit_j (zeta : Int) (len bound : Nat) : Nat → Nat → Vars → Option (Nat × Vars)
  | 0, _, _ => none
  | fuel + 1, j, s =>
    if j < bound then ntt_dit_j zeta len bound fuel (j + 1) (ntt_dit_body zeta len j s)
    else some (j, s)

/-- The loop `for(start = 0; start < 256; start = j + len)` of `ntt_dit`.  Each
iteration reads `zeta = zetas[k++]`. -/
def ntt_dit_start (len : Nat) : Nat → Nat → Vars → Option Vars
  | 0, _, _ => none
  | fuel + 1, start, s =>
    if start < 256 then
      let zeta := zetas s.k
      let s1 : Vars := { s with k := s.k + 1, reads := s.reads ++ [s.k] }
      match ntt_dit_j zeta len (start + len) 512 start s1 with
      | none => none
      | some (j, s2) => ntt_dit_start len fuel (j + len) s2
    else some s

/-- The loop `for(len = 128; len >= 2; len >>= 1)` of `ntt_dit`. -/
def ntt_dit_len : Nat → Nat → Vars → Option Vars
  | 0, _, _ => none
  | fuel + 1, len, s =>
    if len ≥ 2 then
      match ntt_dit_start len 512 0 s with
      | none => none
      | some s1 => ntt_dit_len fuel (len >>> 1) s1
    else some s

/-- `void ntt_dit(int32_t r[256])`: `k = 1`, then the three nested loops. -/
def ntt_dit (r : Nat → Int) : Option Vars :=
  ntt_dit_len 512 128 { r := r, k := 1, reads := [], ok := true }

/-- Body of the innermost loop of `invntt_tomont` (`int32_t` buffer,
`int32_t t, zeta`):
`t = r[j]; r[j] = barrett_reduce(t + r[j + len]);`
`r[j + len] = r[j + len] - t;`
`r[j + len] = montgomery_reduce((int32_t)zeta*r[j + len]);`
The sum, the difference and the product are `int32_t` computations; the sum
is converted to `int16_t` by the call.  The ghost flag `ok` is left alone. -/
def invntt_tomont_body (zeta : Int) (len j : Nat) (s : Vars) : Vars :=
  let t := s.r j
  let r1 := upd s.r j (barrett_reduce (wrap32 (t + s.r (j + len))))
  let r2 := upd r1 (j + len) (wrap32 (r1 (j + len) - t))
  let r3 := upd r2 (j + len) (montgomery_reduce (wrap32 (zeta * r2 (j + len))))
  { s with r := r3 }

/-- The loop `for(j = start; j < start + len; j++)` of `invntt_tomont`. -/
def invntt_tomont_j (zeta : Int) (len bound : Nat) :
    Nat → Nat → Vars → Option (Nat × Vars)
  | 0, _, _ => none
  | fuel + 1, j, s =>
    if j < bound then
      invntt_tomont_j zeta len bound fuel (j + 1) (invntt_tomont_body zeta len j s)
    else some (j, s)

/-- The loop `for(start = 0; start < 256; start = j + len)` of
`invntt_tomont`.  Each iteration reads `zeta = zetas[--k]`: the counter is
decremented first and the table is read at the new value. -/
def invntt_tomont_start (len : Nat) : Nat → Nat → Vars → Option Vars
  | 0, _, _ => none
  | fuel + 1, start, s =>
    if start < 256 then
      let zeta := zetas (s.k - 1)
      let s1 : Vars := { s with k := s.k - 1, reads := s.reads ++ [s.k - 1] }
      match invntt_tomont_j zeta len (start + len) 512 start s1 with
      | none => none
      | some (j, s2) => invntt_tomont_start len fuel (j + len) s2
    else some s

/-- The loop `for(len = 2; len <= 128; len <<= 1)` of `invntt_tomont`. -/
def invntt_tomont_len : Nat → Nat → Vars → Option Vars
  | 0, _, _ => none
  | fuel + 1, len, s =>
    if len ≤ 128 then
      match invntt_tomont_start len 512 0 s with
      | none => none
      | some s1 => invntt_tomont_len fuel (len <<< 1) s1
    else some s

/-- The final loop `for(j = 0; j < 256; j++) r[j] = montgomery_reduce((int32_t)f*r[j])`
of `invntt_tomont`, with `f = 1441`. -/
def invntt_tomont_scale (f : Int) : Nat → Nat → Vars → Option Vars
  | 0, _, _ => none
  | fuel + 1, j, s =>
    if j < 256 then
      invntt_tomont_scale f fuel (j + 1)
        { s with r := upd s.r j (montgomery_reduce (wrap32 (f * s.r j))) }
    else some s

/-- `void invntt_tomont(int32_t r[N])`: `f = 1441`, `k = 128`, the three nested
loops, then the scaling loop. -/
def invntt_tomont (r : Nat → Int) : Option Vars :=
  match invntt_tomont_len 512 2 { r := r, k := 128, reads := [], ok := true } with
  | none => none
  | some s => invntt_tomont_scale 1441 512 0 s

/-- The constants that `ntt.h` defines for one value of `KYBER_DILITHIUM`. -/
structure Params where
  LEN : Nat
  Q : Int
  QINV : Int
  F : Int
  INTT_K : Nat
  INTT_LIMIT : Nat
  SHIFT : Nat

/-- The `#if KYBER_DILITHIUM==0 ... #elif KYBER_DILITHIUM==1 ... #endif` block
of `ntt.h`; no constant is defined for any other value. -/
def params (KYBER_DILITHIUM : Nat) : Option Params :=
  if KYBER_DILITHIUM = 0 then
    some { LEN := 2, Q := 3329, QINV := -3327, F := 1441, INTT_K := 127,
           INTT_LIMIT := 128, SHIFT := 16 }
  else if KYBER_DILITHIUM = 1 then
    some { LEN := 1, Q := 8380417, QINV := 58728449, F := 41978, INTT_K := 255,
           INTT_LIMIT := 255, SHIFT := 32 }
  else none

/-! ### Closed forms for the `int32_t` transforms and intermediate states -/

/-- The variables of `ntt` after the first `l` passes of its `len` loop
(`len = 128 >> 0, ..., 128 >> (l-1)`), `none` if a pass does not finish. -/
def ntt_after : Nat → (Nat → Int) → Option Vars
  | 0, x => some { r := x, k := 1, reads := [], ok := true }
  | l + 1, x =>
    match ntt_after l x with
    | none => none
    | some s => ntt_start (128 >>> l) 512 0 s

/-- One layer of `ntt_dit` as a function of the buffer before the layer. -/
def dit_layer (len k : Nat) (r : Nat → Int) : Nat → Int := fun i =>
  if i < 256 then
    if i % (2 * len) < len then
      wrap32 (r i + montgomery_reduce (wrap32 (zetas (k + i / (2 * len)) * r (i + len))))
    else
      wrap32 (r (i - len) - montgomery_reduce (wrap32 (zetas (k + i / (2 * len)) * r i)))
  else r i

/-- The buffer after the first `l` layers of `ntt_dit`. -/
def ntt_dit_upto : Nat → (Nat → Int) → Nat → Int
  | 0, x => x
  | l + 1, x => dit_layer (128 >>> l) (2 ^ l) (ntt_dit_upto l x)

/-- One layer of `invntt_tomont`, entered with twiddle counter `k` (the
table is read at `k - 1, k - 2, ...`), as a function of the buffer before
the layer. -/
def tomont_layer (len k : Nat) (r : Nat → Int) : Nat → Int := fun i =>
  if i < 256 then
    if i % (2 * len) < len then barrett_reduce (wrap32 (r i + r (i + len)))
    else
      montgomery_reduce
        (wrap32 (zetas (k - 1 - i / (2 * len)) * wrap32 (r i - r (i - len))))
  else r i

/-- The buffer after the first `l` layers of `invntt_tomont`. -/
def invntt_tomont_upto : Nat → (Nat → Int) → Nat → Int
  | 0, y => y
  | l + 1, y => tomont_layer (2 <<< l) (128 >>> l) (invntt_tomont_upto l y)

/-- The final scaling loop of `invntt_tomont` as a function of the buffer. -/
def tomont_scale_layer (f : Int) (r : Nat → Int) : Nat → Int := fun i =>
  if i < 256 then montgomery_reduce (wrap32 (f * r i)) else r i

/-- The all-zero buffer. -/
def zero_poly : Nat → Int := fun _ => 0


/-! ## Reduction primitives -/

theorem wrap16_of_fits (x : Int) (h1 : -32768 ≤ x) (h2 : x ≤ 32767) : wrap16 x = x := by
  unfold wrap16; omega

theorem wrap32_of_fits (x : Int) (h1 : -2147483648 ≤ x) (h2 : x ≤ 2147483647) :
    wrap32 x = x := by
  unfold wrap32; omega

theorem wrap16_spec (x : Int) :
    ∃ m : Int, wrap16 x = x - 65536 * m ∧ -32768 ≤ wrap16 x ∧ wrap16 x ≤ 32767 :=
  ⟨(x + 32768) / 65536, by unfold wrap16; omega, by unfold wrap16; omega,
    by unfold wrap16; omega⟩

theorem wrap16_range (x : Int) : -32768 ≤ wrap16 x ∧ wrap16 x ≤ 32767 := by
  unfold wrap16; omega

theorem wrap16_idem (x : Int) : wrap16 (wrap16 x) = wrap16 x :=
  wrap16_of_fits _ (wrap16_range x).1 (wrap16_range x).2

theorem fits16_iff (x : Int) : fits16 x = true ↔ -32768 ≤ x ∧ x ≤ 32767 := by
  simp [fits16]

/-- On an `int16_t` argument Barrett reduction subtracts the rounded quotient
times `q`; the two wraps inside cancel. -/
theorem barrett_reduce_eq (a : Int) (h1 : -32768 ≤ a) (h2 : a ≤ 32767) :
    barrett_reduce a = a - 3329 * ((20159 * a + 33554432) / 67108864) := by
  have hv : wrap16 ((67108864 + 3329 / 2) / 3329) = 20159 := by decide
  have ha : wrap16 a = a := wrap16_of_fits a h1 h2
  have hq : (20159 * a + 33554432) >>> (26 : Nat) = (20159 * a + 33554432) / 67108864 := by
    rw [Int.shiftRight_eq_div_pow]; norm_num
  simp only [barrett_reduce, KYBER_Q, hv, ha, hq]
  generalize ht : (20159 * a + 33554432) / 67108864 = t
  have ht1 : -10 ≤ t := by omega
  have ht2 : t ≤ 10 := by omega
  have hr1 : -1664 ≤ a - 3329 * t := by omega
  have hr2 : a - 3329 * t ≤ 1664 := by omega
  rw [wrap16_of_fits t (by omega) (by omega)]
  obtain ⟨m, hm, -, -⟩ := wrap16_spec (t * 3329)
  rw [hm]
  unfold wrap16
  omega

/-- Inside `barrett_reduce` nothing wraps when the argument is at most
`31625` in absolute value. -/
theorem barrett_fits_of_bound (a : Int) (h1 : -31625 ≤ a) (h2 : a ≤ 31625) :
    barrett_fits a = true := by
  have hv : wrap16 ((67108864 + 3329 / 2) / 3329) = 20159 := by decide
  have ha : wrap16 a = a := wrap16_of_fits a (by omega) (by omega)
  have hq : (20159 * a + 33554432) >>> (26 : Nat) = (20159 * a + 33554432) / 67108864 := by
    rw [Int.shiftRight_eq_div_pow]; norm_num
  simp only [barrett_fits, KYBER_Q, hv, ha, hq]
  generalize ht : (20159 * a + 33554432) / 67108864 = t
  have ht1 : -9 ≤ t := by omega
  have ht2 : t ≤ 9 := by omega
  have hr1 : -1664 ≤ a - 3329 * t := by omega
  have hr2 : a - 3329 * t ≤ 1664 := by omega
  rw [wrap16_of_fits t (by omega) (by omega), wrap16_of_fits (t * 3329) (by omega) (by omega),
    Bool.and_eq_true, fits16_iff, fits16_iff]
  omega

theorem barrett_reduce_range (a : Int) (h1 : -32768 ≤ a) (h2 : a ≤ 32767) :
    -1664 ≤ barrett_reduce a ∧ barrett_reduce a ≤ 1664 := by
  rw [barrett_reduce_eq a h1 h2]
  omega

theorem barrett_reduce_modEq (a : Int) (h1 : -32768 ≤ a) (h2 : a ≤ 32767) :
    barrett_reduce a ≡ a [ZMOD 3329] := by
  rw [barrett_reduce_eq a h1 h2]
  unfold Int.ModEq
  omega

/-- Montgomery reduction on an `int32_t` argument of absolute value at most
`2^30`: the result times `2^16` is exactly `a - t*q` for the 16-bit `t` of the
first step, and neither the 32-bit subtraction nor the final narrowing
changes a value. -/
theorem montgomery_reduce_exact (a : Int) (h1 : -1073741824 ≤ a) (h2 : a ≤ 1073741824) :
    ∃ t : Int, -32768 ≤ t ∧ t ≤ 32767 ∧ t = wrap16 (wrap16 a * QINV) ∧
      wrap32 (a - t * KYBER_Q) = a - t * KYBER_Q ∧
      (a - t * KYBER_Q) >>> (16 : Nat) = montgomery_reduce a ∧
      montgomery_reduce a * 65536 = a - 3329 * t := by
  have ha : wrap32 a = a := wrap32_of_fits a (by omega) (by omega)
  refine ⟨wrap16 (wrap16 a * QINV), (wrap16_range _).1, (wrap16_range _).2, rfl, ?_⟩
  simp only [montgomery_reduce, ha]
  obtain ⟨e, he, -, -⟩ := wrap16_spec a
  obtain ⟨f, hf, hf1, hf2⟩ := wrap16_spec (wrap16 a * QINV)
  generalize wrap16 (wrap16 a * QINV) = t at hf hf1 hf2 ⊢
  rw [he] at hf
  simp only [QINV] at hf
  simp only [KYBER_Q]
  have hd : a - t * 3329 = 65536 * (169 * a - 11075583 * e + 3329 * f) := by omega
  have h32 : wrap32 (a - t * 3329) = a - t * 3329 :=
    wrap32_of_fits _ (by omega) (by omega)
  have hs : (a - t * 3329) >>> (16 : Nat) = 169 * a - 11075583 * e + 3329 * f := by
    rw [Int.shiftRight_eq_div_pow, hd]; norm_num
  rw [h32, hs]
  have hw : wrap16 (169 * a - 11075583 * e + 3329 * f) = 169 * a - 11075583 * e + 3329 * f :=
    wrap16_of_fits _ (by omega) (by omega)
  rw [hw]
  refine ⟨rfl, rfl, ?_⟩
  omega


theorem mul_bounds (a b A B : Int) (ha1 : -A ≤ a) (ha2 : a ≤ A) (hb1 : -B ≤ b) (hb2 : b ≤ B) :
    -(A * B) ≤ a * b ∧ a * b ≤ A * B := by
  have h := abs_mul a b
  have h1 : |a| ≤ A := abs_le.mpr ⟨ha1, ha2⟩
  have h2 : |b| ≤ B := abs_le.mpr ⟨hb1, hb2⟩
  have h3 : |a| * |b| ≤ A * B := mul_le_mul h1 h2 (abs_nonneg b) (le_trans (abs_nonneg a) h1)
  have h4 : |a * b| ≤ A * B := h ▸ h3
  exact abs_le.mp h4

theorem fqmul_range (a b : Int) : -32768 ≤ fqmul a b ∧ fqmul a b ≤ 32767 := by
  unfold fqmul montgomery_reduce
  exact wrap16_range _

/-- The product of two `int16_t` values reduced by `fqmul`: the result times
`2^16` is the exact product minus a 16-bit multiple of `q`. -/
theorem fqmul_exact (a b : Int) (ha1 : -32768 ≤ a) (ha2 : a ≤ 32767)
    (hb1 : -32768 ≤ b) (hb2 : b ≤ 32767) :
    ∃ t : Int, -32768 ≤ t ∧ t ≤ 32767 ∧ fqmul a b * 65536 = a * b - 3329 * t := by
  have hp := mul_bounds a b 32768 32768 (by omega) (by omega) (by omega) (by omega)
  obtain ⟨t, ht1, ht2, -, -, -, h⟩ :=
    montgomery_reduce_exact (a * b) (by omega) (by omega)
  refine ⟨t, ht1, ht2, ?_⟩
  unfold fqmul
  rw [wrap16_of_fits a ha1 ha2, wrap16_of_fits b hb1 hb2]
  exact h

/-- Size of a Montgomery product when one factor is a twiddle-sized value. -/
theorem fqmul_bound (z b B : Int) (hz1 : -1664 ≤ z) (hz2 : z ≤ 1664)
    (hb1 : -B ≤ b) (hb2 : b ≤ B) (hB : B ≤ 32767) :
    -(1664 * B + 109084672) ≤ fqmul z b * 65536 ∧ fqmul z b * 65536 ≤ 1664 * B + 109084672 := by
  obtain ⟨t, ht1, ht2, h⟩ := fqmul_exact z b (by omega) (by omega) (by omega) (by omega)
  have hp := mul_bounds z b 1664 B hz1 hz2 hb1 hb2
  omega

/-- `fqmul` multiplies by `2^-16 = 169` modulo `q`. -/
theorem fqmul_modEq (a b : Int) (ha1 : -32768 ≤ a) (ha2 : a ≤ 32767)
    (hb1 : -32768 ≤ b) (hb2 : b ≤ 32767) :
    fqmul a b ≡ 169 * (a * b) [ZMOD 3329] := by
  obtain ⟨t, -, -, h⟩ := fqmul_exact a b ha1 ha2 hb1 hb2
  generalize a * b = p at h
  unfold Int.ModEq
  omega

/-- A Montgomery product of two values below `q` in absolute value is again
below `q` in absolute value. -/
theorem fqmul_lt_q (a b : Int) (ha1 : -3329 < a) (ha2 : a < 3329)
    (hb1 : -3329 < b) (hb2 : b < 3329) :
    -3329 < fqmul a b ∧ fqmul a b < 3329 := by
  obtain ⟨t, ht1, ht2, h⟩ := fqmul_exact a b (by omega) (by omega) (by omega) (by omega)
  have hp := mul_bounds a b 3328 3328 (by omega) (by omega) (by omega) (by omega)
  omega

/-! ## Claims on the reduction primitives -/

/-- C2. For every 16-bit signed integer `a`, `barrett_reduce a` is congruent
to `a` modulo `q = 3329` and lies in the closed centered set
`[-1664, 1664] = {-(q-1)/2, ..., (q-1)/2}`; it equals the wrap-free value
`a - q * ((v*a + 2^25) >> 26)` with `v = 20159`, so the `int16_t` wraps of the
intermediate `t*q` and of `a - t` do not affect the result. -/
theorem barrett_reduce_centered (a : Int) (h1 : -32768 ≤ a) (h2 : a ≤ 32767) :
    barrett_reduce a ≡ a [ZMOD KYBER_Q] ∧
    -((KYBER_Q - 1) / 2) ≤ barrett_reduce a ∧ barrett_reduce a ≤ (KYBER_Q - 1) / 2 ∧
    (KYBER_Q - 1) / 2 = 1664 ∧
    barrett_reduce a = a - KYBER_Q * ((20159 * a + 33554432) / 67108864) := by
  have hr := barrett_reduce_range a h1 h2
  have hm := barrett_reduce_modEq a h1 h2
  have he := barrett_reduce_eq a h1 h2
  have hq : (KYBER_Q - 1) / 2 = 1664 := by decide
  rw [hq]
  exact ⟨hm, hr.1, hr.2, rfl, he⟩

/-- Witness for C2 at the largest `int16_t` value, where `t*q = 33290` wraps. -/
theorem barrett_reduce_centered_witness :
    barrett_reduce 32767 ≡ 32767 [ZMOD KYBER_Q] ∧
    -((KYBER_Q - 1) / 2) ≤ barrett_reduce 32767 ∧ barrett_reduce 32767 ≤ (KYBER_Q - 1) / 2 ∧
    (KYBER_Q - 1) / 2 = 1664 ∧
    barrett_reduce 32767 = 32767 - KYBER_Q * ((20159 * 32767 + 33554432) / 67108864) :=
  barrett_reduce_centered 32767 (by decide) (by decide)

/-- C3, counterexample. The 16-bit value `1665` is reduced to `-1664`, the
excluded left end of the half-open interval `(-1664, 1664]`. -/
theorem barrett_reduce_half_open_fails :
    (-32768 : Int) ≤ 1665 ∧ (1665 : Int) ≤ 32767 ∧ barrett_reduce 1665 = -1664 ∧
    ¬ (-1664 < barrett_reduce 1665 ∧ barrett_reduce 1665 ≤ 1664) := by
  decide

/-- C3, amended. For every 16-bit signed integer `a`, `barrett_reduce a`
lies in the closed interval `[-1664, 1664]`, is congruent to `a` modulo `q`,
and is the unique representative of `a mod q` in that closed interval. -/
theorem barrett_reduce_unique_closed (a : Int) (h1 : -32768 ≤ a) (h2 : a ≤ 32767) :
    -1664 ≤ barrett_reduce a ∧ barrett_reduce a ≤ 1664 ∧
    barrett_reduce a ≡ a [ZMOD KYBER_Q] ∧
    ∀ r : Int, -1664 ≤ r → r ≤ 1664 → r ≡ a [ZMOD KYBER_Q] → r = barrett_reduce a := by
  have hr := barrett_reduce_range a h1 h2
  have hm := barrett_reduce_modEq a h1 h2
  refine ⟨hr.1, hr.2, hm, ?_⟩
  intro r hr1 hr2 hra
  have h := hra.trans hm.symm
  simp only [KYBER_Q] at h
  unfold Int.ModEq at h
  omega

/-- Witness for C3 (amended) at `a = 1665`. -/
theorem barrett_reduce_unique_closed_witness :
    -1664 ≤ barrett_reduce 1665 ∧ barrett_reduce 1665 ≤ 1664 ∧
    barrett_reduce 1665 ≡ 1665 [ZMOD KYBER_Q] ∧
    ∀ r : Int, -1664 ≤ r → r ≤ 1664 → r ≡ 1665 [ZMOD KYBER_Q] → r = barrett_reduce 1665 :=
  barrett_reduce_unique_closed 1665 (by decide) (by decide)

/-- C4. For every `a` with `-q*2^15 ≤ a ≤ q*2^15 - 1`, `montgomery_reduce a`
is an integer `r` with `-q < r < q` and `r * 2^16 ≡ a (mod q)`. -/
theorem montgomery_reduce_correct (a : Int)
    (h1 : -KYBER_Q * 2 ^ 15 ≤ a) (h2 : a ≤ KYBER_Q * 2 ^ 15 - 1) :
    -KYBER_Q < montgomery_reduce a ∧ montgomery_reduce a < KYBER_Q ∧
    montgomery_reduce a * 2 ^ 16 ≡ a [ZMOD KYBER_Q] := by
  simp only [KYBER_Q] at h1 h2 ⊢
  norm_num at h1 h2 ⊢
  obtain ⟨t, ht1, ht2, -, -, -, h⟩ := montgomery_reduce_exact a (by omega) (by omega)
  refine ⟨by omega, by omega, ?_⟩
  unfold Int.ModEq
  omega

/-- Witness for C4 at the lower end of the domain, `a = -q*2^15`. -/
theorem montgomery_reduce_correct_witness :
    -KYBER_Q < montgomery_reduce (-109084672) ∧ montgomery_reduce (-109084672) < KYBER_Q ∧
    montgomery_reduce (-109084672) * 2 ^ 16 ≡ -109084672 [ZMOD KYBER_Q] :=
  montgomery_reduce_correct (-109084672) (by decide) (by decide)

/-- C5. For all 16-bit signed integers `a` and `b`,
`fqmul a b * 2^16 ≡ a * b (mod 3329)`; the product `a * b` fits in 32 bits,
and inside `montgomery_reduce` the 32-bit difference `a*b - t*q` (with `t` the
16-bit value of the first step) does not overflow, is divisible by `2^16`,
and its shift by 16 is the returned value without narrowing. -/
theorem fqmul_correct (a b : Int) (ha1 : -32768 ≤ a) (ha2 : a ≤ 32767)
    (hb1 : -32768 ≤ b) (hb2 : b ≤ 32767) :
    fqmul a b * 2 ^ 16 ≡ a * b [ZMOD KYBER_Q] ∧
    (-2147483648 ≤ a * b ∧ a * b ≤ 2147483647) ∧
    ∃ t : Int, t = wrap16 (wrap16 (a * b) * QINV) ∧
      (-2147483648 ≤ a * b - t * KYBER_Q ∧ a * b - t * KYBER_Q ≤ 2147483647) ∧
      (2 : Int) ^ 16 ∣ a * b - t * KYBER_Q ∧
      fqmul a b = (a * b - t * KYBER_Q) >>> (16 : Nat) := by
  have hp := mul_bounds a b 32768 32768 (by omega) (by omega) (by omega) (by omega)
  obtain ⟨t, ht1, ht2, ht, h32, hs, h⟩ :=
    montgomery_reduce_exact (a * b) (by omega) (by omega)
  have hf : fqmul a b = montgomery_reduce (a * b) := by
    unfold fqmul
    rw [wrap16_of_fits a ha1 ha2, wrap16_of_fits b hb1 hb2]
  rw [hf]
  have e16 : (2 : Int) ^ 16 = 65536 := by norm_num
  simp only [KYBER_Q, e16] at h32 hs ⊢
  refine ⟨?_, ⟨by omega, by omega⟩, t, ht, ⟨by omega, by omega⟩, ?_, hs.symm⟩
  · unfold Int.ModEq; omega
  · exact ⟨montgomery_reduce (a * b), by omega⟩

/-- Witness for C5 at `a = b = -32768`, the product of largest magnitude. -/
theorem fqmul_correct_witness :
    fqmul (-32768) (-32768) * 2 ^ 16 ≡ (-32768) * (-32768) [ZMOD KYBER_Q] ∧
    (-2147483648 ≤ (-32768 : Int) * (-32768) ∧ (-32768 : Int) * (-32768) ≤ 2147483647) ∧
    ∃ t : Int, t = wrap16 (wrap16 ((-32768) * (-32768)) * QINV) ∧
      (-2147483648 ≤ (-32768) * (-32768) - t * KYBER_Q ∧
        (-32768) * (-32768) - t * KYBER_Q ≤ 2147483647) ∧
      (2 : Int) ^ 16 ∣ (-32768) * (-32768) - t * KYBER_Q ∧
      fqmul (-32768) (-32768) = ((-32768) * (-32768) - t * KYBER_Q) >>> (16 : Nat) :=
  fqmul_correct (-32768) (-32768) (by decide) (by decide) (by decide) (by decide)

/-- C6, counterexample. With `a = b = 1 + 0*X` and `zeta = 17` the schoolbook
product is `1`, but `basemul` returns `r0 = 169 = 2^-16 mod q`. -/
theorem basemul_plain_product_fails :
    basemul (1, 0) (1, 0) 17 = (169, 0) ∧
    ¬ ((basemul (1, 0) (1, 0) 17).1 ≡ 1 * 1 + 0 * 0 * 17 [ZMOD KYBER_Q]) := by
  decide

/-- C6, amended. For all coefficient pairs and every `zeta` of absolute value
below `q`, `basemul` produces the schoolbook product modulo `X^2 - zeta` in
Montgomery-scaled form: `r0 ≡ R⁻¹*a0*b0 + R⁻²*a1*b1*zeta` and
`r1 ≡ R⁻¹*(a0*b1 + a1*b0)` modulo `q`, with `R⁻¹ = 169` the inverse of
`R = 2^16` modulo `q`. -/
theorem basemul_montgomery_product (a0 a1 b0 b1 zeta : Int)
    (ha0 : -KYBER_Q < a0 ∧ a0 < KYBER_Q) (ha1 : -KYBER_Q < a1 ∧ a1 < KYBER_Q)
    (hb0 : -KYBER_Q < b0 ∧ b0 < KYBER_Q) (hb1 : -KYBER_Q < b1 ∧ b1 < KYBER_Q)
    (hz : -KYBER_Q < zeta ∧ zeta < KYBER_Q) :
    (basemul (a0, a1) (b0, b1) zeta).1 ≡
        169 * (a0 * b0) + 169 * 169 * (a1 * b1 * zeta) [ZMOD KYBER_Q] ∧
    (basemul (a0, a1) (b0, b1) zeta).2 ≡ 169 * (a0 * b1 + a1 * b0) [ZMOD KYBER_Q] ∧
    169 * 2 ^ 16 ≡ 1 [ZMOD KYBER_Q] := by
  simp only [KYBER_Q] at *
  have h11 := fqmul_lt_q a1 b1 ha1.1 ha1.2 hb1.1 hb1.2
  have h11z := fqmul_lt_q (fqmul a1 b1) zeta h11.1 h11.2 hz.1 hz.2
  have h00 := fqmul_lt_q a0 b0 ha0.1 ha0.2 hb0.1 hb0.2
  have h01 := fqmul_lt_q a0 b1 ha0.1 ha0.2 hb1.1 hb1.2
  have h10 := fqmul_lt_q a1 b0 ha1.1 ha1.2 hb0.1 hb0.2
  have m11 := fqmul_modEq a1 b1 (by omega) (by omega) (by omega) (by omega)
  have m11z := fqmul_modEq (fqmul a1 b1) zeta (by omega) (by omega) (by omega) (by omega)
  have m00 := fqmul_modEq a0 b0 (by omega) (by omega) (by omega) (by omega)
  have m01 := fqmul_modEq a0 b1 (by omega) (by omega) (by omega) (by omega)
  have m10 := fqmul_modEq a1 b0 (by omega) (by omega) (by omega) (by omega)
  simp only [basemul]
  rw [wrap16_of_fits _ (by omega) (by omega), wrap16_of_fits _ (by omega) (by omega)]
  refine ⟨?_, ?_, by decide⟩
  · have e1 : fqmul (fqmul a1 b1) zeta ≡ 169 * 169 * (a1 * b1 * zeta) [ZMOD 3329] := by
      refine m11z.trans ?_
      have := (m11.mul_right zeta).mul_left 169
      refine this.trans ?_
      rw [show 169 * (169 * (a1 * b1) * zeta) = 169 * 169 * (a1 * b1 * zeta) by ring]
    have := e1.add m00
    rw [add_comm (169 * (a0 * b0))]
    exact this
  · have := m01.add m10
    rw [mul_add]
    exact this

/-- Witness for C6 (amended) at the inputs of the counterexample. -/
theorem basemul_montgomery_product_witness :
    (basemul (1, 0) (1, 0) 17).1 ≡ 169 * (1 * 1) + 169 * 169 * (0 * 0 * 17) [ZMOD KYBER_Q] ∧
    (basemul (1, 0) (1, 0) 17).2 ≡ 169 * (1 * 0 + 0 * 1) [ZMOD KYBER_Q] ∧
    169 * 2 ^ 16 ≡ 1 [ZMOD KYBER_Q] :=
  basemul_montgomery_product 1 0 1 0 17 (by decide) (by decide) (by decide) (by decide)
    (by decide)


/-! ## The loops of `ntt` compute the layer closed form -/

theorem upd_apply (r : Nat → Int) (j : Nat) (v : Int) (i : Nat) :
    upd r j v i = if i = j then v else r i := rfl

theorem ntt_body_r (zeta : Int) (len j : Nat) (s : Vars) (hlen : 0 < len) (i : Nat) :
    (ntt_body zeta len j s).r i =
      if i = j then wrap16 (s.r j + fqmul zeta (s.r (j + len)))
      else if i = j + len then wrap16 (s.r j - fqmul zeta (s.r (j + len)))
      else s.r i := by
  have hne : j ≠ j + len := by omega
  simp only [ntt_body, upd_apply, if_neg hne]

theorem ntt_body_k (zeta : Int) (len j : Nat) (s : Vars) : (ntt_body zeta len j s).k = s.k := rfl

theorem ntt_body_reads (zeta : Int) (len j : Nat) (s : Vars) :
    (ntt_body zeta len j s).reads = s.reads := rfl

theorem ntt_body_ok (zeta : Int) (len j : Nat) (s : Vars) (hlen : 0 < len)
    (hs : s.ok = true)
    (h1 : fits16 (s.r j - fqmul zeta (s.r (j + len))) = true)
    (h2 : fits16 (s.r j + fqmul zeta (s.r (j + len))) = true) :
    (ntt_body zeta len j s).ok = true := by
  have hne : j ≠ j + len := by omega
  simp only [ntt_body, upd_apply, if_neg hne, hs, h1, h2, Bool.and_self]

theorem ntt_j_spec (zeta : Int) (len : Nat) (hlen : 0 < len) :
    ∀ (n fuel j : Nat) (s : Vars), n < fuel → n ≤ len →
      ∃ s' : Vars, ntt_j zeta len (j + n) fuel j s = some (j + n, s') ∧
        s'.k = s.k ∧ s'.reads = s.reads ∧
        (∀ i, s'.r i =
          if j ≤ i ∧ i < j + n then wrap16 (s.r i + fqmul zeta (s.r (i + len)))
          else if j + len ≤ i ∧ i < j + n + len then
            wrap16 (s.r (i - len) - fqmul zeta (s.r i))
          else s.r i) ∧
        (s.ok = true →
          (∀ i, j ≤ i → i < j + n →
            fits16 (s.r i - fqmul zeta (s.r (i + len))) = true ∧
            fits16 (s.r i + fqmul zeta (s.r (i + len))) = true) →
          s'.ok = true) := by
  intro n
  induction n with
  | zero =>
    intro fuel j s hf _
    obtain ⟨f, rfl⟩ : ∃ f, fuel = f + 1 := ⟨fuel - 1, by omega⟩
    refine ⟨s, ?_, rfl, rfl, ?_, fun h _ => h⟩
    · simp [ntt_j]
    · intro i
      have h1 : ¬ (j ≤ i ∧ i < j + 0) := by omega
      have h2 : ¬ (j + len ≤ i ∧ i < j + 0 + len) := by omega
      rw [if_neg h1, if_neg h2]
  | succ n ih =>
    intro fuel j s hf hn
    obtain ⟨f, rfl⟩ : ∃ f, fuel = f + 1 := ⟨fuel - 1, by omega⟩
    obtain ⟨s', hrun, hk, hreads, hr, hok⟩ :=
      ih f (j + 1) (ntt_body zeta len j s) (by omega) (by omega)
    refine ⟨s', ?_, ?_, ?_, ?_, ?_⟩
    · have hlt : j < j + (n + 1) := by omega
      have hb : j + (n + 1) = j + 1 + n := by omega
      simp only [ntt_j, if_pos hlt]
      rw [hb]
      exact hrun
    · rw [hk, ntt_body_k]
    · rw [hreads, ntt_body_reads]
    · intro i
      rw [hr i]
      simp only [ntt_body_r zeta len j s hlen]
      by_cases hij : i = j
      · subst hij
        have c1 : ¬ (i + 1 ≤ i ∧ i < i + 1 + n) := by omega
        have c2 : ¬ (i + 1 + len ≤ i ∧ i < i + 1 + n + len) := by omega
        have c3 : i ≤ i ∧ i < i + (n + 1) := by omega
        rw [if_neg c1, if_neg c2, if_pos c3, if_pos rfl]
      · by_cases hijl : i = j + len
        · subst hijl
          have c1 : ¬ (j + 1 ≤ j + len ∧ j + len < j + 1 + n) := by omega
          have c2 : ¬ (j + 1 + len ≤ j + len ∧ j + len < j + 1 + n + len) := by omega
          have c3 : ¬ (j ≤ j + len ∧ j + len < j + (n + 1)) := by omega
          have c4 : j + len ≤ j + len ∧ j + len < j + (n + 1) + len := by omega
          have c5 : j + len - len = j := by omega
          rw [if_neg c1, if_neg c2, if_neg c3, if_pos c4, if_neg hij, if_pos rfl, c5]
        · by_cases h1 : j + 1 ≤ i ∧ i < j + 1 + n
          · have c3 : j ≤ i ∧ i < j + (n + 1) := by omega
            have c4 : i + len ≠ j := by omega
            have c5 : i + len ≠ j + len := by omega
            rw [if_pos h1, if_pos c3, if_neg hij, if_neg hijl, if_neg c4, if_neg c5]
          · by_cases h2 : j + 1 + len ≤ i ∧ i < j + 1 + n + len
            · have c3 : ¬ (j ≤ i ∧ i < j + (n + 1)) := by omega
              have c4 : j + len ≤ i ∧ i < j + (n + 1) + len := by omega
              have c5 : i - len ≠ j := by omega
              have c6 : i - len ≠ j + len := by omega
              rw [if_neg h1, if_pos h2, if_neg c3, if_pos c4, if_neg hij, if_neg hijl,
                if_neg c5, if_neg c6]
            · have c3 : ¬ (j ≤ i ∧ i < j + (n + 1)) := by omega
              have c4 : ¬ (j + len ≤ i ∧ i < j + (n + 1) + len) := by omega
              rw [if_neg h1, if_neg h2, if_neg c3, if_neg c4, if_neg hij, if_neg hijl]
    · intro hs hfit
      have hj := hfit j (by omega) (by omega)
      refine hok (ntt_body_ok zeta len j s hlen hs hj.1 hj.2) ?_
      intro i hi1 hi2
      have hi := hfit i (by omega) (by omega)
      simp only [ntt_body_r zeta len j s hlen]
      have c1 : i ≠ j := by omega
      have c2 : i ≠ j + len := by omega
      have c4 : i + len ≠ j := by omega
      have c5 : i + len ≠ j + len := by omega
      rw [if_neg c1, if_neg c2, if_neg c4, if_neg c5]
      exact hi


theorem seg_lo (w o : Nat) (h : o < w) : o / w = 0 ∧ o % w = o :=
  ⟨Nat.div_eq_of_lt h, Nat.mod_eq_of_lt h⟩

theorem seg_hi (w o : Nat) (hw : 0 < w) (h : w ≤ o) :
    o / w = (o - w) / w + 1 ∧ o % w = (o - w) % w := by
  have e : o = (o - w) + w := by omega
  constructor
  · conv_lhs => rw [e]
    exact Nat.add_div_right _ hw
  · conv_lhs => rw [e]
    exact Nat.add_mod_right _ _

theorem ntt_start_spec (len : Nat) (hlen : 0 < len) (hlen2 : len < 512) :
    ∀ (m fuel start : Nat) (s : Vars), m < fuel → start + m * (2 * len) = 256 →
      ∃ s' : Vars, ntt_start len fuel start s = some s' ∧
        s'.k = s.k + m ∧ s'.reads = s.reads ++ List.range' s.k m ∧
        (∀ i, s'.r i =
          if start ≤ i ∧ i < 256 then
            if (i - start) % (2 * len) < len then
              wrap16 (s.r i + fqmul (zetas (s.k + (i - start) / (2 * len))) (s.r (i + len)))
            else
              wrap16 (s.r (i - len) - fqmul (zetas (s.k + (i - start) / (2 * len))) (s.r i))
          else s.r i) ∧
        (s.ok = true →
          (∀ i, start ≤ i → i < 256 → (i - start) % (2 * len) < len →
            fits16 (s.r i - fqmul (zetas (s.k + (i - start) / (2 * len))) (s.r (i + len))) = true ∧
            fits16 (s.r i + fqmul (zetas (s.k + (i - start) / (2 * len))) (s.r (i + len))) = true) →
          s'.ok = true) := by
  intro m
  induction m with
  | zero =>
    intro fuel start s hf hm
    obtain ⟨f, rfl⟩ : ∃ f, fuel = f + 1 := ⟨fuel - 1, by omega⟩
    have hst : ¬ start < 256 := by omega
    refine ⟨s, ?_, rfl, ?_, ?_, fun h _ => h⟩
    · simp only [ntt_start, if_neg hst]
    · simp
    · intro i
      have h1 : ¬ (start ≤ i ∧ i < 256) := by omega
      rw [if_neg h1]
  | succ m ih =>
    intro fuel start s hf hm
    obtain ⟨f, rfl⟩ : ∃ f, fuel = f + 1 := ⟨fuel - 1, by omega⟩
    rw [Nat.succ_mul] at hm
    have hst : start < 256 := by omega
    have hw : 0 < 2 * len := by omega
    obtain ⟨s2, hrun2, hk2, hreads2, hr2, hok2⟩ :=
      ntt_j_spec (zetas s.k) len hlen len 512 start
        { s with k := s.k + 1, reads := s.reads ++ [s.k] } hlen2 (le_refl _)
    obtain ⟨s', hrun, hk, hreads, hr, hok⟩ :=
      ih f (start + len + len) s2 (by omega) (by omega)
    simp only at hk2 hreads2 hr2 hok2
    refine ⟨s', ?_, ?_, ?_, ?_, ?_⟩
    · simp only [ntt_start, if_pos hst, hrun2]
      exact hrun
    · rw [hk, hk2]; omega
    · rw [hreads, hreads2, hk2, List.range'_succ, List.append_assoc, List.singleton_append]
    · intro i
      rw [hr i]
      by_cases hA : start + len + len ≤ i ∧ i < 256
      · have hB : start ≤ i ∧ i < 256 := by omega
        obtain ⟨hd, hmod⟩ := seg_hi (2 * len) (i - start) hw (by omega)
        have e1 : i - start - 2 * len = i - (start + len + len) := by omega
        rw [e1] at hd hmod
        rw [if_pos hA, if_pos hB, hmod, hd, hk2]
        have ek : s.k + 1 + (i - (start + len + len)) / (2 * len) =
            s.k + ((i - (start + len + len)) / (2 * len) + 1) := by omega
        rw [ek]
        have n1 : ¬ (start ≤ i ∧ i < start + len) := by omega
        have n2 : ¬ (start + len ≤ i ∧ i < start + len + len) := by omega
        have n3 : ¬ (start ≤ i + len ∧ i + len < start + len) := by omega
        have n4 : ¬ (start + len ≤ i + len ∧ i + len < start + len + len) := by omega
        by_cases hlo : (i - (start + len + len)) % (2 * len) < len
        · rw [if_pos hlo, hr2 i, hr2 (i + len), if_neg n1, if_neg n2, if_neg n3, if_neg n4,
            if_pos hlo]
        · have hge : len ≤ i - (start + len + len) := by
            by_contra hc
            have := (seg_lo (2 * len) (i - (start + len + len)) (by omega)).2
            omega
          have n5 : ¬ (start ≤ i - len ∧ i - len < start + len) := by omega
          have n6 : ¬ (start + len ≤ i - len ∧ i - len < start + len + len) := by omega
          rw [if_neg hlo, hr2 i, hr2 (i - len), if_neg n1, if_neg n2, if_neg n5, if_neg n6,
            if_neg hlo]
      · rw [if_neg hA, hr2 i]
        by_cases h1 : start ≤ i ∧ i < start + len
        · have hB : start ≤ i ∧ i < 256 := by omega
          obtain ⟨hd, hmod⟩ := seg_lo (2 * len) (i - start) (by omega)
          have hlo : i - start < len := by omega
          rw [if_pos h1, if_pos hB, hmod, hd, if_pos hlo]
          rfl
        · by_cases h2 : start + len ≤ i ∧ i < start + len + len
          · have hB : start ≤ i ∧ i < 256 := by omega
            obtain ⟨hd, hmod⟩ := seg_lo (2 * len) (i - start) (by omega)
            have hlo : ¬ i - start < len := by omega
            rw [if_neg h1, if_pos h2, if_pos hB, hmod, hd, if_neg hlo]
            rfl
          · have hB : ¬ (start ≤ i ∧ i < 256) := by omega
            rw [if_neg h1, if_neg h2, if_neg hB]
    · intro hs hfit
      refine hok (hok2 hs ?_) ?_
      · intro i hi1 hi2
        obtain ⟨hd, hmod⟩ := seg_lo (2 * len) (i - start) (by omega)
        have := hfit i hi1 (by omega) (by omega)
        rw [hd] at this
        exact this
      · intro i hi1 hi2 hi3
        obtain ⟨hd, hmod⟩ := seg_hi (2 * len) (i - start) hw (by omega)
        have e1 : i - start - 2 * len = i - (start + len + len) := by omega
        rw [e1] at hd hmod
        have := hfit i (by omega) hi2 (by omega)
        rw [hd] at this
        have n1 : ¬ (start ≤ i ∧ i < start + len) := by omega
        have n2 : ¬ (start + len ≤ i ∧ i < start + len + len) := by omega
        have n3 : ¬ (start ≤ i + len ∧ i + len < start + len) := by omega
        have n4 : ¬ (start + len ≤ i + len ∧ i + len < start + len + len) := by omega
        have ek : s.k + 1 + (i - (start + len + len)) / (2 * len) =
            s.k + ((i - (start + len + len)) / (2 * len) + 1) := by omega
        rw [hr2 i, hr2 (i + len), if_neg n1, if_neg n2, if_neg n3, if_neg n4, hk2, ek]
        exact this


/-- A complete `start` loop of `ntt` is one application of `ct_layer`. -/
theorem ntt_layer_run (len m : Nat) (hlen : 0 < len) (hlen2 : len < 512) (hm : m < 512)
    (hseg : 0 + m * (2 * len) = 256) (s : Vars) :
    ∃ s' : Vars, ntt_start len 512 0 s = some s' ∧
      s'.k = s.k + m ∧ s'.reads = s.reads ++ List.range' s.k m ∧
      s'.r = ct_layer len s.k s.r ∧
      (s.ok = true → ct_fits len s.k s.r → s'.ok = true) := by
  obtain ⟨s', hrun, hk, hreads, hr, hok⟩ := ntt_start_spec len hlen hlen2 m 512 0 s hm hseg
  refine ⟨s', hrun, hk, hreads, ?_, ?_⟩
  · funext i
    rw [hr i]
    simp only [ct_layer, Nat.zero_le, true_and, Nat.sub_zero]
  · intro hs hfit
    refine hok hs ?_
    intro i _ hi2 hi3
    rw [Nat.sub_zero] at hi3 ⊢
    exact hfit i hi2 hi3

theorem ntt_len_step (fuel len : Nat) (s s1 : Vars) (h2 : 2 ≤ len)
    (h : ntt_start len 512 0 s = some s1) :
    ntt_len (fuel + 1) len s = ntt_len fuel (len >>> 1) s1 := by
  have h2' : len ≥ 2 := h2
  simp only [ntt_len, if_pos h2', h]

/-- The loops of `ntt` terminate and compute the seven layers in closed form;
the twiddle table is read at the indices `1, 2, ..., 127` in this order, and
the ghost flag is set when every butterfly fits. -/
theorem ntt_run (x : Nat → Int) :
    ∃ s : Vars, ntt x = some s ∧ s.r = ntt_upto 7 x ∧ s.k = 128 ∧
      s.reads = List.range' 1 127 ∧ (ntt_fits x → s.ok = true) := by
  obtain ⟨s1, e1, k1, d1, r1, o1⟩ := ntt_layer_run 128 1 (by decide) (by decide) (by decide)
    (by decide) { r := x, k := 1, reads := [], ok := true }
  obtain ⟨s2, e2, k2, d2, r2, o2⟩ := ntt_layer_run 64 2 (by decide) (by decide) (by decide)
    (by decide) s1
  obtain ⟨s3, e3, k3, d3, r3, o3⟩ := ntt_layer_run 32 4 (by decide) (by decide) (by decide)
    (by decide) s2
  obtain ⟨s4, e4, k4, d4, r4, o4⟩ := ntt_layer_run 16 8 (by decide) (by decide) (by decide)
    (by decide) s3
  obtain ⟨s5, e5, k5, d5, r5, o5⟩ := ntt_layer_run 8 16 (by decide) (by decide) (by decide)
    (by decide) s4
  obtain ⟨s6, e6, k6, d6, r6, o6⟩ := ntt_layer_run 4 32 (by decide) (by decide) (by decide)
    (by decide) s5
  obtain ⟨s7, e7, k7, d7, r7, o7⟩ := ntt_layer_run 2 64 (by decide) (by decide) (by decide)
    (by decide) s6
  simp only at k1 d1 r1 o1
  have k2' : s2.k = 4 := by omega
  have k3' : s3.k = 8 := by omega
  have k4' : s4.k = 16 := by omega
  have k5' : s5.k = 32 := by omega
  have k6' : s6.k = 64 := by omega
  have k7' : s7.k = 128 := by omega
  have k1' : s1.k = 2 := by omega
  have hexit : ntt_len 505 1 s7 = some s7 := by
    simp [ntt_len]
  have h1 : ntt_len 512 128 { r := x, k := 1, reads := [], ok := true } = ntt_len 511 64 s1 :=
    ntt_len_step 511 128 _ s1 (by decide) e1
  have h2 : ntt_len 511 64 s1 = ntt_len 510 32 s2 := ntt_len_step 510 64 s1 s2 (by decide) e2
  have h3 : ntt_len 510 32 s2 = ntt_len 509 16 s3 := ntt_len_step 509 32 s2 s3 (by decide) e3
  have h4 : ntt_len 509 16 s3 = ntt_len 508 8 s4 := ntt_len_step 508 16 s3 s4 (by decide) e4
  have h5 : ntt_len 508 8 s4 = ntt_len 507 4 s5 := ntt_len_step 507 8 s4 s5 (by decide) e5
  have h6 : ntt_len 507 4 s5 = ntt_len 506 2 s6 := ntt_len_step 506 4 s5 s6 (by decide) e6
  have h7 : ntt_len 506 2 s6 = ntt_len 505 1 s7 := ntt_len_step 505 2 s6 s7 (by decide) e7
  have hrun : ntt x = some s7 := by
    unfold ntt
    rw [h1, h2, h3, h4, h5, h6, h7]
    exact hexit
  have y1 : s1.r = ntt_upto 1 x := r1
  have y2 : s2.r = ntt_upto 2 x := by rw [r2, y1, k1']; rfl
  have y3 : s3.r = ntt_upto 3 x := by rw [r3, y2, k2']; rfl
  have y4 : s4.r = ntt_upto 4 x := by rw [r4, y3, k3']; rfl
  have y5 : s5.r = ntt_upto 5 x := by rw [r5, y4, k4']; rfl
  have y6 : s6.r = ntt_upto 6 x := by rw [r6, y5, k5']; rfl
  have y7 : s7.r = ntt_upto 7 x := by rw [r7, y6, k6']; rfl
  refine ⟨s7, hrun, y7, k7', ?_, ?_⟩
  · rw [d7, d6, d5, d4, d3, d2, d1, k1', k2', k3', k4', k5', k6']
    rfl
  · intro hfit
    rw [y6, k6'] at o7
    rw [y5, k5'] at o6
    rw [y4, k4'] at o5
    rw [y3, k3'] at o4
    rw [y2, k2'] at o3
    rw [y1, k1'] at o2
    exact o7 (o6 (o5 (o4 (o3 (o2 (o1 trivial (hfit 0 (by decide))) (hfit 1 (by decide)))
      (hfit 2 (by decide))) (hfit 3 (by decide))) (hfit 4 (by decide))) (hfit 5 (by decide)))
      (hfit 6 (by decide))


/-! ## The loops of `invntt` compute the layer closed form -/

theorem invntt_body_r (zeta : Int) (len j : Nat) (s : Vars) (hlen : 0 < len) (i : Nat) :
    (invntt_body zeta len j s).r i =
      if i = j then barrett_reduce (s.r j + s.r (j + len))
      else if i = j + len then fqmul zeta (wrap16 (s.r (j + len) - s.r j))
      else s.r i := by
  have hne : j + len ≠ j := by omega
  simp only [invntt_body, upd_apply, if_neg hne, if_pos]
  by_cases h1 : i = j + len
  · have h2 : ¬ i = j := by omega
    rw [if_pos h1, if_neg h2, if_pos h1]
  · rw [if_neg h1, if_neg h1, if_neg h1]

theorem invntt_body_k (zeta : Int) (len j : Nat) (s : Vars) :
    (invntt_body zeta len j s).k = s.k := rfl

theorem invntt_body_reads (zeta : Int) (len j : Nat) (s : Vars) :
    (invntt_body zeta len j s).reads = s.reads := rfl

theorem invntt_body_ok (zeta : Int) (len j : Nat) (s : Vars) (hlen : 0 < len)
    (hs : s.ok = true)
    (h1 : fits16 (s.r j + s.r (j + len)) = true)
    (h2 : fits16 (s.r (j + len) - s.r j) = true)
    (h3 : barrett_fits (s.r j + s.r (j + len)) = true) :
    (invntt_body zeta len j s).ok = true := by
  have hne : j + len ≠ j := by omega
  simp only [invntt_body, upd_apply, if_neg hne, hs, h1, h2, h3, Bool.and_self]

theorem invntt_j_spec (zeta : Int) (len : Nat) (hlen : 0 < len) :
    ∀ (n fuel j : Nat) (s : Vars), n < fuel → n ≤ len →
      ∃ s' : Vars, invntt_j zeta len (j + n) fuel j s = some (j + n, s') ∧
        s'.k = s.k ∧ s'.reads = s.reads ∧
        (∀ i, s'.r i =
          if j ≤ i ∧ i < j + n then barrett_reduce (s.r i + s.r (i + len))
          else if j + len ≤ i ∧ i < j + n + len then
            fqmul zeta (wrap16 (s.r i - s.r (i - len)))
          else s.r i) ∧
        (s.ok = true →
          (∀ i, j ≤ i → i < j + n →
            fits16 (s.r i + s.r (i + len)) = true ∧
            fits16 (s.r (i + len) - s.r i) = true ∧
            barrett_fits (s.r i + s.r (i + len)) = true) →
          s'.ok = true) := by
  intro n
  induction n with
  | zero =>
    intro fuel j s hf _
    obtain ⟨f, rfl⟩ : ∃ f, fuel = f + 1 := ⟨fuel - 1, by omega⟩
    refine ⟨s, ?_, rfl, rfl, ?_, fun h _ => h⟩
    · simp [invntt_j]
    · intro i
      have h1 : ¬ (j ≤ i ∧ i < j + 0) := by omega
      have h2 : ¬ (j + len ≤ i ∧ i < j + 0 + len) := by omega
      rw [if_neg h1, if_neg h2]
  | succ n ih =>
    intro fuel j s hf hn
    obtain ⟨f, rfl⟩ : ∃ f, fuel = f + 1 := ⟨fuel - 1, by omega⟩
    obtain ⟨s', hrun, hk, hreads, hr, hok⟩ :=
      ih f (j + 1) (invntt_body zeta len j s) (by omega) (by omega)
    refine ⟨s', ?_, ?_, ?_, ?_, ?_⟩
    · have hlt : j < j + (n + 1) := by omega
      have hb : j + (n + 1) = j + 1 + n := by omega
      simp only [invntt_j, if_pos hlt]
      rw [hb]
      exact hrun
    · rw [hk, invntt_body_k]
    · rw [hreads, invntt_body_reads]
    · intro i
      rw [hr i]
      simp only [invntt_body_r zeta len j s hlen]
      by_cases hij : i = j
      · subst hij
        have c1 : ¬ (i + 1 ≤ i ∧ i < i + 1 + n) := by omega
        have c2 : ¬ (i + 1 + len ≤ i ∧ i < i + 1 + n + len) := by omega
        have c3 : i ≤ i ∧ i < i + (n + 1) := by omega
        rw [if_neg c1, if_neg c2, if_pos c3, if_pos rfl]
      · by_cases hijl : i = j + len
        · subst hijl
          have c1 : ¬ (j + 1 ≤ j + len ∧ j + len < j + 1 + n) := by omega
          have c2 : ¬ (j + 1 + len ≤ j + len ∧ j + len < j + 1 + n + len) := by omega
          have c3 : ¬ (j ≤ j + len ∧ j + len < j + (n + 1)) := by omega
          have c4 : j + len ≤ j + len ∧ j + len < j + (n + 1) + len := by omega
          have c5 : j + len - len = j := by omega
          rw [if_neg c1, if_neg c2, if_neg c3, if_pos c4, if_neg hij, if_pos rfl, c5]
        · by_cases h1 : j + 1 ≤ i ∧ i < j + 1 + n
          · have c3 : j ≤ i ∧ i < j + (n + 1) := by omega
            have c4 : i + len ≠ j := by omega
            have c5 : i + len ≠ j + len := by omega
            rw [if_pos h1, if_pos c3, if_neg hij, if_neg hijl, if_neg c4, if_neg c5]
          · by_cases h2 : j + 1 + len ≤ i ∧ i < j + 1 + n + len
            · have c3 : ¬ (j ≤ i ∧ i < j + (n + 1)) := by omega
              have c4 : j + len ≤ i ∧ i < j + (n + 1) + len := by omega
              have c5 : i - len ≠ j := by omega
              have c6 : i - len ≠ j + len := by omega
              rw [if_neg h1, if_pos h2, if_neg c3, if_pos c4, if_neg hij, if_neg hijl,
                if_neg c5, if_neg c6]
            · have c3 : ¬ (j ≤ i ∧ i < j + (n + 1)) := by omega
              have c4 : ¬ (j + len ≤ i ∧ i < j + (n + 1) + len) := by omega
              rw [if_neg h1, if_neg h2, if_neg c3, if_neg c4, if_neg hij, if_neg hijl]
    · intro hs hfit
      have hj := hfit j (by omega) (by omega)
      refine hok (invntt_body_ok zeta len j s hlen hs hj.1 hj.2.1 hj.2.2) ?_
      intro i hi1 hi2
      have hi := hfit i (by omega) (by omega)
      simp only [invntt_body_r zeta len j s hlen]
      have c1 : i ≠ j := by omega
      have c2 : i ≠ j + len := by omega
      have c4 : i + len ≠ j := by omega
      have c5 : i + len ≠ j + len := by omega
      rw [if_neg c1, if_neg c2, if_neg c4, if_neg c5]
      exact hi

theorem invntt_start_spec (len : Nat) (hlen : 0 < len) (hlen2 : len < 512) :
    ∀ (m fuel start : Nat) (s : Vars), m < fuel → start + m * (2 * len) = 256 →
      ∃ s' : Vars, invntt_start len fuel start s = some s' ∧
        s'.k = s.k - m ∧ s'.reads = s.reads ++ (List.range m).map (fun q => s.k - q) ∧
        (∀ i, s'.r i =
          if start ≤ i ∧ i < 256 then
            if (i - start) % (2 * len) < len then barrett_reduce (s.r i + s.r (i + len))
            else fqmul (zetas (s.k - (i - start) / (2 * len))) (wrap16 (s.r i - s.r (i - len)))
          else s.r i) ∧
        (s.ok = true →
          (∀ i, start ≤ i → i < 256 → (i - start) % (2 * len) < len →
            fits16 (s.r i + s.r (i + len)) = true ∧
            fits16 (s.r (i + len) - s.r i) = true ∧
            barrett_fits (s.r i + s.r (i + len)) = true) →
          s'.ok = true) := by
  intro m
  induction m with
  | zero =>
    intro fuel start s hf hm
    obtain ⟨f, rfl⟩ : ∃ f, fuel = f + 1 := ⟨fuel - 1, by omega⟩
    have hst : ¬ start < 256 := by omega
    refine ⟨s, ?_, rfl, ?_, ?_, fun h _ => h⟩
    · simp only [invntt_start, if_neg hst]
    · simp
    · intro i
      have h1 : ¬ (start ≤ i ∧ i < 256) := by omega
      rw [if_neg h1]
  | succ m ih =>
    intro fuel start s hf hm
    obtain ⟨f, rfl⟩ : ∃ f, fuel = f + 1 := ⟨fuel - 1, by omega⟩
    rw [Nat.succ_mul] at hm
    have hst : start < 256 := by omega
    have hw : 0 < 2 * len := by omega
    obtain ⟨s2, hrun2, hk2, hreads2, hr2, hok2⟩ :=
      invntt_j_spec (zetas s.k) len hlen len 512 start
        { s with k := s.k - 1, reads := s.reads ++ [s.k] } hlen2 (le_refl _)
    obtain ⟨s', hrun, hk, hreads, hr, hok⟩ :=
      ih f (start + len + len) s2 (by omega) (by omega)
    simp only at hk2 hreads2 hr2 hok2
    refine ⟨s', ?_, ?_, ?_, ?_, ?_⟩
    · simp only [invntt_start, if_pos hst, hrun2]
      exact hrun
    · rw [hk, hk2]; omega
    · rw [hreads, hreads2, hk2, List.range_succ_eq_map, List.map_cons, List.map_map,
        List.append_assoc, List.singleton_append, Nat.sub_zero]
      congr 2
      apply List.map_congr_left
      intro q _
      simp only [Function.comp_apply]
      omega
    · intro i
      rw [hr i]
      by_cases hA : start + len + len ≤ i ∧ i < 256
      · have hB : start ≤ i ∧ i < 256 := by omega
        obtain ⟨hd, hmod⟩ := seg_hi (2 * len) (i - start) hw (by omega)
        have e1 : i - start - 2 * len = i - (start + len + len) := by omega
        rw [e1] at hd hmod
        rw [if_pos hA, if_pos hB, hmod, hd, hk2]
        have ek : s.k - 1 - (i - (start + len + len)) / (2 * len) =
            s.k - ((i - (start + len + len)) / (2 * len) + 1) := by omega
        rw [ek]
        have n1 : ¬ (start ≤ i ∧ i < start + len) := by omega
        have n2 : ¬ (start + len ≤ i ∧ i < start + len + len) := by omega
        have n3 : ¬ (start ≤ i + len ∧ i + len < start + len) := by omega
        have n4 : ¬ (start + len ≤ i + len ∧ i + len < start + len + len) := by omega
        by_cases hlo : (i - (start + len + len)) % (2 * len) < len
        · rw [if_pos hlo, hr2 i, hr2 (i + len), if_neg n1, if_neg n2, if_neg n3, if_neg n4,
            if_pos hlo]
        · have hge : len ≤ i - (start + len + len) := by
            by_contra hc
            have := (seg_lo (2 * len) (i - (start + len + len)) (by omega)).2
            omega
          have n5 : ¬ (start ≤ i - len ∧ i - len < start + len) := by omega
          have n6 : ¬ (start + len ≤ i - len ∧ i - len < start + len + len) := by omega
          rw [if_neg hlo, hr2 i, hr2 (i - len), if_neg n1, if_neg n2, if_neg n5, if_neg n6,
            if_neg hlo]
      · rw [if_neg hA, hr2 i]
        by_cases h1 : start ≤ i ∧ i < start + len
        · have hB : start ≤ i ∧ i < 256 := by omega
          obtain ⟨hd, hmod⟩ := seg_lo (2 * len) (i - start) (by omega)
          have hlo : i - start < len := by omega
          rw [if_pos h1, if_pos hB, hmod, if_pos hlo]
        · by_cases h2 : start + len ≤ i ∧ i < start + len + len
          · have hB : start ≤ i ∧ i < 256 := by omega
            obtain ⟨hd, hmod⟩ := seg_lo (2 * len) (i - start) (by omega)
            have hlo : ¬ i - start < len := by omega
            rw [if_neg h1, if_pos h2, if_pos hB, hmod, hd, if_neg hlo]
            rfl
          · have hB : ¬ (start ≤ i ∧ i < 256) := by omega
            rw [if_neg h1, if_neg h2, if_neg hB]
    · intro hs hfit
      refine hok (hok2 hs ?_) ?_
      · intro i hi1 hi2
        obtain ⟨hd, hmod⟩ := seg_lo (2 * len) (i - start) (by omega)
        exact hfit i hi1 (by omega) (by omega)
      · intro i hi1 hi2 hi3
        obtain ⟨hd, hmod⟩ := seg_hi (2 * len) (i - start) hw (by omega)
        have e1 : i - start - 2 * len = i - (start + len + len) := by omega
        rw [e1] at hd hmod
        have := hfit i (by omega) hi2 (by omega)
        have n1 : ¬ (start ≤ i ∧ i < start + len) := by omega
        have n2 : ¬ (start + len ≤ i ∧ i < start + len + len) := by omega
        have n3 : ¬ (start ≤ i + len ∧ i + len < start + len) := by omega
        have n4 : ¬ (start + len ≤ i + len ∧ i + len < start + len + len) := by omega
        rw [hr2 i, hr2 (i + len), if_neg n1, if_neg n2, if_neg n3, if_neg n4]
        exact this

theorem invntt_scale_spec (f : Int) :
    ∀ (n fuel j : Nat) (s : Vars), n < fuel → j + n = 256 →
      ∃ s' : Vars, invntt_scale f fuel j s = some s' ∧
        s'.k = s.k ∧ s'.reads = s.reads ∧ s'.ok = s.ok ∧
        (∀ i, s'.r i = if j ≤ i ∧ i < 256 then fqmul (s.r i) f else s.r i) := by
  intro n
  induction n with
  | zero =>
    intro fuel j s hf hj
    obtain ⟨g, rfl⟩ : ∃ g, fuel = g + 1 := ⟨fuel - 1, by omega⟩
    have hst : ¬ j < 256 := by omega
    refine ⟨s, ?_, rfl, rfl, rfl, ?_⟩
    · simp only [invntt_scale, if_neg hst]
    · intro i
      have h1 : ¬ (j ≤ i ∧ i < 256) := by omega
      rw [if_neg h1]
  | succ n ih =>
    intro fuel j s hf hj
    obtain ⟨g, rfl⟩ : ∃ g, fuel = g + 1 := ⟨fuel - 1, by omega⟩
    have hst : j < 256 := by omega
    obtain ⟨s', hrun, hk, hreads, hok, hr⟩ :=
      ih g (j + 1) { s with r := upd s.r j (fqmul (s.r j) f) } (by omega) (by omega)
    simp only at hk hreads hok hr
    refine ⟨s', ?_, hk, hreads, hok, ?_⟩
    · simp only [invntt_scale, if_pos hst]
      exact hrun
    · intro i
      rw [hr i, upd_apply]
      by_cases hij : i = j
      · subst hij
        have c1 : ¬ (i + 1 ≤ i ∧ i < 256) := by omega
        have c2 : i ≤ i ∧ i < 256 := by omega
        rw [if_neg c1, if_pos rfl, if_pos c2]
      · by_cases h1 : j + 1 ≤ i ∧ i < 256
        · have c2 : j ≤ i ∧ i < 256 := by omega
          rw [if_pos h1, if_pos c2, if_neg hij]
        · have c2 : ¬ (j ≤ i ∧ i < 256) := by omega
          rw [if_neg h1, if_neg c2, if_neg hij]


/-- A complete `start` loop of `invntt` is one application of `gs_layer`. -/
theorem invntt_layer_run (len m : Nat) (hlen : 0 < len) (hlen2 : len < 512) (hm : m < 512)
    (hseg : 0 + m * (2 * len) = 256) (s : Vars) :
    ∃ s' : Vars, invntt_start len 512 0 s = some s' ∧
      s'.k = s.k - m ∧ s'.reads = s.reads ++ (List.range m).map (fun q => s.k - q) ∧
      s'.r = gs_layer len s.k s.r ∧
      (s.ok = true → gs_fits len s.r → s'.ok = true) := by
  obtain ⟨s', hrun, hk, hreads, hr, hok⟩ := invntt_start_spec len hlen hlen2 m 512 0 s hm hseg
  refine ⟨s', hrun, hk, hreads, ?_, ?_⟩
  · funext i
    rw [hr i]
    simp only [gs_layer, Nat.zero_le, true_and, Nat.sub_zero]
  · intro hs hfit
    refine hok hs ?_
    intro i _ hi2 hi3
    rw [Nat.sub_zero] at hi3
    exact hfit i hi2 hi3

theorem invntt_len_step (fuel len : Nat) (s s1 : Vars) (h2 : len ≤ 128)
    (h : invntt_start len 512 0 s = some s1) :
    invntt_len (fuel + 1) len s = invntt_len fuel (len <<< 1) s1 := by
  simp only [invntt_len, if_pos h2, h]

/-- The loops of `invntt` terminate and compute the seven layers and the
final scaling in closed form; the twiddle table is read at the indices
`127, 126, ..., 1` in this order, and the ghost flag is set when every
butterfly fits. -/
theorem invntt_run (y : Nat → Int) :
    ∃ s : Vars, invntt y = some s ∧ s.r = scale_layer 1441 (invntt_upto 7 y) ∧ s.k = 0 ∧
      s.reads = (List.range' 1 127).reverse ∧ (invntt_fits y → s.ok = true) := by
  obtain ⟨s1, e1, k1, d1, r1, o1⟩ := invntt_layer_run 2 64 (by decide) (by decide) (by decide)
    (by decide) { r := y, k := 127, reads := [], ok := true }
  obtain ⟨s2, e2, k2, d2, r2, o2⟩ := invntt_layer_run 4 32 (by decide) (by decide) (by decide)
    (by decide) s1
  obtain ⟨s3, e3, k3, d3, r3, o3⟩ := invntt_layer_run 8 16 (by decide) (by decide) (by decide)
    (by decide) s2
  obtain ⟨s4, e4, k4, d4, r4, o4⟩ := invntt_layer_run 16 8 (by decide) (by decide) (by decide)
    (by decide) s3
  obtain ⟨s5, e5, k5, d5, r5, o5⟩ := invntt_layer_run 32 4 (by decide) (by decide) (by decide)
    (by decide) s4
  obtain ⟨s6, e6, k6, d6, r6, o6⟩ := invntt_layer_run 64 2 (by decide) (by decide) (by decide)
    (by decide) s5
  obtain ⟨s7, e7, k7, d7, r7, o7⟩ := invntt_layer_run 128 1 (by decide) (by decide) (by decide)
    (by decide) s6
  obtain ⟨s8, e8, k8, d8, o8, r8⟩ := invntt_scale_spec 1441 256 512 0 s7 (by decide) (by decide)
  simp only at k1 d1 r1 o1
  have k1' : s1.k = 63 := by omega
  have k2' : s2.k = 31 := by omega
  have k3' : s3.k = 15 := by omega
  have k4' : s4.k = 7 := by omega
  have k5' : s5.k = 3 := by omega
  have k6' : s6.k = 1 := by omega
  have k7' : s7.k = 0 := by omega
  have hexit : invntt_len 505 256 s7 = some s7 := by
    simp [invntt_len]
  have h1 : invntt_len 512 2 { r := y, k := 127, reads := [], ok := true } =
      invntt_len 511 4 s1 := invntt_len_step 511 2 _ s1 (by decide) e1
  have h2 : invntt_len 511 4 s1 = invntt_len 510 8 s2 :=
    invntt_len_step 510 4 s1 s2 (by decide) e2
  have h3 : invntt_len 510 8 s2 = invntt_len 509 16 s3 :=
    invntt_len_step 509 8 s2 s3 (by decide) e3
  have h4 : invntt_len 509 16 s3 = invntt_len 508 32 s4 :=
    invntt_len_step 508 16 s3 s4 (by decide) e4
  have h5 : invntt_len 508 32 s4 = invntt_len 507 64 s5 :=
    invntt_len_step 507 32 s4 s5 (by decide) e5
  have h6 : invntt_len 507 64 s5 = invntt_len 506 128 s6 :=
    invntt_len_step 506 64 s5 s6 (by decide) e6
  have h7 : invntt_len 506 128 s6 = invntt_len 505 256 s7 :=
    invntt_len_step 505 128 s6 s7 (by decide) e7
  have hrun : invntt y = some s8 := by
    unfold invntt
    rw [h1, h2, h3, h4, h5, h6, h7, hexit]
    exact e8
  have y1 : s1.r = invntt_upto 1 y := r1
  have y2 : s2.r = invntt_upto 2 y := by rw [r2, y1, k1']; rfl
  have y3 : s3.r = invntt_upto 3 y := by rw [r3, y2, k2']; rfl
  have y4 : s4.r = invntt_upto 4 y := by rw [r4, y3, k3']; rfl
  have y5 : s5.r = invntt_upto 5 y := by rw [r5, y4, k4']; rfl
  have y6 : s6.r = invntt_upto 6 y := by rw [r6, y5, k5']; rfl
  have y7 : s7.r = invntt_upto 7 y := by rw [r7, y6, k6']; rfl
  refine ⟨s8, hrun, ?_, by rw [k8, k7'], ?_, ?_⟩
  · funext i
    rw [r8 i, y7]
    simp only [scale_layer, Nat.zero_le, true_and]
  · rw [d8, d7, d6, d5, d4, d3, d2, d1, k1', k2', k3', k4', k5', k6']
    rfl
  · intro hfit
    rw [o8]
    rw [y6] at o7
    rw [y5] at o6
    rw [y4] at o5
    rw [y3] at o4
    rw [y2] at o3
    rw [y1] at o2
    exact o7 (o6 (o5 (o4 (o3 (o2 (o1 trivial (hfit 0 (by decide))) (hfit 1 (by decide)))
      (hfit 2 (by decide))) (hfit 3 (by decide))) (hfit 4 (by decide))) (hfit 5 (by decide)))
      (hfit 6 (by decide))


/-! ## Twiddle table and traversal -/

theorem fqmul_zero_right (a : Int) : fqmul a 0 = 0 := by
  have h0 : wrap16 0 = 0 := by decide
  have hm : montgomery_reduce 0 = 0 := by decide
  unfold fqmul
  rw [h0, mul_zero, hm]

set_option maxRecDepth 100000 in
theorem zetas_table_facts : ∀ k, k < 128 →
    (-1664 ≤ zetas k ∧ zetas k ≤ 1664) ∧ zetas k ≡ 2 ^ 16 * 17 ^ brv7 k [ZMOD 3329] := by
  decide!

theorem zetas_bound (k : Nat) : -1664 ≤ zetas k ∧ zetas k ≤ 1664 := by
  by_cases h : k < 128
  · exact (zetas_table_facts k h).1
  · have hlen : zetasTable.length = 128 := rfl
    have : zetas k = 0 := by
      unfold zetas
      rw [List.getD_eq_default]
      omega
    rw [this]
    omega

/-- C10. For every `k` in `0..127`, `zetas[k]` lies in `[-1664, 1664]` and
`zetas[k] ≡ 2^16 * 17^(brv7 k) (mod 3329)`, where `17^128 ≡ -1`, so that `17`
has order exactly `256` modulo `q`: every entry is a power of a primitive
256-th root of unity in Montgomery representation. -/
theorem zetas_contents (k : Nat) (hk : k < 128) :
    (-1664 ≤ zetas k ∧ zetas k ≤ 1664) ∧
    zetas k ≡ 2 ^ 16 * 17 ^ brv7 k [ZMOD KYBER_Q] ∧
    (17 : Int) ^ 128 ≡ -1 [ZMOD KYBER_Q] ∧ (17 : Int) ^ 256 ≡ 1 [ZMOD KYBER_Q] := by
  have h := zetas_table_facts k hk
  have h128 : (17 : Int) ^ 128 ≡ -1 [ZMOD 3329] := by decide!
  have h256 : (17 : Int) ^ 256 ≡ 1 [ZMOD 3329] := by decide!
  exact ⟨h.1, h.2, h128, h256⟩

/-- Witness for C10 at `k = 1`, the first twiddle read by `ntt`
(`zetas[1] = -758 ≡ 2^16 * 17^64`). -/
theorem zetas_contents_witness :
    (-1664 ≤ zetas 1 ∧ zetas 1 ≤ 1664) ∧
    zetas 1 ≡ 2 ^ 16 * 17 ^ brv7 1 [ZMOD KYBER_Q] ∧
    (17 : Int) ^ 128 ≡ -1 [ZMOD KYBER_Q] ∧ (17 : Int) ^ 256 ≡ 1 [ZMOD KYBER_Q] :=
  zetas_contents 1 (by decide)

set_option maxRecDepth 100000 in
/-- C9. On every input, `ntt` terminates having read the twiddle table at
the indices `1, 2, ..., 127` in this order (one read per segment, 127
segments in all) and `invntt` at `127, 126, ..., 1`; the sequence read by
`invntt` is the reverse of the one read by `ntt`, its `i`-th entry is `128`
minus the `i`-th entry of `ntt`, and no read is at index `0` or at an index
`>= 128`. -/
theorem twiddle_reads_mirror (x y : Nat → Int) :
    ∃ s t : Vars, ntt x = some s ∧ invntt y = some t ∧
      s.reads = List.range' 1 127 ∧ t.reads = (List.range' 1 127).reverse ∧
      t.reads = s.reads.reverse ∧
      t.reads = s.reads.map (fun k => 128 - k) ∧
      (s.reads ++ t.reads).all (fun k => decide (1 ≤ k ∧ k < 128)) = true := by
  obtain ⟨s, hs, -, -, hsr, -⟩ := ntt_run x
  obtain ⟨t, ht, -, -, htr, -⟩ := invntt_run y
  refine ⟨s, t, hs, ht, hsr, htr, ?_, ?_, ?_⟩
  · rw [hsr, htr]
  · rw [hsr, htr]; decide!
  · rw [hsr, htr]; decide!

/-! ## The transform of the constant polynomial `1` -/

theorem ct_layer_one (len k : Nat)
    (hlen : len = 128 ∨ len = 64 ∨ len = 32 ∨ len = 16 ∨ len = 8 ∨ len = 4 ∨ len = 2)
    (r : Nat → Int) (hr : ∀ i, i < 256 → r i = if i % (2 * len) = 0 then 1 else 0) :
    ∀ i, i < 256 → ct_layer len k r i = if i % len = 0 then 1 else 0 := by
  intro i hi
  have w0 : wrap16 (0 + 0) = 0 := by decide
  have w1 : wrap16 (1 + 0) = 1 := by decide
  have w2 : wrap16 (0 - 0) = 0 := by decide
  have w3 : wrap16 (1 - 0) = 1 := by decide
  simp only [ct_layer, if_pos hi]
  by_cases hlo : i % (2 * len) < len
  · have hi2 : i + len < 256 := by rcases hlen with h | h | h | h | h | h | h <;> subst h <;> omega
    have hu : ¬ (i + len) % (2 * len) = 0 := by
      rcases hlen with h | h | h | h | h | h | h <;> subst h <;> omega
    have hiff : i % (2 * len) = 0 ↔ i % len = 0 := by
      rcases hlen with h | h | h | h | h | h | h <;> subst h <;> omega
    rw [if_pos hlo, hr i hi, hr (i + len) hi2, if_neg hu, fqmul_zero_right]
    by_cases h0 : i % (2 * len) = 0
    · rw [if_pos h0, if_pos (hiff.mp h0), w1]
    · rw [if_neg h0, if_neg (fun h => h0 (hiff.mpr h)), w0]
  · have hu : ¬ i % (2 * len) = 0 := by
      rcases hlen with h | h | h | h | h | h | h <;> subst h <;> omega
    have hiff : (i - len) % (2 * len) = 0 ↔ i % len = 0 := by
      rcases hlen with h | h | h | h | h | h | h <;> subst h <;> omega
    rw [if_neg hlo, hr i hi, hr (i - len) (by omega), if_neg hu, fqmul_zero_right]
    by_cases h0 : (i - len) % (2 * len) = 0
    · rw [if_pos h0, if_pos (hiff.mp h0), w3]
    · rw [if_neg h0, if_neg (fun h => h0 (hiff.mpr h)), w2]

theorem ntt_upto_one : ∀ i, i < 256 → ntt_upto 7 one_poly i = if i % 2 = 0 then 1 else 0 := by
  have h0 : ∀ i, i < 256 → ntt_upto 0 one_poly i = if i % (2 * 128) = 0 then 1 else 0 := by
    intro i hi
    have : i % (2 * 128) = i := by omega
    simp only [ntt_upto, one_poly, this]
  have h1 : ∀ i, i < 256 → ntt_upto 1 one_poly i = if i % (2 * 64) = 0 then 1 else 0 :=
    ct_layer_one 128 1 (by decide) _ h0
  have h2 : ∀ i, i < 256 → ntt_upto 2 one_poly i = if i % (2 * 32) = 0 then 1 else 0 :=
    ct_layer_one 64 2 (by decide) _ h1
  have h3 : ∀ i, i < 256 → ntt_upto 3 one_poly i = if i % (2 * 16) = 0 then 1 else 0 :=
    ct_layer_one 32 4 (by decide) _ h2
  have h4 : ∀ i, i < 256 → ntt_upto 4 one_poly i = if i % (2 * 8) = 0 then 1 else 0 :=
    ct_layer_one 16 8 (by decide) _ h3
  have h5 : ∀ i, i < 256 → ntt_upto 5 one_poly i = if i % (2 * 4) = 0 then 1 else 0 :=
    ct_layer_one 8 16 (by decide) _ h4
  have h6 : ∀ i, i < 256 → ntt_upto 6 one_poly i = if i % (2 * 2) = 0 then 1 else 0 :=
    ct_layer_one 4 32 (by decide) _ h5
  exact ct_layer_one 2 64 (by decide) _ h6

/-- C8, counterexample. On the buffer of the constant polynomial `1`, `ntt`
returns `1` at index `0` and `0` at index `1`: neither is the Montgomery
representation `2285` (centered `-1044`) of `1`. -/
theorem ntt_one_not_montgomery :
    ∃ s : Vars, ntt one_poly = some s ∧ s.r 0 = 1 ∧ s.r 1 = 0 ∧
      ¬ (s.r 0 = 2285 ∨ s.r 0 = -1044) ∧ ¬ (s.r 1 = 2285 ∨ s.r 1 = -1044) := by
  obtain ⟨s, hs, hr, -, -, -⟩ := ntt_run one_poly
  have e0 := ntt_upto_one 0 (by decide)
  have e1 := ntt_upto_one 1 (by decide)
  rw [← hr] at e0 e1
  simp only [Nat.zero_mod, if_pos] at e0
  have e1' : s.r 1 = 0 := e1
  refine ⟨s, hs, e0, e1', ?_, ?_⟩
  · rw [e0]; decide
  · rw [e1']; decide

/-- C8, amended. On the buffer of the constant polynomial `1` (`x[0] = 1`,
all other elements `0`), `ntt` returns the plain value `1` at every even
index and `0` at every odd index: each of the 128 degree-one residues
`r[2i] + r[2i+1] X` is the constant polynomial `1`, not Montgomery-scaled. -/
theorem ntt_one_plain :
    ∃ s : Vars, ntt one_poly = some s ∧
      ∀ i, i < 128 → s.r (2 * i) = 1 ∧ s.r (2 * i + 1) = 0 := by
  obtain ⟨s, hs, hr, -, -, -⟩ := ntt_run one_poly
  refine ⟨s, hs, ?_⟩
  intro i hi
  have e0 := ntt_upto_one (2 * i) (by omega)
  have e1 := ntt_upto_one (2 * i + 1) (by omega)
  rw [← hr] at e0 e1
  have c0 : (2 * i) % 2 = 0 := by omega
  have c1 : ¬ (2 * i + 1) % 2 = 0 := by omega
  rw [if_pos c0] at e0
  rw [if_neg c1] at e1
  exact ⟨e0, e1⟩


/-! ## Arithmetic of one layer: indices, bounds, residues -/

theorem seg_facts (len i : Nat)
    (hlen : len = 128 ∨ len = 64 ∨ len = 32 ∨ len = 16 ∨ len = 8 ∨ len = 4 ∨ len = 2)
    (hi : i < 256) :
    (i % (2 * len) < len →
      i + len < 256 ∧ ¬ (i + len) % (2 * len) < len ∧
      (i + len) / (2 * len) = i / (2 * len) ∧ i + len - len = i) ∧
    (¬ i % (2 * len) < len →
      len ≤ i ∧ (i - len) % (2 * len) < len ∧
      (i - len) / (2 * len) = i / (2 * len) ∧ i - len + len = i) := by
  rcases hlen with h | h | h | h | h | h | h <;> subst h <;> omega

theorem fqmul_cast (a b : Int) (ha1 : -32768 ≤ a) (ha2 : a ≤ 32767)
    (hb1 : -32768 ≤ b) (hb2 : b ≤ 32767) :
    ((fqmul a b : Int) : ZMod 3329) = 169 * (a : ZMod 3329) * (b : ZMod 3329) := by
  have h := (ZMod.intCast_eq_intCast_iff (fqmul a b) (169 * (a * b)) 3329).mpr
    (fqmul_modEq a b ha1 ha2 hb1 hb2)
  rw [h]
  push_cast
  ring

theorem barrett_cast (a : Int) (h1 : -32768 ≤ a) (h2 : a ≤ 32767) :
    ((barrett_reduce a : Int) : ZMod 3329) = (a : ZMod 3329) :=
  (ZMod.intCast_eq_intCast_iff (barrett_reduce a) a 3329).mpr (barrett_reduce_modEq a h1 h2)

/-- Size of one forward layer: if the buffer is bounded by `B` and a
Montgomery product with a twiddle is then bounded by `T`, no butterfly wraps
and the buffer after the layer is bounded by `B + T`. -/
theorem ct_layer_bound (len k : Nat)
    (hlen : len = 128 ∨ len = 64 ∨ len = 32 ∨ len = 16 ∨ len = 8 ∨ len = 4 ∨ len = 2)
    (B T : Int) (r : Nat → Int) (hB : ∀ i, i < 256 → -B ≤ r i ∧ r i ≤ B)
    (hT : 1664 * B + 109084672 < 65536 * (T + 1)) (hBT : B + T ≤ 32767) :
    ct_fits len k r ∧
    ∀ i, i < 256 → -(B + T) ≤ ct_layer len k r i ∧ ct_layer len k r i ≤ B + T := by
  have key : ∀ i j, i < 256 → j < 256 →
      -T ≤ fqmul (zetas (k + i / (2 * len))) (r j) ∧
        fqmul (zetas (k + i / (2 * len))) (r j) ≤ T := by
    intro i j _ hj
    have hz := zetas_bound (k + i / (2 * len))
    have hb := hB j hj
    have := fqmul_bound (zetas (k + i / (2 * len))) (r j) B hz.1 hz.2 hb.1 hb.2 (by omega)
    omega
  constructor
  · intro i hi hlo
    obtain ⟨h1, -, -, -⟩ := (seg_facts len i hlen hi).1 hlo
    have ht := key i (i + len) hi h1
    have hb := hB i hi
    rw [fits16_iff, fits16_iff]
    omega
  · intro i hi
    simp only [ct_layer, if_pos hi]
    by_cases hlo : i % (2 * len) < len
    · obtain ⟨h1, -, -, -⟩ := (seg_facts len i hlen hi).1 hlo
      have ht := key i (i + len) hi h1
      have hb := hB i hi
      rw [if_pos hlo, wrap16_of_fits _ (by omega) (by omega)]
      omega
    · obtain ⟨h1, -, -, -⟩ := (seg_facts len i hlen hi).2 hlo
      have ht := key i i hi hi
      have hb := hB (i - len) (by omega)
      rw [if_neg hlo, wrap16_of_fits _ (by omega) (by omega)]
      omega

/-- Values of one forward layer when no butterfly wraps. -/
theorem ct_layer_exact (len k : Nat)
    (hlen : len = 128 ∨ len = 64 ∨ len = 32 ∨ len = 16 ∨ len = 8 ∨ len = 4 ∨ len = 2)
    (r : Nat → Int) (hfit : ct_fits len k r) (i : Nat) (hi : i < 256) :
    (i % (2 * len) < len →
      ct_layer len k r i = r i + fqmul (zetas (k + i / (2 * len))) (r (i + len))) ∧
    (¬ i % (2 * len) < len →
      ct_layer len k r i = r (i - len) - fqmul (zetas (k + i / (2 * len))) (r i)) := by
  constructor
  · intro hlo
    have h := (hfit i hi hlo).2
    rw [fits16_iff] at h
    simp only [ct_layer, if_pos hi, if_pos hlo]
    exact wrap16_of_fits _ h.1 h.2
  · intro hlo
    obtain ⟨h1, h2, h3, h4⟩ := (seg_facts len i hlen hi).2 hlo
    have h := (hfit (i - len) (by omega) h2).1
    rw [h3, h4, fits16_iff] at h
    simp only [ct_layer, if_pos hi, if_neg hlo]
    exact wrap16_of_fits _ h.1 h.2

/-- Size of one inverse layer: if the buffer is bounded by `15812`, no
butterfly and no Barrett reduction wraps, and the buffer after the layer is
bounded by `2496`. -/
theorem gs_layer_bound (len k : Nat)
    (hlen : len = 128 ∨ len = 64 ∨ len = 32 ∨ len = 16 ∨ len = 8 ∨ len = 4 ∨ len = 2)
    (r : Nat → Int) (hB : ∀ i, i < 256 → -15812 ≤ r i ∧ r i ≤ 15812) :
    gs_fits len r ∧ ∀ i, i < 256 → -2496 ≤ gs_layer len k r i ∧ gs_layer len k r i ≤ 2496 := by
  constructor
  · intro i hi hlo
    obtain ⟨h1, -, -, -⟩ := (seg_facts len i hlen hi).1 hlo
    have ha := hB i hi
    have hb := hB (i + len) h1
    rw [fits16_iff, fits16_iff]
    exact ⟨by omega, by omega, barrett_fits_of_bound _ (by omega) (by omega)⟩
  · intro i hi
    simp only [gs_layer, if_pos hi]
    by_cases hlo : i % (2 * len) < len
    · obtain ⟨h1, -, -, -⟩ := (seg_facts len i hlen hi).1 hlo
      have ha := hB i hi
      have hb := hB (i + len) h1
      have := barrett_reduce_range (r i + r (i + len)) (by omega) (by omega)
      rw [if_pos hlo]
      omega
    · obtain ⟨h1, -, -, -⟩ := (seg_facts len i hlen hi).2 hlo
      have ha := hB i hi
      have hb := hB (i - len) (by omega)
      have hz := zetas_bound (k - i / (2 * len))
      rw [if_neg hlo, wrap16_of_fits _ (by omega) (by omega)]
      have := fqmul_bound (zetas (k - i / (2 * len))) (r i - r (i - len)) 32766 hz.1 hz.2
        (by omega) (by omega) (by omega)
      omega

/-- One inverse layer undoes the forward layer of the same `len` up to a
factor `2`, modulo `q`, when the twiddles of matching segments multiply to
`-R^2` and nothing wraps. -/
theorem gs_ct_cancel (len kf ki M : Nat)
    (hlen : len = 128 ∨ len = 64 ∨ len = 32 ∨ len = 16 ∨ len = 8 ∨ len = 4 ∨ len = 2)
    (hM : M * (2 * len) = 256)
    (c : ZMod 3329) (y z : Nat → Int)
    (hy : ∀ i, i < 256 → -32768 ≤ y i ∧ y i ≤ 32767)
    (hfit : ct_fits len kf y)
    (hz : ∀ i, i < 256 → ((z i : Int) : ZMod 3329) = c * ((ct_layer len kf y i : Int) : ZMod 3329))
    (hzfit : gs_fits len z)
    (htw : ∀ q, q < M → zetas (kf + q) * zetas (ki - q) * 28561 ≡ -1 [ZMOD 3329]) :
    ∀ i, i < 256 → ((gs_layer len ki z i : Int) : ZMod 3329) = 2 * c * ((y i : Int) : ZMod 3329) := by
  intro i hi
  have hq : i / (2 * len) < M := by
    rcases hlen with h | h | h | h | h | h | h <;> subst h <;> omega
  simp only [gs_layer, if_pos hi]
  by_cases hlo : i % (2 * len) < len
  · obtain ⟨h1, h2, h3, h4⟩ := (seg_facts len i hlen hi).1 hlo
    have hf := hzfit i hi hlo
    rw [fits16_iff, fits16_iff] at hf
    have e1 := (ct_layer_exact len kf hlen y hfit i hi).1 hlo
    have e2 := (ct_layer_exact len kf hlen y hfit (i + len) h1).2 h2
    rw [h3, h4] at e2
    rw [if_pos hlo, barrett_cast _ hf.1.1 hf.1.2]
    push_cast
    rw [hz i hi, hz (i + len) h1, e1, e2]
    push_cast
    ring
  · obtain ⟨h1, h2, h3, h4⟩ := (seg_facts len i hlen hi).2 hlo
    have hf := hzfit (i - len) (by omega) h2
    rw [h4, fits16_iff, fits16_iff] at hf
    have hf2 := hf.2.1
    have e1 := (ct_layer_exact len kf hlen y hfit i hi).2 hlo
    have e2 := (ct_layer_exact len kf hlen y hfit (i - len) (by omega)).1 h2
    rw [h3, h4] at e2
    have hzk := zetas_bound (ki - i / (2 * len))
    have hzf := zetas_bound (kf + i / (2 * len))
    have hyi := hy i hi
    have ht := (ZMod.intCast_eq_intCast_iff _ _ 3329).mpr (htw (i / (2 * len)) hq)
    push_cast at ht
    rw [if_neg hlo, wrap16_of_fits _ hf2.1 hf2.2,
      fqmul_cast _ _ (by omega) (by omega) hf2.1 hf2.2]
    push_cast
    rw [hz i hi, hz (i - len) (by omega), e1, e2]
    push_cast
    rw [fqmul_cast _ _ (by omega) (by omega) hyi.1 hyi.2]
    linear_combination (-2 * c * ((y i : Int) : ZMod 3329)) * ht


/-! ## Bounds through the forward transform -/

/-- If the input is bounded by `B0` and Montgomery products with twiddles
stay bounded by `T` on buffers bounded by `B0 + 6*T`, then no butterfly of
`ntt` wraps and the buffer after `l` layers is bounded by `B0 + l*T`. -/
theorem ntt_bounds (x : Nat → Int) (B0 T : Int)
    (hx : ∀ i, i < 256 → -B0 ≤ x i ∧ x i ≤ B0)
    (hT : 1664 * (B0 + 6 * T) + 109084672 < 65536 * (T + 1))
    (hBT : B0 + 7 * T ≤ 32767) (hT0 : 0 ≤ T) :
    ntt_fits x ∧
    ∀ l : Nat, l ≤ 7 → ∀ i, i < 256 →
      -(B0 + (l : Int) * T) ≤ ntt_upto l x i ∧ ntt_upto l x i ≤ B0 + (l : Int) * T := by
  have b0 : ∀ i, i < 256 → -(B0 + 0 * T) ≤ ntt_upto 0 x i ∧ ntt_upto 0 x i ≤ B0 + 0 * T := by
    intro i hi
    have := hx i hi
    simp only [ntt_upto]
    omega
  obtain ⟨f0, c1⟩ := ct_layer_bound 128 1 (by decide) (B0 + 0 * T) T (ntt_upto 0 x) b0
    (by omega) (by omega)
  have b1 : ∀ i, i < 256 → -(B0 + 1 * T) ≤ ntt_upto 1 x i ∧ ntt_upto 1 x i ≤ B0 + 1 * T := by
    intro i hi
    have := c1 i hi
    have e : ntt_upto 1 x = ct_layer 128 1 (ntt_upto 0 x) := rfl
    rw [e]
    omega
  obtain ⟨f1, c2⟩ := ct_layer_bound 64 2 (by decide) (B0 + 1 * T) T (ntt_upto 1 x) b1
    (by omega) (by omega)
  have b2 : ∀ i, i < 256 → -(B0 + 2 * T) ≤ ntt_upto 2 x i ∧ ntt_upto 2 x i ≤ B0 + 2 * T := by
    intro i hi
    have := c2 i hi
    have e : ntt_upto 2 x = ct_layer 64 2 (ntt_upto 1 x) := rfl
    rw [e]
    omega
  obtain ⟨f2, c3⟩ := ct_layer_bound 32 4 (by decide) (B0 + 2 * T) T (ntt_upto 2 x) b2
    (by omega) (by omega)
  have b3 : ∀ i, i < 256 → -(B0 + 3 * T) ≤ ntt_upto 3 x i ∧ ntt_upto 3 x i ≤ B0 + 3 * T := by
    intro i hi
    have := c3 i hi
    have e : ntt_upto 3 x = ct_layer 32 4 (ntt_upto 2 x) := rfl
    rw [e]
    omega
  obtain ⟨f3, c4⟩ := ct_layer_bound 16 8 (by decide) (B0 + 3 * T) T (ntt_upto 3 x) b3
    (by omega) (by omega)
  have b4 : ∀ i, i < 256 → -(B0 + 4 * T) ≤ ntt_upto 4 x i ∧ ntt_upto 4 x i ≤ B0 + 4 * T := by
    intro i hi
    have := c4 i hi
    have e : ntt_upto 4 x = ct_layer 16 8 (ntt_upto 3 x) := rfl
    rw [e]
    omega
  obtain ⟨f4, c5⟩ := ct_layer_bound 8 16 (by decide) (B0 + 4 * T) T (ntt_upto 4 x) b4
    (by omega) (by omega)
  have b5 : ∀ i, i < 256 → -(B0 + 5 * T) ≤ ntt_upto 5 x i ∧ ntt_upto 5 x i ≤ B0 + 5 * T := by
    intro i hi
    have := c5 i hi
    have e : ntt_upto 5 x = ct_layer 8 16 (ntt_upto 4 x) := rfl
    rw [e]
    omega
  obtain ⟨f5, c6⟩ := ct_layer_bound 4 32 (by decide) (B0 + 5 * T) T (ntt_upto 5 x) b5
    (by omega) (by omega)
  have b6 : ∀ i, i < 256 → -(B0 + 6 * T) ≤ ntt_upto 6 x i ∧ ntt_upto 6 x i ≤ B0 + 6 * T := by
    intro i hi
    have := c6 i hi
    have e : ntt_upto 6 x = ct_layer 4 32 (ntt_upto 5 x) := rfl
    rw [e]
    omega
  obtain ⟨f6, c7⟩ := ct_layer_bound 2 64 (by decide) (B0 + 6 * T) T (ntt_upto 6 x) b6
    (by omega) (by omega)
  have b7 : ∀ i, i < 256 → -(B0 + 7 * T) ≤ ntt_upto 7 x i ∧ ntt_upto 7 x i ≤ B0 + 7 * T := by
    intro i hi
    have := c7 i hi
    have e : ntt_upto 7 x = ct_layer 2 64 (ntt_upto 6 x) := rfl
    rw [e]
    omega
  constructor
  · intro l hl
    interval_cases l
    · exact f0
    · exact f1
    · exact f2
    · exact f3
    · exact f4
    · exact f5
    · exact f6
  · intro l hl
    interval_cases l
    · exact b0
    · exact b1
    · exact b2
    · exact b3
    · exact b4
    · exact b5
    · exact b6
    · exact b7

/-! ## Round trip -/

set_option maxRecDepth 100000 in
/-- Twiddles of mirrored segments multiply to `-R^2` modulo `q`
(`28561 = 169^2 = R^-2`). -/
theorem zetas_mirror :
    (∀ q, q < 64 → zetas (64 + q) * zetas (127 - q) * 28561 ≡ -1 [ZMOD 3329]) ∧
    (∀ q, q < 32 → zetas (32 + q) * zetas (63 - q) * 28561 ≡ -1 [ZMOD 3329]) ∧
    (∀ q, q < 16 → zetas (16 + q) * zetas (31 - q) * 28561 ≡ -1 [ZMOD 3329]) ∧
    (∀ q, q < 8 → zetas (8 + q) * zetas (15 - q) * 28561 ≡ -1 [ZMOD 3329]) ∧
    (∀ q, q < 4 → zetas (4 + q) * zetas (7 - q) * 28561 ≡ -1 [ZMOD 3329]) ∧
    (∀ q, q < 2 → zetas (2 + q) * zetas (3 - q) * 28561 ≡ -1 [ZMOD 3329]) ∧
    (∀ q, q < 1 → zetas (1 + q) * zetas (1 - q) * 28561 ≡ -1 [ZMOD 3329]) := by
  decide!

/-- One step of the round trip: an inverse layer applied to `c` times the
output of the matching forward layer. -/
theorem rt_step (len kf ki M : Nat)
    (hlen : len = 128 ∨ len = 64 ∨ len = 32 ∨ len = 16 ∨ len = 8 ∨ len = 4 ∨ len = 2)
    (hM : M * (2 * len) = 256) (c : ZMod 3329) (yprev ycur z : Nat → Int)
    (hycur : ycur = ct_layer len kf yprev)
    (hy : ∀ i, i < 256 → -32768 ≤ yprev i ∧ yprev i ≤ 32767)
    (hfit : ct_fits len kf yprev)
    (hz : ∀ i, i < 256 → ((z i : Int) : ZMod 3329) = c * ((ycur i : Int) : ZMod 3329))
    (hzB : ∀ i, i < 256 → -15812 ≤ z i ∧ z i ≤ 15812)
    (htw : ∀ q, q < M → zetas (kf + q) * zetas (ki - q) * 28561 ≡ -1 [ZMOD 3329]) :
    gs_fits len z ∧
    (∀ i, i < 256 → -15812 ≤ gs_layer len ki z i ∧ gs_layer len ki z i ≤ 15812) ∧
    ∀ i, i < 256 →
      ((gs_layer len ki z i : Int) : ZMod 3329) = 2 * c * ((yprev i : Int) : ZMod 3329) := by
  obtain ⟨g1, g2⟩ := gs_layer_bound len ki hlen z hzB
  refine ⟨g1, ?_, ?_⟩
  · intro i hi
    have := g2 i hi
    omega
  · subst hycur
    exact gs_ct_cancel len kf ki M hlen hM c yprev z hy hfit hz g1 htw

theorem scale_const : ((169 * 1441 * 128 : Int) : ZMod 3329) = ((65536 : Int) : ZMod 3329) :=
  (ZMod.intCast_eq_intCast_iff _ _ 3329).mpr (by decide)

/-- The closed forms of `ntt` followed by `invntt` on a centered input:
no butterfly and no Barrett reduction wraps, and the result is `2^16` times
the input modulo `q`. -/
theorem roundtrip_closed (x : Nat → Int) (hx : ∀ i, i < 256 → -1664 ≤ x i ∧ x i ≤ 1664) :
    ntt_fits x ∧ invntt_fits (ntt_upto 7 x) ∧
    ∀ i, i < 256 →
      scale_layer 1441 (invntt_upto 7 (ntt_upto 7 x)) i ≡ 65536 * x i [ZMOD 3329] := by
  obtain ⟨hfit, hb⟩ := ntt_bounds x 1664 2020 hx (by decide) (by decide) (by decide)
  have hy : ∀ l : Nat, l ≤ 7 → ∀ i, i < 256 →
      -15812 ≤ ntt_upto l x i ∧ ntt_upto l x i ≤ 15812 := by
    intro l hl i hi
    have := hb l hl i hi
    have hl' : (l : Int) ≤ 7 := by exact_mod_cast hl
    omega
  have hy16 : ∀ l : Nat, l ≤ 7 → ∀ i, i < 256 → -32768 ≤ ntt_upto l x i ∧ ntt_upto l x i ≤ 32767 := by
    intro l hl i hi
    have := hy l hl i hi
    omega
  obtain ⟨m64, m32, m16, m8, m4, m2, m1⟩ := zetas_mirror
  have r0 : ∀ i, i < 256 → ((invntt_upto 0 (ntt_upto 7 x) i : Int) : ZMod 3329) =
      1 * ((ntt_upto 7 x i : Int) : ZMod 3329) := by
    intro i _
    simp only [invntt_upto, one_mul]
  obtain ⟨g0, z1, r1⟩ := rt_step 2 64 127 64 (by decide) (by decide) 1 (ntt_upto 6 x)
    (ntt_upto 7 x) (invntt_upto 0 (ntt_upto 7 x)) rfl (hy16 6 (by decide))
    (hfit 6 (by decide)) r0 (hy 7 (by decide)) m64
  obtain ⟨g1, z2, r2⟩ := rt_step 4 32 63 32 (by decide) (by decide) (2 * 1) (ntt_upto 5 x)
    (ntt_upto 6 x) (invntt_upto 1 (ntt_upto 7 x)) rfl (hy16 5 (by decide))
    (hfit 5 (by decide)) r1 z1 m32
  obtain ⟨g2, z3, r3⟩ := rt_step 8 16 31 16 (by decide) (by decide) (2 * (2 * 1))
    (ntt_upto 4 x) (ntt_upto 5 x) (invntt_upto 2 (ntt_upto 7 x)) rfl (hy16 4 (by decide))
    (hfit 4 (by decide)) r2 z2 m16
  obtain ⟨g3, z4, r4⟩ := rt_step 16 8 15 8 (by decide) (by decide) (2 * (2 * (2 * 1)))
    (ntt_upto 3 x) (ntt_upto 4 x) (invntt_upto 3 (ntt_upto 7 x)) rfl (hy16 3 (by decide))
    (hfit 3 (by decide)) r3 z3 m8
  obtain ⟨g4, z5, r5⟩ := rt_step 32 4 7 4 (by decide) (by decide) (2 * (2 * (2 * (2 * 1))))
    (ntt_upto 2 x) (ntt_upto 3 x) (invntt_upto 4 (ntt_upto 7 x)) rfl (hy16 2 (by decide))
    (hfit 2 (by decide)) r4 z4 m4
  obtain ⟨g5, z6, r6⟩ := rt_step 64 2 3 2 (by decide) (by decide)
    (2 * (2 * (2 * (2 * (2 * 1))))) (ntt_upto 1 x) (ntt_upto 2 x)
    (invntt_upto 5 (ntt_upto 7 x)) rfl (hy16 1 (by decide)) (hfit 1 (by decide)) r5 z5 m2
  obtain ⟨g6, z7, r7⟩ := rt_step 128 1 1 1 (by decide) (by decide)
    (2 * (2 * (2 * (2 * (2 * (2 * 1)))))) (ntt_upto 0 x) (ntt_upto 1 x)
    (invntt_upto 6 (ntt_upto 7 x)) rfl (hy16 0 (by decide)) (hfit 0 (by decide)) r6 z6 m1
  refine ⟨hfit, ?_, ?_⟩
  · intro l hl
    interval_cases l
    · exact g0
    · exact g1
    · exact g2
    · exact g3
    · exact g4
    · exact g5
    · exact g6
  · intro i hi
    have hz := z7 i hi
    have e7 : invntt_upto 7 (ntt_upto 7 x) =
        gs_layer 128 1 (invntt_upto 6 (ntt_upto 7 x)) := rfl
    rw [← e7] at hz
    have hr := r7 i hi
    rw [← e7] at hr
    refine (ZMod.intCast_eq_intCast_iff _ _ 3329).mp ?_
    simp only [scale_layer, if_pos hi]
    rw [fqmul_cast _ _ (by omega) (by omega) (by decide) (by decide), hr]
    have hc := scale_const
    push_cast at hc ⊢
    simp only [ntt_upto]
    linear_combination ((x i : Int) : ZMod 3329) * hc


/-! ## The forward transform as polynomial evaluation -/

theorem sum_even_odd {R : Type} [AddCommMonoid R] (f : Nat → R) (M : Nat) :
    ∑ m in Finset.range (2 * M), f m =
      ∑ m in Finset.range M, f (2 * m) + ∑ m in Finset.range M, f (2 * m + 1) := by
  induction M with
  | zero => simp
  | succ M ih =>
    have e : 2 * (M + 1) = 2 * M + 1 + 1 := by ring
    rw [e, Finset.sum_range_succ, Finset.sum_range_succ, ih, Finset.sum_range_succ,
      Finset.sum_range_succ]
    abel

theorem seg_split (len i : Nat)
    (hlen : len = 128 ∨ len = 64 ∨ len = 32 ∨ len = 16 ∨ len = 8 ∨ len = 4 ∨ len = 2)
    (hi : i < 256) :
    (i % (2 * len) < len →
      i % len = i % (2 * len) ∧ i / len = 2 * (i / (2 * len)) ∧
      (i + len) % (2 * len) = i % (2 * len) + len) ∧
    (¬ i % (2 * len) < len →
      i % len + len = i % (2 * len) ∧ i / len = 2 * (i / (2 * len)) + 1 ∧
      (i - len) % (2 * len) = i % len) := by
  rcases hlen with h | h | h | h | h | h | h <;> subst h <;> omega

/-- One forward layer refines the evaluation invariant: if every segment of
width `2*len` holds the input modulo `X^(2*len) - rho s`, then after the layer
every segment of width `len` holds it modulo `X^len - rho' s`. -/
theorem ct_layer_eval (len k M : Nat)
    (hlen : len = 128 ∨ len = 64 ∨ len = 32 ∨ len = 16 ∨ len = 8 ∨ len = 4 ∨ len = 2)
    (hM : M * (2 * len) = 256) (x y : Nat → Int) (rho rho' : Nat → ZMod 3329)
    (hy : ∀ i, i < 256 → -32768 ≤ y i ∧ y i ≤ 32767)
    (hfit : ct_fits len k y)
    (hinv : ∀ i, i < 256 → ((y i : Int) : ZMod 3329) =
      ∑ m in Finset.range M,
        ((x (i % (2 * len) + m * (2 * len)) : Int) : ZMod 3329) * rho (i / (2 * len)) ^ m)
    (hrho : ∀ s, s < M →
      rho' (2 * s) = 169 * ((zetas (k + s) : Int) : ZMod 3329) ∧
      rho' (2 * s + 1) = -(169 * ((zetas (k + s) : Int) : ZMod 3329)) ∧
      (169 * ((zetas (k + s) : Int) : ZMod 3329)) ^ 2 = rho s) :
    ∀ i, i < 256 → ((ct_layer len k y i : Int) : ZMod 3329) =
      ∑ m in Finset.range (2 * M),
        ((x (i % len + m * len) : Int) : ZMod 3329) * rho' (i / len) ^ m := by
  intro i hi
  have hq : i / (2 * len) < M := by
    rcases hlen with h | h | h | h | h | h | h <;> subst h <;> omega
  obtain ⟨he, ho, hsq⟩ := hrho (i / (2 * len)) hq
  have hzb := zetas_bound (k + i / (2 * len))
  rw [sum_even_odd]
  by_cases hlo : i % (2 * len) < len
  · obtain ⟨h1, h2, h3, h4⟩ := (seg_facts len i hlen hi).1 hlo
    obtain ⟨p1, p2, p3⟩ := (seg_split len i hlen hi).1 hlo
    have hb := hy (i + len) h1
    rw [(ct_layer_exact len k hlen y hfit i hi).1 hlo]
    push_cast
    rw [fqmul_cast _ _ (by omega) (by omega) hb.1 hb.2, hinv i hi, hinv (i + len) h1,
      h3, p3, p1, p2, he, ← hsq, Finset.mul_sum]
    congr 1
    · apply Finset.sum_congr rfl
      intro m _
      have e : i % (2 * len) + 2 * m * len = i % (2 * len) + m * (2 * len) := by ring
      rw [e, ← pow_mul]
    · apply Finset.sum_congr rfl
      intro m _
      have e : i % (2 * len) + (2 * m + 1) * len = i % (2 * len) + len + m * (2 * len) := by
        ring
      rw [e, ← pow_mul, pow_succ]
      ring
  · obtain ⟨h1, h2, h3, h4⟩ := (seg_facts len i hlen hi).2 hlo
    obtain ⟨p1, p2, p3⟩ := (seg_split len i hlen hi).2 hlo
    have hb := hy i hi
    rw [(ct_layer_exact len k hlen y hfit i hi).2 hlo]
    push_cast
    rw [fqmul_cast _ _ (by omega) (by omega) hb.1 hb.2, hinv i hi, hinv (i - len) (by omega),
      h3, p3, ← p1, p2, ho, ← hsq, Finset.mul_sum, ← Finset.sum_sub_distrib]
    rw [← Finset.sum_add_distrib]
    apply Finset.sum_congr rfl
    intro m _
    have e1 : i % len + 2 * m * len = i % len + m * (2 * len) := by ring
    have e2 : i % len + (2 * m + 1) * len = i % len + len + m * (2 * len) := by ring
    rw [e1, e2, ← pow_mul, pow_succ, pow_mul, pow_mul, neg_sq]
    ring


theorem rootAt_even (l s : Nat) : rootAt (l + 1) (2 * s) = 169 * zetas (2 ^ l + s) := by
  have h1 : (2 * s) % 2 = 0 := by omega
  have h2 : (2 * s) / 2 = s := by omega
  simp only [rootAt, h1, h2, if_pos]

theorem rootAt_odd (l s : Nat) : rootAt (l + 1) (2 * s + 1) = -(169 * zetas (2 ^ l + s)) := by
  have h1 : ¬ (2 * s + 1) % 2 = 0 := by omega
  have h2 : (2 * s + 1) / 2 = s := by omega
  simp only [rootAt, h2, if_neg h1]

set_option maxRecDepth 100000 in
/-- The twiddle read for a segment squares to the residue of that segment. -/
theorem zetas_square : ∀ l, l < 7 → ∀ s, s < 2 ^ l →
    (169 * zetas (2 ^ l + s)) ^ 2 ≡ rootAt l s [ZMOD 3329] := by
  decide!

set_option maxRecDepth 100000 in
/-- After the last layer segment `s` holds the input modulo
`X^2 - 17^(2*brv7 s + 1)`. -/
theorem rootAt_final : ∀ s, s < 128 → rootAt 7 s ≡ 17 ^ (2 * brv7 s + 1) [ZMOD 3329] := by
  decide!

theorem rootAt_step (l : Nat) (hl : l < 7) (s : Nat) (hs : s < 2 ^ l) :
    ((rootAt (l + 1) (2 * s) : Int) : ZMod 3329) =
        169 * ((zetas (2 ^ l + s) : Int) : ZMod 3329) ∧
    ((rootAt (l + 1) (2 * s + 1) : Int) : ZMod 3329) =
        -(169 * ((zetas (2 ^ l + s) : Int) : ZMod 3329)) ∧
    (169 * ((zetas (2 ^ l + s) : Int) : ZMod 3329)) ^ 2 = ((rootAt l s : Int) : ZMod 3329) := by
  have h := (ZMod.intCast_eq_intCast_iff _ _ 3329).mpr (zetas_square l hl s hs)
  push_cast at h
  rw [rootAt_even, rootAt_odd]
  push_cast
  exact ⟨rfl, rfl, h⟩

/-- One layer of the evaluation invariant, with the widths and counts of the
layer given as numbers. -/
theorem eval_step (l len k M n M2 : Nat)
    (hlen : len = 128 ∨ len = 64 ∨ len = 32 ∨ len = 16 ∨ len = 8 ∨ len = 4 ∨ len = 2)
    (hM : M * (2 * len) = 256) (hn : n = 2 * len) (hM2 : M2 = 2 * M) (hk : k = 2 ^ l)
    (hMl : M = 2 ^ l) (hl : l < 7) (x yprev ycur : Nat → Int)
    (hycur : ycur = ct_layer len k yprev)
    (hy : ∀ i, i < 256 → -32768 ≤ yprev i ∧ yprev i ≤ 32767)
    (hfit : ct_fits len k yprev)
    (hinv : ∀ i, i < 256 → ((yprev i : Int) : ZMod 3329) =
      ∑ m in Finset.range M,
        ((x (i % n + m * n) : Int) : ZMod 3329) * ((rootAt l (i / n) : Int) : ZMod 3329) ^ m) :
    ∀ i, i < 256 → ((ycur i : Int) : ZMod 3329) =
      ∑ m in Finset.range M2,
        ((x (i % len + m * len) : Int) : ZMod 3329) *
          ((rootAt (l + 1) (i / len) : Int) : ZMod 3329) ^ m := by
  subst hn hM2 hk hycur
  have hstep : ∀ s, s < M →
      ((rootAt (l + 1) (2 * s) : Int) : ZMod 3329) =
          169 * ((zetas (2 ^ l + s) : Int) : ZMod 3329) ∧
      ((rootAt (l + 1) (2 * s + 1) : Int) : ZMod 3329) =
          -(169 * ((zetas (2 ^ l + s) : Int) : ZMod 3329)) ∧
      (169 * ((zetas (2 ^ l + s) : Int) : ZMod 3329)) ^ 2 =
        ((rootAt l s : Int) : ZMod 3329) := by
    intro s hs
    rw [hMl] at hs
    exact rootAt_step l hl s hs
  exact ct_layer_eval len (2 ^ l) M hlen hM x yprev
    (fun s => ((rootAt l s : Int) : ZMod 3329))
    (fun s => ((rootAt (l + 1) s : Int) : ZMod 3329)) hy hfit hinv hstep

/-- The evaluation invariant after all seven layers: position `i` holds
coefficient `i % 2` of the input modulo `X^2 - rootAt 7 (i / 2)`. -/
theorem ntt_eval_closed (x : Nat → Int) (hx : ∀ i, i < 256 → -3329 < x i ∧ x i < 3329) :
    ∀ i, i < 256 → ((ntt_upto 7 x i : Int) : ZMod 3329) =
      ∑ m in Finset.range 128,
        ((x (i % 2 + m * 2) : Int) : ZMod 3329) * ((rootAt 7 (i / 2) : Int) : ZMod 3329) ^ m := by
  obtain ⟨hfit, hb⟩ := ntt_bounds x 3328 2496 (fun i hi => by have := hx i hi; omega)
    (by decide) (by decide) (by decide)
  have hy16 : ∀ l : Nat, l ≤ 7 → ∀ i, i < 256 →
      -32768 ≤ ntt_upto l x i ∧ ntt_upto l x i ≤ 32767 := by
    intro l hl i hi
    have := hb l hl i hi
    have hl' : (l : Int) ≤ 7 := by exact_mod_cast hl
    omega
  have v0 : ∀ i, i < 256 → ((ntt_upto 0 x i : Int) : ZMod 3329) =
      ∑ m in Finset.range 1, ((x (i % 256 + m * 256) : Int) : ZMod 3329) *
        ((rootAt 0 (i / 256) : Int) : ZMod 3329) ^ m := by
    intro i hi
    have e : i % 256 = i := by omega
    simp only [Finset.sum_range_one, pow_zero, mul_one, Nat.zero_mul, Nat.add_zero, e, ntt_upto]
  have v1 := eval_step 0 128 1 1 256 2 (by decide) rfl rfl rfl rfl rfl (by decide) x
    (ntt_upto 0 x) (ntt_upto 1 x) rfl (hy16 0 (by decide)) (hfit 0 (by decide)) v0
  have v2 := eval_step 1 64 2 2 128 4 (by decide) rfl rfl rfl rfl rfl (by decide) x
    (ntt_upto 1 x) (ntt_upto 2 x) rfl (hy16 1 (by decide)) (hfit 1 (by decide)) v1
  have v3 := eval_step 2 32 4 4 64 8 (by decide) rfl rfl rfl rfl rfl (by decide) x
    (ntt_upto 2 x) (ntt_upto 3 x) rfl (hy16 2 (by decide)) (hfit 2 (by decide)) v2
  have v4 := eval_step 3 16 8 8 32 16 (by decide) rfl rfl rfl rfl rfl (by decide) x
    (ntt_upto 3 x) (ntt_upto 4 x) rfl (hy16 3 (by decide)) (hfit 3 (by decide)) v3
  have v5 := eval_step 4 8 16 16 16 32 (by decide) rfl rfl rfl rfl rfl (by decide) x
    (ntt_upto 4 x) (ntt_upto 5 x) rfl (hy16 4 (by decide)) (hfit 4 (by decide)) v4
  have v6 := eval_step 5 4 32 32 8 64 (by decide) rfl rfl rfl rfl rfl (by decide) x
    (ntt_upto 5 x) (ntt_upto 6 x) rfl (hy16 5 (by decide)) (hfit 5 (by decide)) v5
  exact eval_step 6 2 64 64 4 128 (by decide) rfl rfl rfl rfl rfl (by decide) x
    (ntt_upto 6 x) (ntt_upto 7 x) rfl (hy16 6 (by decide)) (hfit 6 (by decide)) v6

/-! ## Claims on the transforms -/

/-- C1. Round trip. For every buffer `x` whose elements at the indices
`0..255` lie in `[-1664, 1664]`, `ntt` and then `invntt` terminate, no
butterfly sum or difference of either transform leaves the `int16_t` range
and no Barrett reduction wraps inside (both ghost flags stay `true`), and
for every index `i` in `0..255` the result is congruent to `2^16 * x[i]`
modulo `q = 3329`. -/
theorem ntt_invntt_roundtrip (x : Nat → Int)
    (hx : ∀ i, i < 256 → -1664 ≤ x i ∧ x i ≤ 1664) :
    ∃ s t : Vars, ntt x = some s ∧ invntt s.r = some t ∧ s.ok = true ∧ t.ok = true ∧
      ∀ i, i < 256 → t.r i ≡ 2 ^ 16 * x i [ZMOD KYBER_Q] := by
  obtain ⟨hf, hg, hr⟩ := roundtrip_closed x hx
  obtain ⟨s, hs, hsr, -, -, hsok⟩ := ntt_run x
  obtain ⟨t, ht, htr, -, -, htok⟩ := invntt_run s.r
  rw [hsr] at htr htok
  refine ⟨s, t, hs, ht, hsok hf, htok hg, ?_⟩
  intro i hi
  rw [htr]
  exact hr i hi

/-- Witness for C1 on the buffer of the constant polynomial `1`. -/
theorem ntt_invntt_roundtrip_witness :
    ∃ s t : Vars, ntt one_poly = some s ∧ invntt s.r = some t ∧ s.ok = true ∧ t.ok = true ∧
      ∀ i, i < 256 → t.r i ≡ 2 ^ 16 * one_poly i [ZMOD KYBER_Q] :=
  ntt_invntt_roundtrip one_poly (fun i _ => by
    unfold one_poly
    by_cases h : i = 0
    · rw [if_pos h]; decide
    · rw [if_neg h]; decide)

/-- C7. For every buffer `x` with `|x[j]| < q` at the indices `0..255`, `ntt`
terminates and, for every `i` in `0..127` and `b` in `{0, 1}`,
`ntt(x)[2i + b] ≡ Σ_{j<128} x[2j + b] * 17^((2*brv7 i + 1) * j) (mod 3329)`:
the even and odd halves of `x` evaluated at the odd powers of the primitive
256-th root of unity `17`, in bit-reversed order. -/
theorem ntt_is_evaluation (x : Nat → Int)
    (hx : ∀ i, i < 256 → -KYBER_Q < x i ∧ x i < KYBER_Q) :
    ∃ s : Vars, ntt x = some s ∧
      ∀ i, i < 128 → ∀ b, b < 2 →
        s.r (2 * i + b) ≡
          ∑ j in Finset.range 128, x (2 * j + b) * 17 ^ ((2 * brv7 i + 1) * j) [ZMOD KYBER_Q] := by
  obtain ⟨s, hs, hsr, -, -, -⟩ := ntt_run x
  refine ⟨s, hs, ?_⟩
  intro i hi b hb
  have hv := ntt_eval_closed x hx (2 * i + b) (by omega)
  have e1 : (2 * i + b) % 2 = b := by omega
  have e2 : (2 * i + b) / 2 = i := by omega
  have hroot := (ZMod.intCast_eq_intCast_iff _ _ 3329).mpr (rootAt_final i hi)
  rw [e1, e2, hroot] at hv
  refine (ZMod.intCast_eq_intCast_iff _ _ 3329).mp ?_
  rw [hsr, hv]
  push_cast
  apply Finset.sum_congr rfl
  intro m _
  have e3 : b + m * 2 = 2 * m + b := by ring
  rw [e3, pow_mul]

/-- Witness for C7 on the buffer of the constant polynomial `1`. -/
theorem ntt_is_evaluation_witness :
    ∃ s : Vars, ntt one_poly = some s ∧
      ∀ i, i < 128 → ∀ b, b < 2 →
        s.r (2 * i + b) ≡
          ∑ j in Finset.range 128, one_poly (2 * j + b) * 17 ^ ((2 * brv7 i + 1) * j)
            [ZMOD KYBER_Q] :=
  ntt_is_evaluation one_poly (fun i _ => by
    unfold one_poly
    by_cases h : i = 0
    · rw [if_pos h]; decide
    · rw [if_neg h]; decide)


/-! ## The 64-bit reduction and exactness of the shift -/

theorem wrap32_spec (x : Int) :
    ∃ m : Int, wrap32 x = x - 4294967296 * m ∧ -2147483648 ≤ wrap32 x ∧
      wrap32 x ≤ 2147483647 :=
  ⟨(x + 2147483648) / 4294967296, by unfold wrap32; omega, by unfold wrap32; omega,
    by unfold wrap32; omega⟩

theorem wrap64_of_fits (x : Int) (h1 : -9223372036854775808 ≤ x)
    (h2 : x ≤ 9223372036854775807) : wrap64 x = x := by
  unfold wrap64; omega

/-- The 64-bit variant on an argument of absolute value at most `2^30`: the
result times `2^16` is exactly `a - t*q` for the 32-bit `t` of the first
step, and neither the 64-bit subtraction nor the final narrowing to
`int32_t` changes a value. -/
theorem montgomery_reduce_64_exact (a : Int) (h1 : -1073741824 ≤ a) (h2 : a ≤ 1073741824) :
    ∃ t : Int, -2147483648 ≤ t ∧ t ≤ 2147483647 ∧ t = wrap32 (wrap32 a * QINV) ∧
      (a - t * KYBER_Q) >>> (16 : Nat) = montgomery_reduce_64 a ∧
      montgomery_reduce_64 a * 65536 = a - 3329 * t := by
  have ha : wrap64 a = a := wrap64_of_fits a (by omega) (by omega)
  have ha32 : wrap32 a = a := wrap32_of_fits a (by omega) (by omega)
  obtain ⟨f, hf, hf1, hf2⟩ := wrap32_spec (wrap32 a * QINV)
  refine ⟨wrap32 (wrap32 a * QINV), hf1, hf2, rfl, ?_⟩
  simp only [montgomery_reduce_64, ha]
  generalize wrap32 (wrap32 a * QINV) = t at hf hf1 hf2 ⊢
  rw [ha32] at hf
  simp only [QINV] at hf
  simp only [KYBER_Q]
  have hd : a - t * 3329 = 65536 * (169 * a + 218169344 * f) := by omega
  have h64 : wrap64 (a - t * 3329) = a - t * 3329 :=
    wrap64_of_fits _ (by omega) (by omega)
  have hs : (a - t * 3329) >>> (16 : Nat) = 169 * a + 218169344 * f := by
    rw [Int.shiftRight_eq_div_pow, hd]; norm_num
  rw [h64, hs]
  have hw : wrap32 (169 * a + 218169344 * f) = 169 * a + 218169344 * f :=
    wrap32_of_fits _ (by omega) (by omega)
  rw [hw]
  refine ⟨rfl, ?_⟩
  omega

/-- C12. For every `a` with `|a| < q*2^15`, in both variants the difference
`a - t*q` (with `t` the low bits of `a*QINV`: an `int16_t` in
`montgomery_reduce`, an `int32_t` in `montgomery_reduce_64`) is divisible by
`R = 2^16`, the arithmetic right shift by 16 is the exact quotient (shifting
back gives `a - t*q` again), and that quotient is the value returned. -/
theorem montgomery_shift_exact (a : Int)
    (h1 : -(KYBER_Q * 2 ^ 15) < a) (h2 : a < KYBER_Q * 2 ^ 15) :
    (∃ t : Int, t = wrap16 (wrap16 a * QINV) ∧
      (2 : Int) ^ 16 ∣ a - t * KYBER_Q ∧
      ((a - t * KYBER_Q) >>> (16 : Nat)) * 2 ^ 16 = a - t * KYBER_Q ∧
      montgomery_reduce a = (a - t * KYBER_Q) >>> (16 : Nat)) ∧
    (∃ t : Int, t = wrap32 (wrap32 a * QINV) ∧
      (2 : Int) ^ 16 ∣ a - t * KYBER_Q ∧
      ((a - t * KYBER_Q) >>> (16 : Nat)) * 2 ^ 16 = a - t * KYBER_Q ∧
      montgomery_reduce_64 a = (a - t * KYBER_Q) >>> (16 : Nat)) := by
  have e16 : (2 : Int) ^ 16 = 65536 := by norm_num
  simp only [KYBER_Q] at h1 h2
  norm_num at h1 h2
  obtain ⟨t, -, -, ht, -, hs, h⟩ := montgomery_reduce_exact a (by omega) (by omega)
  obtain ⟨u, -, -, hu, hs64, h64⟩ := montgomery_reduce_64_exact a (by omega) (by omega)
  simp only [KYBER_Q, e16] at hs hs64 ⊢
  refine ⟨⟨t, ht, ⟨montgomery_reduce a, by omega⟩, ?_, hs.symm⟩,
    ⟨u, hu, ⟨montgomery_reduce_64 a, by omega⟩, ?_, hs64.symm⟩⟩
  · rw [hs]; omega
  · rw [hs64]; omega

/-- Witness for C12 at `a = 20`, where the two variants differ. -/
theorem montgomery_shift_exact_witness :
    (∃ t : Int, t = wrap16 (wrap16 20 * QINV) ∧
      (2 : Int) ^ 16 ∣ 20 - t * KYBER_Q ∧
      ((20 - t * KYBER_Q) >>> (16 : Nat)) * 2 ^ 16 = 20 - t * KYBER_Q ∧
      montgomery_reduce 20 = (20 - t * KYBER_Q) >>> (16 : Nat)) ∧
    (∃ t : Int, t = wrap32 (wrap32 20 * QINV) ∧
      (2 : Int) ^ 16 ∣ 20 - t * KYBER_Q ∧
      ((20 - t * KYBER_Q) >>> (16 : Nat)) * 2 ^ 16 = 20 - t * KYBER_Q ∧
      montgomery_reduce_64 20 = (20 - t * KYBER_Q) >>> (16 : Nat)) :=
  montgomery_shift_exact 20 (by decide) (by decide)

/-- C13, the code at the failing input. The argument `20` lies in the
documented domain; `montgomery_reduce_64` returns `3380 = 169 * 20`, which is
outside `{-q+1, ..., q-1}`, while `montgomery_reduce` returns `51`.  The
value is still congruent to `20 * 2^-16` modulo `q`. -/
theorem montgomery_reduce_64_not_reduced :
    (-KYBER_Q * 2 ^ 15 ≤ 20 ∧ (20 : Int) ≤ KYBER_Q * 2 ^ 15 - 1) ∧
    montgomery_reduce_64 20 = 3380 ∧
    ¬ (-KYBER_Q < montgomery_reduce_64 20 ∧ montgomery_reduce_64 20 < KYBER_Q) ∧
    montgomery_reduce 20 = 51 ∧
    montgomery_reduce_64 20 * 2 ^ 16 ≡ 20 [ZMOD KYBER_Q] := by
  decide

/-! ## `basemul` in Montgomery form -/

theorem fqmul_scaled (a b : Int) (ha1 : -32768 ≤ a) (ha2 : a ≤ 32767)
    (hb1 : -32768 ≤ b) (hb2 : b ≤ 32767) :
    65536 * fqmul a b ≡ a * b [ZMOD 3329] := by
  obtain ⟨t, -, -, h⟩ := fqmul_exact a b ha1 ha2 hb1 hb2
  generalize a * b = p at h
  unfold Int.ModEq
  omega

/-- C14. For all `a0, a1, b0, b1, zeta` of absolute value below `q`, the
outputs of `basemul` satisfy `2^32 * r0 ≡ a1*b1*zeta + 2^16 * a0*b0` and
`2^16 * r1 ≡ a0*b1 + a1*b0` modulo `q`; hence, whenever
`zeta ≡ 2^16 * z (mod q)` for a plain twiddle `z`,
`2^16 * r0 ≡ a0*b0 + a1*b1*z`, i.e. `r0 + r1 X` is `2^-16` times the product
modulo `X^2 - z`. -/
theorem basemul_montgomery_scaled (a0 a1 b0 b1 zeta : Int)
    (ha0 : -KYBER_Q < a0 ∧ a0 < KYBER_Q) (ha1 : -KYBER_Q < a1 ∧ a1 < KYBER_Q)
    (hb0 : -KYBER_Q < b0 ∧ b0 < KYBER_Q) (hb1 : -KYBER_Q < b1 ∧ b1 < KYBER_Q)
    (hz : -KYBER_Q < zeta ∧ zeta < KYBER_Q) :
    2 ^ 32 * (basemul (a0, a1) (b0, b1) zeta).1 ≡
        a1 * b1 * zeta + 2 ^ 16 * (a0 * b0) [ZMOD KYBER_Q] ∧
    2 ^ 16 * (basemul (a0, a1) (b0, b1) zeta).2 ≡ a0 * b1 + a1 * b0 [ZMOD KYBER_Q] ∧
    ∀ z : Int, zeta ≡ 2 ^ 16 * z [ZMOD KYBER_Q] →
      2 ^ 16 * (basemul (a0, a1) (b0, b1) zeta).1 ≡ a0 * b0 + a1 * b1 * z [ZMOD KYBER_Q] := by
  simp only [KYBER_Q] at *
  have h11 := fqmul_lt_q a1 b1 ha1.1 ha1.2 hb1.1 hb1.2
  have h11z := fqmul_lt_q (fqmul a1 b1) zeta h11.1 h11.2 hz.1 hz.2
  have h00 := fqmul_lt_q a0 b0 ha0.1 ha0.2 hb0.1 hb0.2
  have h01 := fqmul_lt_q a0 b1 ha0.1 ha0.2 hb1.1 hb1.2
  have h10 := fqmul_lt_q a1 b0 ha1.1 ha1.2 hb0.1 hb0.2
  have m11 := (ZMod.intCast_eq_intCast_iff _ _ 3329).mpr
    (fqmul_scaled a1 b1 (by omega) (by omega) (by omega) (by omega))
  have m11z := (ZMod.intCast_eq_intCast_iff _ _ 3329).mpr
    (fqmul_scaled (fqmul a1 b1) zeta (by omega) (by omega) (by omega) (by omega))
  have m00 := (ZMod.intCast_eq_intCast_iff _ _ 3329).mpr
    (fqmul_scaled a0 b0 (by omega) (by omega) (by omega) (by omega))
  have m01 := (ZMod.intCast_eq_intCast_iff _ _ 3329).mpr
    (fqmul_scaled a0 b1 (by omega) (by omega) (by omega) (by omega))
  have m10 := (ZMod.intCast_eq_intCast_iff _ _ 3329).mpr
    (fqmul_scaled a1 b0 (by omega) (by omega) (by omega) (by omega))
  push_cast at m11 m11z m00 m01 m10
  simp only [basemul]
  rw [wrap16_of_fits _ (by omega) (by omega), wrap16_of_fits _ (by omega) (by omega)]
  refine ⟨?_, ?_, ?_⟩
  · refine (ZMod.intCast_eq_intCast_iff _ _ 3329).mp ?_
    push_cast
    linear_combination 65536 * m11z + (zeta : ZMod 3329) * m11 + 65536 * m00
  · refine (ZMod.intCast_eq_intCast_iff _ _ 3329).mp ?_
    push_cast
    linear_combination m01 + m10
  · intro z hzz
    have hz' := (ZMod.intCast_eq_intCast_iff _ _ 3329).mpr hzz
    push_cast at hz'
    refine (ZMod.intCast_eq_intCast_iff _ _ 3329).mp ?_
    push_cast
    linear_combination m11z + m00 + ((fqmul a1 b1 : Int) : ZMod 3329) * hz' +
      (z : ZMod 3329) * m11


/-- Witness for C14 at `a = 2 + 3X`, `b = 5 + 7X` and the twiddle
`zeta = zetas[1] = -758`. -/
theorem basemul_montgomery_scaled_witness :
    2 ^ 32 * (basemul (2, 3) (5, 7) (-758)).1 ≡
        3 * 7 * (-758) + 2 ^ 16 * (2 * 5) [ZMOD KYBER_Q] ∧
    2 ^ 16 * (basemul (2, 3) (5, 7) (-758)).2 ≡ 2 * 7 + 3 * 5 [ZMOD KYBER_Q] ∧
    ∀ z : Int, -758 ≡ 2 ^ 16 * z [ZMOD KYBER_Q] →
      2 ^ 16 * (basemul (2, 3) (5, 7) (-758)).1 ≡ 2 * 5 + 3 * 7 * z [ZMOD KYBER_Q] :=
  basemul_montgomery_scaled 2 3 5 7 (-758) (by decide) (by decide) (by decide) (by decide)
    (by decide)

/-- C15. For all `a0, a1, b0, b1, zeta` of absolute value below `q`, each of
the five `fqmul` terms inside `basemul` lies strictly between `-q` and `q`,
both outputs are the exact integer sums of their two terms (the `int16_t`
additions `r[0] += ...` and `r[1] += ...` do not wrap), and `|r0| < 2q`,
`|r1| < 2q`. -/
theorem basemul_additions_exact (a0 a1 b0 b1 zeta : Int)
    (ha0 : -KYBER_Q < a0 ∧ a0 < KYBER_Q) (ha1 : -KYBER_Q < a1 ∧ a1 < KYBER_Q)
    (hb0 : -KYBER_Q < b0 ∧ b0 < KYBER_Q) (hb1 : -KYBER_Q < b1 ∧ b1 < KYBER_Q)
    (hz : -KYBER_Q < zeta ∧ zeta < KYBER_Q) :
    (-KYBER_Q < fqmul a1 b1 ∧ fqmul a1 b1 < KYBER_Q) ∧
    (-KYBER_Q < fqmul (fqmul a1 b1) zeta ∧ fqmul (fqmul a1 b1) zeta < KYBER_Q) ∧
    (-KYBER_Q < fqmul a0 b0 ∧ fqmul a0 b0 < KYBER_Q) ∧
    (-KYBER_Q < fqmul a0 b1 ∧ fqmul a0 b1 < KYBER_Q) ∧
    (-KYBER_Q < fqmul a1 b0 ∧ fqmul a1 b0 < KYBER_Q) ∧
    (basemul (a0, a1) (b0, b1) zeta).1 = fqmul (fqmul a1 b1) zeta + fqmul a0 b0 ∧
    (basemul (a0, a1) (b0, b1) zeta).2 = fqmul a0 b1 + fqmul a1 b0 ∧
    fits16 (fqmul (fqmul a1 b1) zeta + fqmul a0 b0) = true ∧
    fits16 (fqmul a0 b1 + fqmul a1 b0) = true ∧
    (-(2 * KYBER_Q) < (basemul (a0, a1) (b0, b1) zeta).1 ∧
      (basemul (a0, a1) (b0, b1) zeta).1 < 2 * KYBER_Q) ∧
    (-(2 * KYBER_Q) < (basemul (a0, a1) (b0, b1) zeta).2 ∧
      (basemul (a0, a1) (b0, b1) zeta).2 < 2 * KYBER_Q) := by
  simp only [KYBER_Q] at *
  have h11 := fqmul_lt_q a1 b1 ha1.1 ha1.2 hb1.1 hb1.2
  have h11z := fqmul_lt_q (fqmul a1 b1) zeta h11.1 h11.2 hz.1 hz.2
  have h00 := fqmul_lt_q a0 b0 ha0.1 ha0.2 hb0.1 hb0.2
  have h01 := fqmul_lt_q a0 b1 ha0.1 ha0.2 hb1.1 hb1.2
  have h10 := fqmul_lt_q a1 b0 ha1.1 ha1.2 hb0.1 hb0.2
  have e0 : (basemul (a0, a1) (b0, b1) zeta).1 = fqmul (fqmul a1 b1) zeta + fqmul a0 b0 := by
    simp only [basemul]
    exact wrap16_of_fits _ (by omega) (by omega)
  have e1 : (basemul (a0, a1) (b0, b1) zeta).2 = fqmul a0 b1 + fqmul a1 b0 := by
    simp only [basemul]
    exact wrap16_of_fits _ (by omega) (by omega)
  rw [e0, e1, fits16_iff, fits16_iff]
  exact ⟨h11, h11z, h00, h01, h10, rfl, rfl, ⟨by omega, by omega⟩, ⟨by omega, by omega⟩,
    ⟨by omega, by omega⟩, ⟨by omega, by omega⟩⟩

/-- Witness for C15 at the largest field elements, `a0 = a1 = b0 = b1 = zeta = 3328`. -/
theorem basemul_additions_exact_witness :
    (-KYBER_Q < fqmul 3328 3328 ∧ fqmul 3328 3328 < KYBER_Q) ∧
    (-KYBER_Q < fqmul (fqmul 3328 3328) 3328 ∧ fqmul (fqmul 3328 3328) 3328 < KYBER_Q) ∧
    (-KYBER_Q < fqmul 3328 3328 ∧ fqmul 3328 3328 < KYBER_Q) ∧
    (-KYBER_Q < fqmul 3328 3328 ∧ fqmul 3328 3328 < KYBER_Q) ∧
    (-KYBER_Q < fqmul 3328 3328 ∧ fqmul 3328 3328 < KYBER_Q) ∧
    (basemul (3328, 3328) (3328, 3328) 3328).1 =
      fqmul (fqmul 3328 3328) 3328 + fqmul 3328 3328 ∧
    (basemul (3328, 3328) (3328, 3328) 3328).2 = fqmul 3328 3328 + fqmul 3328 3328 ∧
    fits16 (fqmul (fqmul 3328 3328) 3328 + fqmul 3328 3328) = true ∧
    fits16 (fqmul 3328 3328 + fqmul 3328 3328) = true ∧
    (-(2 * KYBER_Q) < (basemul (3328, 3328) (3328, 3328) 3328).1 ∧
      (basemul (3328, 3328) (3328, 3328) 3328).1 < 2 * KYBER_Q) ∧
    (-(2 * KYBER_Q) < (basemul (3328, 3328) (3328, 3328) 3328).2 ∧
      (basemul (3328, 3328) (3328, 3328) 3328).2 < 2 * KYBER_Q) :=
  basemul_additions_exact 3328 3328 3328 3328 3328 (by decide) (by decide) (by decide)
    (by decide) (by decide)

/-! ## The correction constants of `ntt.h` -/

/-- C19. In both parameterizations of `ntt.h` the constant `F` is `R^2 / n`
modulo `q` with `R = 2^SHIFT`: for `KYBER_DILITHIUM == 0`,
`128 * 1441 ≡ 2^32 (mod 3329)`; for `KYBER_DILITHIUM == 1`,
`256 * 41978 ≡ 2^64 (mod 8380417)`; and `invntt` scales by the constant
`f = 1441`, which is the `F` of the 16-bit field. -/
theorem correction_constants :
    ∃ pk pd : Params, params 0 = some pk ∧ params 1 = some pd ∧
      (pk.Q = 3329 ∧ pk.F = 1441 ∧ pk.SHIFT = 16) ∧
      128 * pk.F ≡ 2 ^ (2 * pk.SHIFT) [ZMOD pk.Q] ∧
      (pd.Q = 8380417 ∧ pd.F = 41978 ∧ pd.SHIFT = 32) ∧
      256 * pd.F ≡ 2 ^ (2 * pd.SHIFT) [ZMOD pd.Q] ∧
      pk.Q = KYBER_Q ∧
      ∀ y : Nat → Int, invntt y =
        match invntt_len 512 2 { r := y, k := 127, reads := [], ok := true } with
        | none => none
        | some s => invntt_scale pk.F 512 0 s := by
  refine ⟨_, _, rfl, rfl, ⟨rfl, rfl, rfl⟩, by decide, ⟨rfl, rfl, rfl⟩, by decide, rfl, ?_⟩
  intro y
  rfl

/-! ## The all-zero buffer -/

theorem fqmul_zero_left (b : Int) : fqmul 0 b = 0 := by
  have h0 : wrap16 0 = 0 := by decide
  have hm : montgomery_reduce 0 = 0 := by decide
  unfold fqmul
  rw [h0, zero_mul, hm]

theorem ct_layer_zero (len k : Nat) : ct_layer len k zero_poly = zero_poly := by
  funext i
  have w0 : wrap16 (0 + 0) = 0 := by decide
  have w1 : wrap16 (0 - 0) = 0 := by decide
  simp only [ct_layer, zero_poly, fqmul_zero_right, w0, w1, ite_self]

theorem gs_layer_zero (len k : Nat) : gs_layer len k zero_poly = zero_poly := by
  funext i
  have w0 : barrett_reduce (0 + 0) = 0 := by decide
  have w1 : wrap16 (0 - 0) = 0 := by decide
  simp only [gs_layer, zero_poly, fqmul_zero_right, w0, w1, ite_self]

theorem scale_layer_zero (f : Int) : scale_layer f zero_poly = zero_poly := by
  funext i
  simp only [scale_layer, zero_poly, fqmul_zero_left, ite_self]

/-- C11. On the all-zero buffer `ntt` and then `invntt` terminate and every
element of the result (and of the intermediate transform) is exactly `0`. -/
theorem ntt_invntt_zero :
    ∃ s t : Vars, ntt zero_poly = some s ∧ invntt s.r = some t ∧
      (∀ i, i < 256 → s.r i = 0) ∧ ∀ i, i < 256 → t.r i = 0 := by
  obtain ⟨s, hs, hsr, -, -, -⟩ := ntt_run zero_poly
  obtain ⟨t, ht, htr, -, -, -⟩ := invntt_run s.r
  have e1 : ntt_upto 7 zero_poly = zero_poly := by
    simp only [ntt_upto, ct_layer_zero]
  have e2 : invntt_upto 7 zero_poly = zero_poly := by
    simp only [invntt_upto, gs_layer_zero]
  rw [e1] at hsr
  rw [hsr, e2, scale_layer_zero] at htr
  refine ⟨s, t, hs, ht, ?_, ?_⟩
  · intro i _
    rw [hsr]
    rfl
  · intro i _
    rw [htr]
    rfl


/-! ## Intermediate states of `ntt` and bounded growth -/

theorem layer_len_facts (l : Nat) (hl : l < 7) :
    0 < 128 >>> l ∧ 128 >>> l < 512 ∧ 2 ^ l < 512 ∧ 0 + 2 ^ l * (2 * (128 >>> l)) = 256 ∧
    2 ≤ 128 >>> l ∧ (128 >>> l) >>> 1 = 128 >>> (l + 1) := by
  interval_cases l <;> decide

/-- After `l` passes of the `len` loop the variables of `ntt` hold the closed
form `ntt_upto l` and the twiddle counter `2^l`; the ghost flag is set when
the butterflies of the first `l` layers fit. -/
theorem ntt_after_spec (x : Nat → Int) :
    ∀ l, l ≤ 7 → ∃ s : Vars, ntt_after l x = some s ∧ s.r = ntt_upto l x ∧ s.k = 2 ^ l ∧
      ((∀ j, j < l → ct_fits (128 >>> j) (2 ^ j) (ntt_upto j x)) → s.ok = true) := by
  intro l
  induction l with
  | zero =>
    intro _
    exact ⟨_, rfl, rfl, rfl, fun _ => rfl⟩
  | succ l ih =>
    intro hl
    obtain ⟨s, hs, hr, hk, hok⟩ := ih (by omega)
    obtain ⟨f1, f2, f3, f4, -, -⟩ := layer_len_facts l (by omega)
    obtain ⟨s', hs', hk', -, hr', hok'⟩ := ntt_layer_run (128 >>> l) (2 ^ l) f1 f2 f3 f4 s
    refine ⟨s', ?_, ?_, ?_, ?_⟩
    · simp only [ntt_after, hs]
      exact hs'
    · rw [hr', hr, hk]
      rfl
    · rw [hk', hk, pow_succ]
      omega
    · intro hfit
      refine hok' (hok (fun j hj => hfit j (by omega))) ?_
      rw [hr, hk]
      exact hfit l (by omega)

/-- The run of `ntt` passes through the states `ntt_after l`. -/
theorem ntt_via_after (x : Nat → Int) :
    ∀ l, l ≤ 7 → ∀ s : Vars, ntt_after l x = some s →
      ntt x = ntt_len (512 - l) (128 >>> l) s := by
  intro l
  induction l with
  | zero =>
    intro _ s hs
    simp only [ntt_after, Option.some.injEq] at hs
    subst hs
    rfl
  | succ l ih =>
    intro hl s' hs'
    obtain ⟨s, hs, -, -, -⟩ := ntt_after_spec x l (by omega)
    obtain ⟨-, -, -, -, f5, f6⟩ := layer_len_facts l (by omega)
    simp only [ntt_after, hs] at hs'
    rw [ih (by omega) s hs]
    have e : 512 - l = (512 - (l + 1)) + 1 := by omega
    rw [e, ntt_len_step (512 - (l + 1)) (128 >>> l) s s' f5 hs', f6]

theorem ntt_eq_after (x : Nat → Int) : ntt x = ntt_after 7 x := by
  obtain ⟨s, hs, -, -, -⟩ := ntt_after_spec x 7 (le_refl _)
  rw [ntt_via_after x 7 (le_refl _) s hs, hs]
  simp [ntt_len]

/-- C16. For every buffer `x` with `|x[i]| < q` at the indices `0..255`:
after the layer with index `l` (`l = 1..7`) the loop of `ntt` has finished
that layer without any butterfly sum or difference leaving the `int16_t`
range, and every buffer element has absolute value below `(l + 1) * q`;
`ntt` returns the state after layer 7, whose elements have absolute value
below `8q = 26632 < 2^15`. -/
theorem ntt_bounded_growth (x : Nat → Int)
    (hx : ∀ i, i < 256 → -KYBER_Q < x i ∧ x i < KYBER_Q) :
    (∀ l : Nat, 1 ≤ l → l ≤ 7 → ∃ s : Vars, ntt_after l x = some s ∧ s.ok = true ∧
      ∀ i, i < 256 → -(((l : Int) + 1) * KYBER_Q) < s.r i ∧ s.r i < ((l : Int) + 1) * KYBER_Q) ∧
    (∃ s : Vars, ntt x = some s ∧ ntt_after 7 x = some s ∧ s.ok = true ∧
      ∀ i, i < 256 → -(8 * KYBER_Q) < s.r i ∧ s.r i < 8 * KYBER_Q) ∧
    8 * KYBER_Q = 26632 ∧ (26632 : Int) < 2 ^ 15 := by
  simp only [KYBER_Q] at hx ⊢
  obtain ⟨hfit, hb⟩ := ntt_bounds x 3328 3328 (fun i hi => by have := hx i hi; omega)
    (by decide) (by decide) (by decide)
  have key : ∀ l : Nat, l ≤ 7 → ∃ s : Vars, ntt_after l x = some s ∧ s.ok = true ∧
      ∀ i, i < 256 → -(((l : Int) + 1) * 3329) < s.r i ∧ s.r i < ((l : Int) + 1) * 3329 := by
    intro l hl
    obtain ⟨s, hs, hr, -, hok⟩ := ntt_after_spec x l hl
    refine ⟨s, hs, hok (fun j hj => hfit j (by omega)), ?_⟩
    intro i hi
    have := hb l hl i hi
    rw [hr]
    have hl0 : (0 : Int) ≤ (l : Int) := Int.ofNat_nonneg l
    constructor <;> linarith [this.1, this.2]
  refine ⟨fun l _ hl => key l hl, ?_, by decide, by decide⟩
  obtain ⟨s, hs, hok, hbd⟩ := key 7 (le_refl _)
  refine ⟨s, by rw [ntt_eq_after, hs], hs, hok, ?_⟩
  intro i hi
  have := hbd i hi
  norm_num at this ⊢
  exact this

/-- Witness for C16 on the buffer of the constant polynomial `1`. -/
theorem ntt_bounded_growth_witness :
    (∀ l : Nat, 1 ≤ l → l ≤ 7 → ∃ s : Vars, ntt_after l one_poly = some s ∧ s.ok = true ∧
      ∀ i, i < 256 → -(((l : Int) + 1) * KYBER_Q) < s.r i ∧ s.r i < ((l : Int) + 1) * KYBER_Q) ∧
    (∃ s : Vars, ntt one_poly = some s ∧ ntt_after 7 one_poly = some s ∧ s.ok = true ∧
      ∀ i, i < 256 → -(8 * KYBER_Q) < s.r i ∧ s.r i < 8 * KYBER_Q) ∧
    8 * KYBER_Q = 26632 ∧ (26632 : Int) < 2 ^ 15 :=
  ntt_bounded_growth one_poly (fun i _ => by
    unfold one_poly
    by_cases h : i = 0
    · rw [if_pos h]; decide
    · rw [if_neg h]; decide)


/-! ## The loops of `ntt_dit` compute the layer closed form -/

theorem ntt_dit_body_r (zeta : Int) (len j : Nat) (s : Vars) (hlen : 0 < len) (i : Nat) :
    (ntt_dit_body zeta len j s).r i =
      if i = j then wrap32 (s.r j + montgomery_reduce (wrap32 (zeta * s.r (j + len))))
      else if i = j + len then wrap32 (s.r j - montgomery_reduce (wrap32 (zeta * s.r (j + len))))
      else s.r i := by
  have hne : j ≠ j + len := by omega
  simp only [ntt_dit_body, upd_apply, if_neg hne]

theorem ntt_dit_body_k (zeta : Int) (len j : Nat) (s : Vars) :
    (ntt_dit_body zeta len j s).k = s.k := rfl

theorem ntt_dit_body_reads (zeta : Int) (len j : Nat) (s : Vars) :
    (ntt_dit_body zeta len j s).reads = s.reads := rfl

theorem ntt_dit_j_spec (zeta : Int) (len : Nat) (hlen : 0 < len) :
    ∀ (n fuel j : Nat) (s : Vars), n < fuel → n ≤ len →
      ∃ s' : Vars, ntt_dit_j zeta len (j + n) fuel j s = some (j + n, s') ∧
        s'.k = s.k ∧ s'.reads = s.reads ∧
        (∀ i, s'.r i =
          if j ≤ i ∧ i < j + n then wrap32 (s.r i +
            montgomery_reduce (wrap32 (zeta * s.r (i + len))))
          else if j + len ≤ i ∧ i < j + n + len then
            wrap32 (s.r (i - len) - montgomery_reduce (wrap32 (zeta * s.r i)))
          else s.r i) ∧
        s'.ok = s.ok := by
  intro n
  induction n with
  | zero =>
    intro fuel j s hf _
    obtain ⟨f, rfl⟩ : ∃ f, fuel = f + 1 := ⟨fuel - 1, by omega⟩
    refine ⟨s, ?_, rfl, rfl, ?_, rfl⟩
    · simp [ntt_dit_j]
    · intro i
      have h1 : ¬ (j ≤ i ∧ i < j + 0) := by omega
      have h2 : ¬ (j + len ≤ i ∧ i < j + 0 + len) := by omega
      rw [if_neg h1, if_neg h2]
  | succ n ih =>
    intro fuel j s hf hn
    obtain ⟨f, rfl⟩ : ∃ f, fuel = f + 1 := ⟨fuel - 1, by omega⟩
    obtain ⟨s', hrun, hk, hreads, hr, hok⟩ :=
      ih f (j + 1) (ntt_dit_body zeta len j s) (by omega) (by omega)
    refine ⟨s', ?_, ?_, ?_, ?_, ?_⟩
    · have hlt : j < j + (n + 1) := by omega
      have hb : j + (n + 1) = j + 1 + n := by omega
      simp only [ntt_dit_j, if_pos hlt]
      rw [hb]
      exact hrun
    · rw [hk, ntt_dit_body_k]
    · rw [hreads, ntt_dit_body_reads]
    · intro i
      rw [hr i]
      simp only [ntt_dit_body_r zeta len j s hlen]
      by_cases hij : i = j
      · subst hij
        have c1 : ¬ (i + 1 ≤ i ∧ i < i + 1 + n) := by omega
        have c2 : ¬ (i + 1 + len ≤ i ∧ i < i + 1 + n + len) := by omega
        have c3 : i ≤ i ∧ i < i + (n + 1) := by omega
        rw [if_neg c1, if_neg c2, if_pos c3, if_pos rfl]
      · by_cases hijl : i = j + len
        · subst hijl
          have c1 : ¬ (j + 1 ≤ j + len ∧ j + len < j + 1 + n) := by omega
          have c2 : ¬ (j + 1 + len ≤ j + len ∧ j + len < j + 1 + n + len) := by omega
          have c3 : ¬ (j ≤ j + len ∧ j + len < j + (n + 1)) := by omega
          have c4 : j + len ≤ j + len ∧ j + len < j + (n + 1) + len := by omega
          have c5 : j + len - len = j := by omega
          rw [if_neg c1, if_neg c2, if_neg c3, if_pos c4, if_neg hij, if_pos rfl, c5]
        · by_cases h1 : j + 1 ≤ i ∧ i < j + 1 + n
          · have c3 : j ≤ i ∧ i < j + (n + 1) := by omega
            have c4 : i + len ≠ j := by omega
            have c5 : i + len ≠ j + len := by omega
            rw [if_pos h1, if_pos c3, if_neg hij, if_neg hijl, if_neg c4, if_neg c5]
          · by_cases h2 : j + 1 + len ≤ i ∧ i < j + 1 + n + len
            · have c3 : ¬ (j ≤ i ∧ i < j + (n + 1)) := by omega
              have c4 : j + len ≤ i ∧ i < j + (n + 1) + len := by omega
              have c5 : i - len ≠ j := by omega
              have c6 : i - len ≠ j + len := by omega
              rw [if_neg h1, if_pos h2, if_neg c3, if_pos c4, if_neg hij, if_neg hijl,
                if_neg c5, if_neg c6]
            · have c3 : ¬ (j ≤ i ∧ i < j + (n + 1)) := by omega
              have c4 : ¬ (j + len ≤ i ∧ i < j + (n + 1) + len) := by omega
              rw [if_neg h1, if_neg h2, if_neg c3, if_neg c4, if_neg hij, if_neg hijl]
    · rw [hok]
      rfl

theorem ntt_dit_start_spec (len : Nat) (hlen : 0 < len) (hlen2 : len < 512) :
    ∀ (m fuel start : Nat) (s : Vars), m < fuel → start + m * (2 * len) = 256 →
      ∃ s' : Vars, ntt_dit_start len fuel start s = some s' ∧
        s'.k = s.k + m ∧ s'.reads = s.reads ++ List.range' s.k m ∧
        (∀ i, s'.r i =
          if start ≤ i ∧ i < 256 then
            if (i - start) % (2 * len) < len then
              wrap32 (s.r i +
                montgomery_reduce (wrap32 ((zetas (s.k + (i - start) / (2 * len))) * s.r (i + len))))
            else
              wrap32 (s.r (i - len) -
                montgomery_reduce (wrap32 ((zetas (s.k + (i - start) / (2 * len))) * s.r i)))
          else s.r i) ∧
        s'.ok = s.ok := by
  intro m
  induction m with
  | zero =>
    intro fuel start s hf hm
    obtain ⟨f, rfl⟩ : ∃ f, fuel = f + 1 := ⟨fuel - 1, by omega⟩
    have hst : ¬ start < 256 := by omega
    refine ⟨s, ?_, rfl, ?_, ?_, rfl⟩
    · simp only [ntt_dit_start, if_neg hst]
    · simp
    · intro i
      have h1 : ¬ (start ≤ i ∧ i < 256) := by omega
      rw [if_neg h1]
  | succ m ih =>
    intro fuel start s hf hm
    obtain ⟨f, rfl⟩ : ∃ f, fuel = f + 1 := ⟨fuel - 1, by omega⟩
    rw [Nat.succ_mul] at hm
    have hst : start < 256 := by omega
    have hw : 0 < 2 * len := by omega
    obtain ⟨s2, hrun2, hk2, hreads2, hr2, hok2⟩ :=
      ntt_dit_j_spec (zetas s.k) len hlen len 512 start
        { s with k := s.k + 1, reads := s.reads ++ [s.k] } hlen2 (le_refl _)
    obtain ⟨s', hrun, hk, hreads, hr, hok⟩ :=
      ih f (start + len + len) s2 (by omega) (by omega)
    simp only at hk2 hreads2 hr2 hok2
    refine ⟨s', ?_, ?_, ?_, ?_, ?_⟩
    · simp only [ntt_dit_start, if_pos hst, hrun2]
      exact hrun
    · rw [hk, hk2]; omega
    · rw [hreads, hreads2, hk2, List.range'_succ, List.append_assoc, List.singleton_append]
    · intro i
      rw [hr i]
      by_cases hA : start + len + len ≤ i ∧ i < 256
      · have hB : start ≤ i ∧ i < 256 := by omega
        obtain ⟨hd, hmod⟩ := seg_hi (2 * len) (i - start) hw (by omega)
        have e1 : i - start - 2 * len = i - (start + len + len) := by omega
        rw [e1] at hd hmod
        rw [if_pos hA, if_pos hB, hmod, hd, hk2]
        have ek : s.k + 1 + (i - (start + len + len)) / (2 * len) =
            s.k + ((i - (start + len + len)) / (2 * len) + 1) := by omega
        rw [ek]
        have n1 : ¬ (start ≤ i ∧ i < start + len) := by omega
        have n2 : ¬ (start + len ≤ i ∧ i < start + len + len) := by omega
        have n3 : ¬ (start ≤ i + len ∧ i + len < start + len) := by omega
        have n4 : ¬ (start + len ≤ i + len ∧ i + len < start + len + len) := by omega
        by_cases hlo : (i - (start + len + len)) % (2 * len) < len
        · rw [if_pos hlo, hr2 i, hr2 (i + len), if_neg n1, if_neg n2, if_neg n3, if_neg n4,
            if_pos hlo]
        · have hge : len ≤ i - (start + len + len) := by
            by_contra hc
            have := (seg_lo (2 * len) (i - (start + len + len)) (by omega)).2
            omega
          have n5 : ¬ (start ≤ i - len ∧ i - len < start + len) := by omega
          have n6 : ¬ (start + len ≤ i - len ∧ i - len < start + len + len) := by omega
          rw [if_neg hlo, hr2 i, hr2 (i - len), if_neg n1, if_neg n2, if_neg n5, if_neg n6,
            if_neg hlo]
      · rw [if_neg hA, hr2 i]
        by_cases h1 : start ≤ i ∧ i < start + len
        · have hB : start ≤ i ∧ i < 256 := by omega
          obtain ⟨hd, hmod⟩ := seg_lo (2 * len) (i - start) (by omega)
          have hlo : i - start < len := by omega
          rw [if_pos h1, if_pos hB, hmod, hd, if_pos hlo]
          rfl
        · by_cases h2 : start + len ≤ i ∧ i < start + len + len
          · have hB : start ≤ i ∧ i < 256 := by omega
            obtain ⟨hd, hmod⟩ := seg_lo (2 * len) (i - start) (by omega)
            have hlo : ¬ i - start < len := by omega
            rw [if_neg h1, if_pos h2, if_pos hB, hmod, hd, if_neg hlo]
            rfl
          · have hB : ¬ (start ≤ i ∧ i < 256) := by omega
            rw [if_neg h1, if_neg h2, if_neg hB]
    · rw [hok, hok2]

/-- A complete `start` loop of `ntt_dit` is one application of `dit_layer`. -/
theorem ntt_dit_layer_run (len m : Nat) (hlen : 0 < len) (hlen2 : len < 512) (hm : m < 512)
    (hseg : 0 + m * (2 * len) = 256) (s : Vars) :
    ∃ s' : Vars, ntt_dit_start len 512 0 s = some s' ∧
      s'.k = s.k + m ∧ s'.reads = s.reads ++ List.range' s.k m ∧
      s'.r = dit_layer len s.k s.r ∧
      s'.ok = s.ok := by
  obtain ⟨s', hrun, hk, hreads, hr, hok⟩ := ntt_dit_start_spec len hlen hlen2 m 512 0 s hm hseg
  refine ⟨s', hrun, hk, hreads, ?_, hok⟩
  funext i
  rw [hr i]
  simp only [dit_layer, Nat.zero_le, true_and, Nat.sub_zero]

theorem ntt_dit_len_step (fuel len : Nat) (s s1 : Vars) (h2 : 2 ≤ len)
    (h : ntt_dit_start len 512 0 s = some s1) :
    ntt_dit_len (fuel + 1) len s = ntt_dit_len fuel (len >>> 1) s1 := by
  have h2' : len ≥ 2 := h2
  simp only [ntt_dit_len, if_pos h2', h]

/-- The loops of `ntt_dit` terminate and compute the seven layers in closed
form; the twiddle table is read at the indices `1, 2, ..., 127` in this
order. -/
theorem ntt_dit_run (x : Nat → Int) :
    ∃ s : Vars, ntt_dit x = some s ∧ s.r = ntt_dit_upto 7 x ∧ s.k = 128 ∧
      s.reads = List.range' 1 127 := by
  obtain ⟨s1, e1, k1, d1, r1, o1⟩ := ntt_dit_layer_run 128 1 (by decide) (by decide) (by decide)
    (by decide) { r := x, k := 1, reads := [], ok := true }
  obtain ⟨s2, e2, k2, d2, r2, o2⟩ := ntt_dit_layer_run 64 2 (by decide) (by decide) (by decide)
    (by decide) s1
  obtain ⟨s3, e3, k3, d3, r3, o3⟩ := ntt_dit_layer_run 32 4 (by decide) (by decide) (by decide)
    (by decide) s2
  obtain ⟨s4, e4, k4, d4, r4, o4⟩ := ntt_dit_layer_run 16 8 (by decide) (by decide) (by decide)
    (by decide) s3
  obtain ⟨s5, e5, k5, d5, r5, o5⟩ := ntt_dit_layer_run 8 16 (by decide) (by decide) (by decide)
    (by decide) s4
  obtain ⟨s6, e6, k6, d6, r6, o6⟩ := ntt_dit_layer_run 4 32 (by decide) (by decide) (by decide)
    (by decide) s5
  obtain ⟨s7, e7, k7, d7, r7, o7⟩ := ntt_dit_layer_run 2 64 (by decide) (by decide) (by decide)
    (by decide) s6
  simp only at k1 d1 r1 o1
  have k2' : s2.k = 4 := by omega
  have k3' : s3.k = 8 := by omega
  have k4' : s4.k = 16 := by omega
  have k5' : s5.k = 32 := by omega
  have k6' : s6.k = 64 := by omega
  have k7' : s7.k = 128 := by omega
  have k1' : s1.k = 2 := by omega
  have hexit : ntt_dit_len 505 1 s7 = some s7 := by
    simp [ntt_dit_len]
  have h1 : ntt_dit_len 512 128 { r := x, k := 1, reads := [], ok := true } =
      ntt_dit_len 511 64 s1 :=
    ntt_dit_len_step 511 128 _ s1 (by decide) e1
  have h2 : ntt_dit_len 511 64 s1 = ntt_dit_len 510 32 s2 :=
    ntt_dit_len_step 510 64 s1 s2 (by decide) e2
  have h3 : ntt_dit_len 510 32 s2 = ntt_dit_len 509 16 s3 :=
    ntt_dit_len_step 509 32 s2 s3 (by decide) e3
  have h4 : ntt_dit_len 509 16 s3 = ntt_dit_len 508 8 s4 :=
    ntt_dit_len_step 508 16 s3 s4 (by decide) e4
  have h5 : ntt_dit_len 508 8 s4 = ntt_dit_len 507 4 s5 :=
    ntt_dit_len_step 507 8 s4 s5 (by decide) e5
  have h6 : ntt_dit_len 507 4 s5 = ntt_dit_len 506 2 s6 :=
    ntt_dit_len_step 506 4 s5 s6 (by decide) e6
  have h7 : ntt_dit_len 506 2 s6 = ntt_dit_len 505 1 s7 :=
    ntt_dit_len_step 505 2 s6 s7 (by decide) e7
  have hrun : ntt_dit x = some s7 := by
    unfold ntt_dit
    rw [h1, h2, h3, h4, h5, h6, h7]
    exact hexit
  have y1 : s1.r = ntt_dit_upto 1 x := r1
  have y2 : s2.r = ntt_dit_upto 2 x := by rw [r2, y1, k1']; rfl
  have y3 : s3.r = ntt_dit_upto 3 x := by rw [r3, y2, k2']; rfl
  have y4 : s4.r = ntt_dit_upto 4 x := by rw [r4, y3, k3']; rfl
  have y5 : s5.r = ntt_dit_upto 5 x := by rw [r5, y4, k4']; rfl
  have y6 : s6.r = ntt_dit_upto 6 x := by rw [r6, y5, k5']; rfl
  have y7 : s7.r = ntt_dit_upto 7 x := by rw [r7, y6, k6']; rfl
  refine ⟨s7, hrun, y7, k7', ?_⟩
  rw [d7, d6, d5, d4, d3, d2, d1, k1', k2', k3', k4', k5', k6']
  rfl


/-! ## The loops of `invntt_tomont` compute the layer closed form -/

theorem invntt_tomont_body_r (zeta : Int) (len j : Nat) (s : Vars) (hlen : 0 < len) (i : Nat) :
    (invntt_tomont_body zeta len j s).r i =
      if i = j then barrett_reduce (wrap32 (s.r j + s.r (j + len)))
      else if i = j + len then montgomery_reduce (wrap32 (zeta * wrap32 (s.r (j + len) - s.r j)))
      else s.r i := by
  have hne : j + len ≠ j := by omega
  simp only [invntt_tomont_body, upd_apply, if_neg hne, if_pos]
  by_cases h1 : i = j + len
  · have h2 : ¬ i = j := by omega
    rw [if_pos h1, if_neg h2, if_pos h1]
  · rw [if_neg h1, if_neg h1, if_neg h1]

theorem invntt_tomont_body_k (zeta : Int) (len j : Nat) (s : Vars) :
    (invntt_tomont_body zeta len j s).k = s.k := rfl

theorem invntt_tomont_body_reads (zeta : Int) (len j : Nat) (s : Vars) :
    (invntt_tomont_body zeta len j s).reads = s.reads := rfl

theorem invntt_tomont_j_spec (zeta : Int) (len : Nat) (hlen : 0 < len) :
    ∀ (n fuel j : Nat) (s : Vars), n < fuel → n ≤ len →
      ∃ s' : Vars, invntt_tomont_j zeta len (j + n) fuel j s = some (j + n, s') ∧
        s'.k = s.k ∧ s'.reads = s.reads ∧
        (∀ i, s'.r i =
          if j ≤ i ∧ i < j + n then barrett_reduce (wrap32 (s.r i + s.r (i + len)))
          else if j + len ≤ i ∧ i < j + n + len then
            montgomery_reduce (wrap32 (zeta * wrap32 (s.r i - s.r (i - len))))
          else s.r i) ∧
        s'.ok = s.ok := by
  intro n
  induction n with
  | zero =>
    intro fuel j s hf _
    obtain ⟨f, rfl⟩ : ∃ f, fuel = f + 1 := ⟨fuel - 1, by omega⟩
    refine ⟨s, ?_, rfl, rfl, ?_, rfl⟩
    · simp [invntt_tomont_j]
    · intro i
      have h1 : ¬ (j ≤ i ∧ i < j + 0) := by omega
      have h2 : ¬ (j + len ≤ i ∧ i < j + 0 + len) := by omega
      rw [if_neg h1, if_neg h2]
  | succ n ih =>
    intro fuel j s hf hn
    obtain ⟨f, rfl⟩ : ∃ f, fuel = f + 1 := ⟨fuel - 1, by omega⟩
    obtain ⟨s', hrun, hk, hreads, hr, hok⟩ :=
      ih f (j + 1) (invntt_tomont_body zeta len j s) (by omega) (by omega)
    refine ⟨s', ?_, ?_, ?_, ?_, ?_⟩
    · have hlt : j < j + (n + 1) := by omega
      have hb : j + (n + 1) = j + 1 + n := by omega
      simp only [invntt_tomont_j, if_pos hlt]
      rw [hb]
      exact hrun
    · rw [hk, invntt_tomont_body_k]
    · rw [hreads, invntt_tomont_body_reads]
    · intro i
      rw [hr i]
      simp only [invntt_tomont_body_r zeta len j s hlen]
      by_cases hij : i = j
      · subst hij
        have c1 : ¬ (i + 1 ≤ i ∧ i < i + 1 + n) := by omega
        have c2 : ¬ (i + 1 + len ≤ i ∧ i < i + 1 + n + len) := by omega
        have c3 : i ≤ i ∧ i < i + (n + 1) := by omega
        rw [if_neg c1, if_neg c2, if_pos c3, if_pos rfl]
      · by_cases hijl : i = j + len
        · subst hijl
          have c1 : ¬ (j + 1 ≤ j + len ∧ j + len < j + 1 + n) := by omega
          have c2 : ¬ (j + 1 + len ≤ j + len ∧ j + len < j + 1 + n + len) := by omega
          have c3 : ¬ (j ≤ j + len ∧ j + len < j + (n + 1)) := by omega
          have c4 : j + len ≤ j + len ∧ j + len < j + (n + 1) + len := by omega
          have c5 : j + len - len = j := by omega
          rw [if_neg c1, if_neg c2, if_neg c3, if_pos c4, if_neg hij, if_pos rfl, c5]
        · by_cases h1 : j + 1 ≤ i ∧ i < j + 1 + n
          · have c3 : j ≤ i ∧ i < j + (n + 1) := by omega
            have c4 : i + len ≠ j := by omega
            have c5 : i + len ≠ j + len := by omega
            rw [if_pos h1, if_pos c3, if_neg hij, if_neg hijl, if_neg c4, if_neg c5]
          · by_cases h2 : j + 1 + len ≤ i ∧ i < j + 1 + n + len
            · have c3 : ¬ (j ≤ i ∧ i < j + (n + 1)) := by omega
              have c4 : j + len ≤ i ∧ i < j + (n + 1) + len := by omega
              have c5 : i - len ≠ j := by omega
              have c6 : i - len ≠ j + len := by omega
              rw [if_neg h1, if_pos h2, if_neg c3, if_pos c4, if_neg hij, if_neg hijl,
                if_neg c5, if_neg c6]
            · have c3 : ¬ (j ≤ i ∧ i < j + (n + 1)) := by omega
              have c4 : ¬ (j + len ≤ i ∧ i < j + (n + 1) + len) := by omega
              rw [if_neg h1, if_neg h2, if_neg c3, if_neg c4, if_neg hij, if_neg hijl]
    · rw [hok]
      rfl

theorem invntt_tomont_start_spec (len : Nat) (hlen : 0 < len) (hlen2 : len < 512) :
    ∀ (m fuel start : Nat) (s : Vars), m < fuel → start + m * (2 * len) = 256 →
      ∃ s' : Vars, invntt_tomont_start len fuel start s = some s' ∧
        s'.k = s.k - m ∧ s'.reads = s.reads ++ (List.range m).map (fun q => s.k - 1 - q) ∧
        (∀ i, s'.r i =
          if start ≤ i ∧ i < 256 then
            if (i - start) % (2 * len) < len then barrett_reduce (wrap32 (s.r i + s.r (i + len)))
            else
              montgomery_reduce (wrap32 (zetas (s.k - 1 - (i - start) / (2 * len)) * wrap32 (s.r i - s.r (i - len))))
          else s.r i) ∧
        s'.ok = s.ok := by
  intro m
  induction m with
  | zero =>
    intro fuel start s hf hm
    obtain ⟨f, rfl⟩ : ∃ f, fuel = f + 1 := ⟨fuel - 1, by omega⟩
    have hst : ¬ start < 256 := by omega
    refine ⟨s, ?_, rfl, ?_, ?_, rfl⟩
    · simp only [invntt_tomont_start, if_neg hst]
    · simp
    · intro i
      have h1 : ¬ (start ≤ i ∧ i < 256) := by omega
      rw [if_neg h1]
  | succ m ih =>
    intro fuel start s hf hm
    obtain ⟨f, rfl⟩ : ∃ f, fuel = f + 1 := ⟨fuel - 1, by omega⟩
    rw [Nat.succ_mul] at hm
    have hst : start < 256 := by omega
    have hw : 0 < 2 * len := by omega
    obtain ⟨s2, hrun2, hk2, hreads2, hr2, hok2⟩ :=
      invntt_tomont_j_spec (zetas (s.k - 1)) len hlen len 512 start
        { s with k := s.k - 1, reads := s.reads ++ [s.k - 1] } hlen2 (le_refl _)
    obtain ⟨s', hrun, hk, hreads, hr, hok⟩ :=
      ih f (start + len + len) s2 (by omega) (by omega)
    simp only at hk2 hreads2 hr2 hok2
    refine ⟨s', ?_, ?_, ?_, ?_, ?_⟩
    · simp only [invntt_tomont_start, if_pos hst, hrun2]
      exact hrun
    · rw [hk, hk2]; omega
    · rw [hreads, hreads2, hk2, List.range_succ_eq_map, List.map_cons, List.map_map,
        List.append_assoc, List.singleton_append, Nat.sub_zero]
      congr 2
      apply List.map_congr_left
      intro q _
      simp only [Function.comp_apply]
      omega
    · intro i
      rw [hr i]
      by_cases hA : start + len + len ≤ i ∧ i < 256
      · have hB : start ≤ i ∧ i < 256 := by omega
        obtain ⟨hd, hmod⟩ := seg_hi (2 * len) (i - start) hw (by omega)
        have e1 : i - start - 2 * len = i - (start + len + len) := by omega
        rw [e1] at hd hmod
        rw [if_pos hA, if_pos hB, hmod, hd, hk2]
        have ek : s.k - 1 - 1 - (i - (start + len + len)) / (2 * len) =
            s.k - 1 - ((i - (start + len + len)) / (2 * len) + 1) := by omega
        rw [ek]
        have n1 : ¬ (start ≤ i ∧ i < start + len) := by omega
        have n2 : ¬ (start + len ≤ i ∧ i < start + len + len) := by omega
        have n3 : ¬ (start ≤ i + len ∧ i + len < start + len) := by omega
        have n4 : ¬ (start + len ≤ i + len ∧ i + len < start + len + len) := by omega
        by_cases hlo : (i - (start + len + len)) % (2 * len) < len
        · rw [if_pos hlo, hr2 i, hr2 (i + len), if_neg n1, if_neg n2, if_neg n3, if_neg n4,
            if_pos hlo]
        · have hge : len ≤ i - (start + len + len) := by
            by_contra hc
            have := (seg_lo (2 * len) (i - (start + len + len)) (by omega)).2
            omega
          have n5 : ¬ (start ≤ i - len ∧ i - len < start + len) := by omega
          have n6 : ¬ (start + len ≤ i - len ∧ i - len < start + len + len) := by omega
          rw [if_neg hlo, hr2 i, hr2 (i - len), if_neg n1, if_neg n2, if_neg n5, if_neg n6,
            if_neg hlo]
      · rw [if_neg hA, hr2 i]
        by_cases h1 : start ≤ i ∧ i < start + len
        · have hB : start ≤ i ∧ i < 256 := by omega
          obtain ⟨hd, hmod⟩ := seg_lo (2 * len) (i - start) (by omega)
          have hlo : i - start < len := by omega
          rw [if_pos h1, if_pos hB, hmod, if_pos hlo]
        · by_cases h2 : start + len ≤ i ∧ i < start + len + len
          · have hB : start ≤ i ∧ i < 256 := by omega
            obtain ⟨hd, hmod⟩ := seg_lo (2 * len) (i - start) (by omega)
            have hlo : ¬ i - start < len := by omega
            rw [if_neg h1, if_pos h2, if_pos hB, hmod, hd, if_neg hlo]
            rfl
          · have hB : ¬ (start ≤ i ∧ i < 256) := by omega
            rw [if_neg h1, if_neg h2, if_neg hB]
    · rw [hok, hok2]

theorem invntt_tomont_scale_spec (f : Int) :
    ∀ (n fuel j : Nat) (s : Vars), n < fuel → j + n = 256 →
      ∃ s' : Vars, invntt_tomont_scale f fuel j s = some s' ∧
        s'.k = s.k ∧ s'.reads = s.reads ∧ s'.ok = s.ok ∧
        (∀ i, s'.r i = if j ≤ i ∧ i < 256 then
          montgomery_reduce (wrap32 (f * s.r i)) else s.r i) := by
  intro n
  induction n with
  | zero =>
    intro fuel j s hf hj
    obtain ⟨g, rfl⟩ : ∃ g, fuel = g + 1 := ⟨fuel - 1, by omega⟩
    have hst : ¬ j < 256 := by omega
    refine ⟨s, ?_, rfl, rfl, rfl, ?_⟩
    · simp only [invntt_tomont_scale, if_neg hst]
    · intro i
      have h1 : ¬ (j ≤ i ∧ i < 256) := by omega
      rw [if_neg h1]
  | succ n ih =>
    intro fuel j s hf hj
    obtain ⟨g, rfl⟩ : ∃ g, fuel = g + 1 := ⟨fuel - 1, by omega⟩
    have hst : j < 256 := by omega
    obtain ⟨s', hrun, hk, hreads, hok, hr⟩ :=
      ih g (j + 1) { s with r := upd s.r j (montgomery_reduce (wrap32 (f * s.r j))) }
        (by omega) (by omega)
    simp only at hk hreads hok hr
    refine ⟨s', ?_, hk, hreads, hok, ?_⟩
    · simp only [invntt_tomont_scale, if_pos hst]
      exact hrun
    · intro i
      rw [hr i, upd_apply]
      by_cases hij : i = j
      · subst hij
        have c1 : ¬ (i + 1 ≤ i ∧ i < 256) := by omega
        have c2 : i ≤ i ∧ i < 256 := by omega
        rw [if_neg c1, if_pos rfl, if_pos c2]
      · by_cases h1 : j + 1 ≤ i ∧ i < 256
        · have c2 : j ≤ i ∧ i < 256 := by omega
          rw [if_pos h1, if_pos c2, if_neg hij]
        · have c2 : ¬ (j ≤ i ∧ i < 256) := by omega
          rw [if_neg h1, if_neg c2, if_neg hij]


/-- A complete `start` loop of `invntt_tomont` is one application of
`tomont_layer`. -/
theorem invntt_tomont_layer_run (len m : Nat) (hlen : 0 < len) (hlen2 : len < 512) (hm : m < 512)
    (hseg : 0 + m * (2 * len) = 256) (s : Vars) :
    ∃ s' : Vars, invntt_tomont_start len 512 0 s = some s' ∧
      s'.k = s.k - m ∧ s'.reads = s.reads ++ (List.range m).map (fun q => s.k - 1 - q) ∧
      s'.r = tomont_layer len s.k s.r ∧
      s'.ok = s.ok := by
  obtain ⟨s', hrun, hk, hreads, hr, hok⟩ := invntt_tomont_start_spec
    len hlen hlen2 m 512 0 s hm hseg
  refine ⟨s', hrun, hk, hreads, ?_, hok⟩
  funext i
  rw [hr i]
  simp only [tomont_layer, Nat.zero_le, true_and, Nat.sub_zero]

theorem invntt_tomont_len_step (fuel len : Nat) (s s1 : Vars) (h2 : len ≤ 128)
    (h : invntt_tomont_start len 512 0 s = some s1) :
    invntt_tomont_len (fuel + 1) len s = invntt_tomont_len fuel (len <<< 1) s1 := by
  simp only [invntt_tomont_len, if_pos h2, h]

/-- The loops of `invntt_tomont` terminate and compute the seven layers and
the final scaling in closed form; the twiddle table is read at the indices
`127, 126, ..., 1` in this order. -/
theorem invntt_tomont_run (y : Nat → Int) :
    ∃ s : Vars, invntt_tomont y = some s ∧
      s.r = tomont_scale_layer 1441 (invntt_tomont_upto 7 y) ∧ s.k = 1 ∧
      s.reads = (List.range' 1 127).reverse := by
  obtain ⟨s1, e1, k1, d1, r1, o1⟩ := invntt_tomont_layer_run
    2 64 (by decide) (by decide) (by decide)
    (by decide) { r := y, k := 128, reads := [], ok := true }
  obtain ⟨s2, e2, k2, d2, r2, o2⟩ := invntt_tomont_layer_run
    4 32 (by decide) (by decide) (by decide)
    (by decide) s1
  obtain ⟨s3, e3, k3, d3, r3, o3⟩ := invntt_tomont_layer_run
    8 16 (by decide) (by decide) (by decide)
    (by decide) s2
  obtain ⟨s4, e4, k4, d4, r4, o4⟩ := invntt_tomont_layer_run
    16 8 (by decide) (by decide) (by decide)
    (by decide) s3
  obtain ⟨s5, e5, k5, d5, r5, o5⟩ := invntt_tomont_layer_run
    32 4 (by decide) (by decide) (by decide)
    (by decide) s4
  obtain ⟨s6, e6, k6, d6, r6, o6⟩ := invntt_tomont_layer_run
    64 2 (by decide) (by decide) (by decide)
    (by decide) s5
  obtain ⟨s7, e7, k7, d7, r7, o7⟩ := invntt_tomont_layer_run
    128 1 (by decide) (by decide) (by decide)
    (by decide) s6
  obtain ⟨s8, e8, k8, d8, o8, r8⟩ := invntt_tomont_scale_spec
    1441 256 512 0 s7 (by decide) (by decide)
  simp only at k1 d1 r1 o1
  have k1' : s1.k = 64 := by omega
  have k2' : s2.k = 32 := by omega
  have k3' : s3.k = 16 := by omega
  have k4' : s4.k = 8 := by omega
  have k5' : s5.k = 4 := by omega
  have k6' : s6.k = 2 := by omega
  have k7' : s7.k = 1 := by omega
  have hexit : invntt_tomont_len 505 256 s7 = some s7 := by
    simp [invntt_tomont_len]
  have h1 : invntt_tomont_len 512 2 { r := y, k := 128, reads := [], ok := true } =
      invntt_tomont_len 511 4 s1 := invntt_tomont_len_step 511 2 _ s1 (by decide) e1
  have h2 : invntt_tomont_len 511 4 s1 = invntt_tomont_len 510 8 s2 :=
    invntt_tomont_len_step 510 4 s1 s2 (by decide) e2
  have h3 : invntt_tomont_len 510 8 s2 = invntt_tomont_len 509 16 s3 :=
    invntt_tomont_len_step 509 8 s2 s3 (by decide) e3
  have h4 : invntt_tomont_len 509 16 s3 = invntt_tomont_len 508 32 s4 :=
    invntt_tomont_len_step 508 16 s3 s4 (by decide) e4
  have h5 : invntt_tomont_len 508 32 s4 = invntt_tomont_len 507 64 s5 :=
    invntt_tomont_len_step 507 32 s4 s5 (by decide) e5
  have h6 : invntt_tomont_len 507 64 s5 = invntt_tomont_len 506 128 s6 :=
    invntt_tomont_len_step 506 64 s5 s6 (by decide) e6
  have h7 : invntt_tomont_len 506 128 s6 = invntt_tomont_len 505 256 s7 :=
    invntt_tomont_len_step 505 128 s6 s7 (by decide) e7
  have hrun : invntt_tomont y = some s8 := by
    unfold invntt_tomont
    rw [h1, h2, h3, h4, h5, h6, h7, hexit]
    exact e8
  have y1 : s1.r = invntt_tomont_upto 1 y := r1
  have y2 : s2.r = invntt_tomont_upto 2 y := by rw [r2, y1, k1']; rfl
  have y3 : s3.r = invntt_tomont_upto 3 y := by rw [r3, y2, k2']; rfl
  have y4 : s4.r = invntt_tomont_upto 4 y := by rw [r4, y3, k3']; rfl
  have y5 : s5.r = invntt_tomont_upto 5 y := by rw [r5, y4, k4']; rfl
  have y6 : s6.r = invntt_tomont_upto 6 y := by rw [r6, y5, k5']; rfl
  have y7 : s7.r = invntt_tomont_upto 7 y := by rw [r7, y6, k6']; rfl
  refine ⟨s8, hrun, ?_, by rw [k8, k7'], ?_⟩
  · funext i
    rw [r8 i, y7]
    simp only [tomont_scale_layer, Nat.zero_le, true_and]
  · rw [d8, d7, d6, d5, d4, d3, d2, d1, k1', k2', k3', k4', k5', k6']
    rfl


/-! ## The `int32_t` transforms agree with the `int16_t` transforms -/

/-- On `int16_t` values the reduction of the 32-bit product is `fqmul`. -/
theorem montgomery_reduce_mul (z b : Int) (hz1 : -32768 ≤ z) (hz2 : z ≤ 32767)
    (hb1 : -32768 ≤ b) (hb2 : b ≤ 32767) :
    montgomery_reduce (wrap32 (z * b)) = fqmul z b := by
  have hp := mul_bounds z b 32768 32768 (by omega) (by omega) (by omega) (by omega)
  unfold fqmul
  rw [wrap16_of_fits z hz1 hz2, wrap16_of_fits b hb1 hb2,
    wrap32_of_fits (z * b) (by omega) (by omega)]

theorem layer_len_facts_inv (l : Nat) (hl : l < 7) :
    (2 <<< l = 128 ∨ 2 <<< l = 64 ∨ 2 <<< l = 32 ∨ 2 <<< l = 16 ∨ 2 <<< l = 8 ∨
      2 <<< l = 4 ∨ 2 <<< l = 2) ∧
    (128 >>> l = 128 ∨ 128 >>> l = 64 ∨ 128 >>> l = 32 ∨ 128 >>> l = 16 ∨ 128 >>> l = 8 ∨
      128 >>> l = 4 ∨ 128 >>> l = 2) ∧
    128 >>> l = (128 >>> l - 1) + 1 := by
  interval_cases l <;> decide

/-- A layer of `ntt_dit` equals the layer of `ntt` on a buffer of `int16_t`
values on which no butterfly of `ntt` wraps. -/
theorem dit_layer_eq (len k : Nat)
    (hlen : len = 128 ∨ len = 64 ∨ len = 32 ∨ len = 16 ∨ len = 8 ∨ len = 4 ∨ len = 2)
    (r : Nat → Int) (hb : ∀ i, i < 256 → -32768 ≤ r i ∧ r i ≤ 32767)
    (hfit : ct_fits len k r) :
    dit_layer len k r = ct_layer len k r := by
  funext i
  by_cases hi : i < 256
  · have hz := zetas_bound (k + i / (2 * len))
    simp only [dit_layer, ct_layer, if_pos hi]
    by_cases hlo : i % (2 * len) < len
    · obtain ⟨h1, -, -, -⟩ := (seg_facts len i hlen hi).1 hlo
      have hb2 := hb (i + len) h1
      have hf := (hfit i hi hlo).2
      rw [fits16_iff] at hf
      rw [if_pos hlo, if_pos hlo, montgomery_reduce_mul _ _ (by omega) (by omega) hb2.1 hb2.2,
        wrap16_of_fits _ hf.1 hf.2, wrap32_of_fits _ (by omega) (by omega)]
    · obtain ⟨h1, h2, h3, h4⟩ := (seg_facts len i hlen hi).2 hlo
      have hb2 := hb i hi
      have hf := (hfit (i - len) (by omega) h2).1
      rw [h3, h4, fits16_iff] at hf
      rw [if_neg hlo, if_neg hlo, montgomery_reduce_mul _ _ (by omega) (by omega) hb2.1 hb2.2,
        wrap16_of_fits _ hf.1 hf.2, wrap32_of_fits _ (by omega) (by omega)]
  · simp only [dit_layer, ct_layer, if_neg hi]

/-- A layer of `invntt_tomont` entered with counter `k + 1` equals the layer
of `invntt` entered with counter `k` on a buffer bounded by `16383`, and the
buffer after the layer is bounded by `2496`. -/
theorem tomont_layer_eq (len k : Nat)
    (hlen : len = 128 ∨ len = 64 ∨ len = 32 ∨ len = 16 ∨ len = 8 ∨ len = 4 ∨ len = 2)
    (r : Nat → Int) (hb : ∀ i, i < 256 → -16383 ≤ r i ∧ r i ≤ 16383) :
    tomont_layer len (k + 1) r = gs_layer len k r ∧
    ∀ i, i < 256 → -2496 ≤ gs_layer len k r i ∧ gs_layer len k r i ≤ 2496 := by
  constructor
  · funext i
    by_cases hi : i < 256
    · simp only [tomont_layer, gs_layer, if_pos hi, Nat.add_sub_cancel]
      by_cases hlo : i % (2 * len) < len
      · obtain ⟨h1, -, -, -⟩ := (seg_facts len i hlen hi).1 hlo
        have ha := hb i hi
        have hb2 := hb (i + len) h1
        rw [if_pos hlo, if_pos hlo, wrap32_of_fits _ (by omega) (by omega)]
      · obtain ⟨h1, -, -, -⟩ := (seg_facts len i hlen hi).2 hlo
        have ha := hb i hi
        have hb2 := hb (i - len) (by omega)
        have hz := zetas_bound (k - i / (2 * len))
        rw [if_neg hlo, if_neg hlo, wrap32_of_fits (r i - r (i - len)) (by omega) (by omega),
          wrap16_of_fits (r i - r (i - len)) (by omega) (by omega),
          montgomery_reduce_mul _ _ (by omega) (by omega) (by omega) (by omega)]
    · simp only [tomont_layer, gs_layer, if_neg hi]
  · intro i hi
    simp only [gs_layer, if_pos hi]
    by_cases hlo : i % (2 * len) < len
    · obtain ⟨h1, -, -, -⟩ := (seg_facts len i hlen hi).1 hlo
      have ha := hb i hi
      have hb2 := hb (i + len) h1
      have := barrett_reduce_range (r i + r (i + len)) (by omega) (by omega)
      rw [if_pos hlo]
      omega
    · obtain ⟨h1, -, -, -⟩ := (seg_facts len i hlen hi).2 hlo
      have ha := hb i hi
      have hb2 := hb (i - len) (by omega)
      have hz := zetas_bound (k - i / (2 * len))
      rw [if_neg hlo, wrap16_of_fits _ (by omega) (by omega)]
      have := fqmul_bound (zetas (k - i / (2 * len))) (r i - r (i - len)) 32766 hz.1 hz.2
        (by omega) (by omega) (by omega)
      omega

/-- The scaling loops agree on a buffer of `int16_t` values. -/
theorem tomont_scale_eq (r : Nat → Int) (hb : ∀ i, i < 256 → -32768 ≤ r i ∧ r i ≤ 32767) :
    tomont_scale_layer 1441 r = scale_layer 1441 r := by
  funext i
  by_cases hi : i < 256
  · have h := hb i hi
    simp only [tomont_scale_layer, scale_layer, if_pos hi]
    rw [montgomery_reduce_mul 1441 (r i) (by decide) (by decide) h.1 h.2]
    unfold fqmul
    rw [mul_comm]
  · simp only [tomont_scale_layer, scale_layer, if_neg hi]

/-- The forward closed forms agree when no butterfly of `ntt` wraps. -/
theorem ntt_dit_upto_eq (x : Nat → Int) (hfit : ntt_fits x)
    (hb : ∀ l : Nat, l ≤ 7 → ∀ i, i < 256 → -32768 ≤ ntt_upto l x i ∧ ntt_upto l x i ≤ 32767) :
    ∀ l, l ≤ 7 → ntt_dit_upto l x = ntt_upto l x := by
  intro l
  induction l with
  | zero => intro _; rfl
  | succ l ih =>
    intro hl
    obtain ⟨-, f2, -⟩ := layer_len_facts_inv l (by omega)
    have e1 : ntt_dit_upto (l + 1) x = dit_layer (128 >>> l) (2 ^ l) (ntt_dit_upto l x) := rfl
    have e2 : ntt_upto (l + 1) x = ct_layer (128 >>> l) (2 ^ l) (ntt_upto l x) := rfl
    rw [e1, e2, ih (by omega)]
    exact dit_layer_eq (128 >>> l) (2 ^ l) f2 (ntt_upto l x) (hb l (by omega))
      (hfit l (by omega))

/-- The inverse closed forms agree on an input bounded by `16383`, and every
buffer on the way is bounded by `16383`. -/
theorem invntt_tomont_upto_eq (y : Nat → Int)
    (hy : ∀ i, i < 256 → -16383 ≤ y i ∧ y i ≤ 16383) :
    ∀ l, l ≤ 7 → invntt_tomont_upto l y = invntt_upto l y ∧
      ∀ i, i < 256 → -16383 ≤ invntt_upto l y i ∧ invntt_upto l y i ≤ 16383 := by
  intro l
  induction l with
  | zero => intro _; exact ⟨rfl, hy⟩
  | succ l ih =>
    intro hl
    obtain ⟨f1, -, f3⟩ := layer_len_facts_inv l (by omega)
    obtain ⟨he, hbd⟩ := ih (by omega)
    have e1 : invntt_tomont_upto (l + 1) y =
        tomont_layer (2 <<< l) (128 >>> l) (invntt_tomont_upto l y) := rfl
    have e2 : invntt_upto (l + 1) y =
        gs_layer (2 <<< l) (128 >>> l - 1) (invntt_upto l y) := rfl
    obtain ⟨g1, g2⟩ := tomont_layer_eq (2 <<< l) (128 >>> l - 1) f1 (invntt_upto l y) hbd
    rw [← f3] at g1
    refine ⟨by rw [e1, e2, he, g1], ?_⟩
    intro i hi
    rw [e2]
    have := g2 i hi
    omega

/-- The two inverse transforms on an input bounded by `16383`: both
terminate, read the same twiddle indices, and return the same buffer. -/
theorem invntt_agree (y : Nat → Int) (hy : ∀ i, i < 256 → -16383 ≤ y i ∧ y i ≤ 16383) :
    ∃ s t : Vars, invntt y = some s ∧ invntt_tomont y = some t ∧
      s.reads = (List.range' 1 127).reverse ∧ t.reads = (List.range' 1 127).reverse ∧
      t.r = s.r := by
  obtain ⟨s, hs, hsr, -, hsd, -⟩ := invntt_run y
  obtain ⟨t, ht, htr, -, htd⟩ := invntt_tomont_run y
  obtain ⟨he, hbd⟩ := invntt_tomont_upto_eq y hy 7 (le_refl _)
  refine ⟨s, t, hs, ht, hsd, htd, ?_⟩
  rw [htr, hsr, he]
  exact tomont_scale_eq _ (fun i hi => by have := hbd i hi; omega)

/-- C18. `invntt` (counter from 127, `zetas[k--]`) and `invntt_tomont`
(counter from 128, `zetas[--k]`) both terminate, read the twiddle table at
the identical index sequence `127, 126, ..., 1`, and on every input whose
elements at the indices `0..255` have absolute value at most `16383` they
return elementwise equal buffers. -/
theorem invntt_entry_points_agree (y : Nat → Int)
    (hy : ∀ i, i < 256 → -16383 ≤ y i ∧ y i ≤ 16383) :
    ∃ s t : Vars, invntt y = some s ∧ invntt_tomont y = some t ∧
      s.reads = t.reads ∧ s.reads = (List.range' 1 127).reverse ∧
      ∀ i, i < 256 → t.r i = s.r i := by
  obtain ⟨s, t, hs, ht, hsd, htd, hr⟩ := invntt_agree y hy
  exact ⟨s, t, hs, ht, by rw [hsd, htd], hsd, fun i _ => by rw [hr]⟩

/-- Witness for C18 on the buffer of the constant polynomial `1`. -/
theorem invntt_entry_points_agree_witness :
    ∃ s t : Vars, invntt one_poly = some s ∧ invntt_tomont one_poly = some t ∧
      s.reads = t.reads ∧ s.reads = (List.range' 1 127).reverse ∧
      ∀ i, i < 256 → t.r i = s.r i :=
  invntt_entry_points_agree one_poly (fun i _ => by
    unfold one_poly
    by_cases h : i = 0
    · rw [if_pos h]; decide
    · rw [if_neg h]; decide)

/-- C17. For every input `x` with all elements at the indices `0..255` in
`[-1664, 1664]`, `ntt` then `invntt` (an `int16_t` buffer) and `ntt_dit` then
`invntt_tomont` (an `int32_t` buffer holding the same values) all terminate
and give elementwise equal buffers, after the forward transforms and at the
end. -/
theorem pipelines_agree (x : Nat → Int) (hx : ∀ i, i < 256 → -1664 ≤ x i ∧ x i ≤ 1664) :
    ∃ s t s' t' : Vars, ntt x = some s ∧ invntt s.r = some t ∧
      ntt_dit x = some s' ∧ invntt_tomont s'.r = some t' ∧
      (∀ i, i < 256 → s'.r i = s.r i) ∧ ∀ i, i < 256 → t'.r i = t.r i := by
  obtain ⟨hfit, hb⟩ := ntt_bounds x 1664 2020 hx (by decide) (by decide) (by decide)
  have hbd : ∀ l : Nat, l ≤ 7 → ∀ i, i < 256 →
      -15812 ≤ ntt_upto l x i ∧ ntt_upto l x i ≤ 15812 := by
    intro l hl i hi
    have := hb l hl i hi
    have hl' : (l : Int) ≤ 7 := by exact_mod_cast hl
    omega
  obtain ⟨s, hs, hsr, -, -, -⟩ := ntt_run x
  obtain ⟨s', hs', hsr', -, -⟩ := ntt_dit_run x
  have hfw := ntt_dit_upto_eq x hfit
    (fun l hl i hi => by have := hbd l hl i hi; omega) 7 (le_refl _)
  have hrr : s'.r = s.r := by rw [hsr', hsr, hfw]
  obtain ⟨t, t', ht, ht', -, -, hr⟩ := invntt_agree s.r
    (fun i hi => by rw [hsr]; have := hbd 7 (le_refl _) i hi; omega)
  refine ⟨s, t, s', t', hs, ht, hs', by rw [hrr]; exact ht', fun i _ => by rw [hrr],
    fun i _ => by rw [hr]⟩

/-- Witness for C17 on the buffer of the constant polynomial `1`. -/
theorem pipelines_agree_witness :
    ∃ s t s' t' : Vars, ntt one_poly = some s ∧ invntt s.r = some t ∧
      ntt_dit one_poly = some s' ∧ invntt_tomont s'.r = some t' ∧
      (∀ i, i < 256 → s'.r i = s.r i) ∧ ∀ i, i < 256 → t'.r i = t.r i :=
  pipelines_agree one_poly (fun i _ => by
    unfold one_poly
    by_cases h : i = 0
    · rw [if_pos h]; decide
    · rw [if_neg h]; decide)

end KyberNTT
